import Mathlib

/-!
# A verification development for the Scheme interpreter

Shallow embedding of `parser.c` and `interpreter.c`.

* A C `Value *` is a term of the inductive type `Value`; the token list handed to
  `parse` and the parser's stack are Lean lists of values.
* A C `Frame *` is an index into a `Heap`, the list of all frames allocated so far;
  `talloc` of a frame appends to the heap, so frames are shared by index exactly as
  they are shared by pointer in the C program.
* `evaluationError()` prints and calls `texit(1)`: it ends the run, and is modelled
  by the fault `Fault.evaluationError` of the `Except` monad.
* `eval` recurses without bound, so it takes a fuel argument: `eval fs (n+1)` runs
  the body of the C function with every recursive call made at fuel `n`.
-/

namespace Scheme

/-! ## Values -/

/-- The built-in procedures that `interpret` binds in the top-level frame; a value of
this type stands for the C function pointer stored in a `PRIMITIVE_TYPE` value. -/
inductive Prim where
  | primitiveAdd
  | primitiveMult
  | primitiveSub
  | primitiveDiv
  | primitiveLeq
  | primitiveIsEq
  | primitiveIsPair
  | primitiveIsNull
  | primitiveApply
  | primitiveCar
  | primitiveCdr
  | primitiveCons
  | primitiveLoad
  | primitiveNumberCheck
  | primitiveEvalError
  | primitiveIntegerCheck
  deriving DecidableEq, Repr

/-- Modelled from the spec: `value.h` is not among the sources; the variants are those of
section 3.1 of the specification and of the type tags used in `parser.c` and
`interpreter.c` (`INT_TYPE`, `DOUBLE_TYPE`, `STR_TYPE`, `SYMBOL_TYPE`, `BOOL_TYPE`,
`NULL_TYPE`, `VOID_TYPE`, `CONS_TYPE`, `CLOSURE_TYPE`, `PRIMITIVE_TYPE`, `OPEN_TYPE`,
`CLOSE_TYPE`).  A `double` payload is represented by a rational number (rounding is not
modelled); a closure holds the index of its captured frame. -/
inductive Value where
  | int (i : Int)
  | double (d : Rat)
  | str (s : String)
  | symbol (s : String)
  | bool (s : String)
  | null
  | void
  | cons (car cdr : Value)
  | closure (formal body : Value) (frame : Nat)
  | primitive (pf : Prim)
  | openType
  | closeType
  deriving DecidableEq, Repr

/-- The ways a run can stop without a value.
* `evaluationError`: the C function `evaluationError` was called.
* `exit`: `texit(1)` was called without the evaluation-error message.
* `crash`: an `assert` failed, or the C code read memory it must not read (`car` of a
  non-pair, the string field of a value that has none, a dangling frame).
* `unmodelled`: the outcome depends on object identity, which value trees do not record.
* `fuel`: the fuel of the model ran out. -/
inductive Fault where
  | evaluationError
  | exit
  | crash
  | unmodelled
  | fuel
  deriving DecidableEq, Repr

/-- Results of the model: a value of type `α`, or a fault. -/
abbrev Res (α : Type) := Except Fault α

/-! ## Linked lists (`linkedlist.c`) -/

/-- Modelled from the spec: `makeNull` of `linkedlist.c` (not among the sources) returns a
fresh `NULL_TYPE` value. -/
def makeNull : Value := Value.null

/-- Modelled from the spec: `isNull` of `linkedlist.c` tests for `NULL_TYPE`. -/
def isNull : Value → Bool
  | .null => true
  | _ => false

/-- Modelled from the spec: `car` of `linkedlist.c`, defined on `CONS_TYPE` values only. -/
def car : Value → Res Value
  | .cons a _ => .ok a
  | _ => .error .crash

/-- Modelled from the spec: `cdr` of `linkedlist.c`, defined on `CONS_TYPE` values only. -/
def cdr : Value → Res Value
  | .cons _ d => .ok d
  | _ => .error .crash

/-- Modelled from the spec: `length` of `linkedlist.c`, "defined only on proper lists". -/
def length : Value → Res Nat
  | .null => .ok 0
  | .cons _ d =>
    match length d with
    | .ok n => .ok (n + 1)
    | .error e => .error e
  | _ => .error .crash

/-- The cons-list holding the elements of a Lean list, in the same order. -/
def listToValue : List Value → Value
  | [] => .null
  | v :: vs => .cons v (listToValue vs)

/-- The string field `s` of a value: present in strings, symbols and booleans; reading
it from any other variant is a read of the wrong union member. -/
def strField : Value → Res String
  | .str s => .ok s
  | .symbol s => .ok s
  | .bool s => .ok s
  | _ => .error .crash

/-- The test `v->type == BOOL_TYPE`. -/
def isBoolType : Value → Bool
  | .bool _ => true
  | _ => false

/-! ## The parser (`parser.c`) -/

/-- The function `isAtom` of `parser.c`. -/
def isAtom : Value → Bool
  | .bool _ => true
  | .symbol _ => true
  | .int _ => true
  | .double _ => true
  | .str _ => true
  | _ => false

/-- Outcome of `parse`: a tree, the failure sentinel `NULL` (after the message
"Unbalanced use of parentheses"), or a crash (`car` or `cdr` of an empty stack). -/
inductive ParseResult where
  | tree (v : Value)
  | failed
  | crash
  deriving DecidableEq, Repr

/-- The inner loop of `parse` at a `CLOSE_TYPE` token (lines 71-81): starting from the
top of the stack, items are consed onto `inner` until the `OPEN_TYPE` marker is the
head; the marker is popped too.  Returns `inner` and the remaining stack, or `none`
when `car` is applied to the exhausted stack. -/
def popToOpen : List Value → Value → Option (Value × List Value)
  | [], _ => none
  | .openType :: stack, inner => some (inner, stack)
  | head :: stack, inner => popToOpen stack (.cons head inner)

/-- The main loop of `parse` (lines 58-90) followed by its epilogue (lines 91-95), with
the loop variables `current`, `stack` and `depth` as arguments. -/
def parseLoop : List Value → List Value → Nat → ParseResult
  | [], stack, depth =>
    if depth ≠ 0 then .failed else .tree (listToValue stack)
  | token :: current, stack, depth =>
    match token with
    | .openType => parseLoop current (token :: stack) (depth + 1)
    | .closeType =>
      if depth = 0 then .failed
      else
        match popToOpen stack makeNull with
        | none => .crash
        | some (inner, stack1) =>
          if !isNull inner then parseLoop current (inner :: stack1) (depth - 1)
          else parseLoop current stack1 (depth - 1)
    | _ => parseLoop current (token :: stack) depth

/-- The function `parse` of `parser.c`: the loop started with an empty stack and
`depth = 0`. -/
def parse (tokens : List Value) : ParseResult :=
  parseLoop tokens [] 0

/-- Outcome of one iteration of the loop of `parse`: the new values of `stack` and
`depth`, the `return NULL` of line 67, or a crash (`car` of the exhausted stack). -/
inductive ParseStep where
  | next (stack : List Value) (depth : Int)
  | failed
  | crash
  deriving DecidableEq, Repr

/-- One iteration of the `while` loop of `parse` (lines 59-89) for the token `token`,
with `depth` a C `int` (overflow of `depth ++` is not modelled). -/
def parseStep (token : Value) (stack : List Value) (depth : Int) : ParseStep :=
  match token with
  | .openType => .next (token :: stack) (depth + 1)
  | .closeType =>
    if depth = 0 then .failed
    else
      match popToOpen stack makeNull with
      | none => .crash
      | some (inner, stack1) =>
        if !isNull inner then .next (inner :: stack1) (depth - 1)
        else .next stack1 (depth - 1)
  | _ => .next (token :: stack) depth

/-- The values of `stack` and `depth` at each test of the condition of the `while` loop
of `parse` (line 58), from the first test to the last one made. -/
def parseStates : List Value → List Value → Int → List (List Value × Int)
  | [], stack, depth => [(stack, depth)]
  | token :: current, stack, depth =>
    (stack, depth) ::
      (match parseStep token stack depth with
      | .next stack1 depth1 => parseStates current stack1 depth1
      | _ => [])

/-- The loop of `parse` by iterations of `parseStep`, followed by the epilogue
(lines 91-95). -/
def parseRun : List Value → List Value → Int → ParseResult
  | [], stack, depth =>
    if depth ≠ 0 then .failed else .tree (listToValue stack)
  | token :: current, stack, depth =>
    match parseStep token stack depth with
    | .next stack1 depth1 => parseRun current stack1 depth1
    | .failed => .failed
    | .crash => .crash

/-! ## Frames (`interpreter.h`) -/

/-- The struct `Frame` of `interpreter.h`: a list of bindings and a parent pointer
(`none` is the C `NULL`).  A binding is the two-element list `(name value)`, represented
by a pair. -/
structure Frame where
  bindings : List (Value × Value)
  parent : Option Nat
  deriving DecidableEq, Repr

/-- All frames allocated so far; a `Frame *` is an index into this list. -/
abbrev Heap := List Frame

/-- Allocation of a frame (`talloc(sizeof(Frame))` followed by the initialisation of
both fields): the new frame is appended and its index returned. -/
def allocFrame (h : Heap) (parent : Option Nat) : Nat × Heap :=
  (h.length, h ++ [{ bindings := [], parent := parent }])

/-- Dereference of a frame pointer. -/
def getFrame (h : Heap) (frame : Nat) : Res Frame :=
  match h[frame]? with
  | some fr => .ok fr
  | none => .error .crash

/-- The assignment `frame->bindings = bs`. -/
def setBindings (h : Heap) (frame : Nat) (bs : List (Value × Value)) : Heap :=
  match h[frame]? with
  | some fr => h.set frame { fr with bindings := bs }
  | none => h

/-- The inner loop of `lookUpSymbol` (lines 143-156) over the bindings of one frame:
`some value` when a binding named `s` is found, `none` when the loop ends (at the end of
the list, or by the `break` at a binding whose name has type `NULL_TYPE`). -/
def lookUpBindings (s : String) : List (Value × Value) → Res (Option Value)
  | [] => .ok none
  | (name, value) :: rest =>
    match name with
    | .null => .ok none
    | _ =>
      match strField name with
      | .error e => .error e
      | .ok t => if t = s then .ok (some value) else lookUpBindings s rest

/-- The outer loop of `lookUpSymbol` (lines 140-158) with `curF` as argument.  The loop
follows parent pointers; its fuel is the number of frames of the heap, which runs out
only when the parent chain is cyclic (the C loop would not end). -/
def lookUpFrames (s : String) (h : Heap) : Nat → Option Nat → Res Value
  | _, none => .error .evaluationError
  | 0, some _ => .error .fuel
  | n + 1, some curF =>
    match getFrame h curF with
    | .error e => .error e
    | .ok fr =>
      match lookUpBindings s fr.bindings with
      | .error e => .error e
      | .ok (some value) => .ok value
      | .ok none => lookUpFrames s h n fr.parent

/-- The function `lookUpSymbol` of `interpreter.c`. -/
def lookUpSymbol (expr : Value) (frame : Nat) (h : Heap) : Res Value :=
  match strField expr with
  | .error e => .error e
  | .ok s => lookUpFrames s h h.length (some frame)

/-- The loop of `isBounded` (lines 198-207): the position of the first binding whose
name has the text of `var`, or `none`; the `assert` requires every name met on the way
to be a symbol.  The string field of `var` is read at each comparison only. -/
def isBoundedIn (var : Value) : List (Value × Value) → Res (Option Nat)
  | [] => .ok none
  | (name, _) :: rest =>
    match name with
    | .symbol t =>
      match strField var with
      | .error e => .error e
      | .ok s =>
        if t = s then .ok (some 0)
        else
          match isBoundedIn var rest with
          | .error e => .error e
          | .ok none => .ok none
          | .ok (some i) => .ok (some (i + 1))
    | _ => .error .crash

/-- The function `isBounded` of `interpreter.c`; the binding it returns is given by its
position in the frame. -/
def isBounded (var : Value) (frame : Nat) (h : Heap) : Res (Option Nat) :=
  match getFrame h frame with
  | .error e => .error e
  | .ok fr => isBoundedIn var fr.bindings

/-- The function `addBindingLocal` of `interpreter.c`. -/
def addBindingLocal (var expr : Value) (frame : Nat) (h : Heap) : Res Heap :=
  match isBounded var frame h with
  | .error e => .error e
  | .ok (some _) => .error .evaluationError
  | .ok none =>
    match getFrame h frame with
    | .error e => .error e
    | .ok fr => .ok (setBindings h frame ((var, expr) :: fr.bindings))

/-- The assignment `curBinding->c.cdr = cons(expr, nullTail)` on the binding at position
`i`: its name stays, its value becomes `expr`. -/
def updateBindingAt (bs : List (Value × Value)) (i : Nat) (expr : Value) :
    List (Value × Value) :=
  match bs[i]? with
  | some (name, _) => bs.set i (name, expr)
  | none => bs

/-- The function `addBindingGlobal` of `interpreter.c`. -/
def addBindingGlobal (var expr : Value) (frame : Nat) (h : Heap) : Res Heap :=
  match isBounded var frame h with
  | .error e => .error e
  | .ok (some i) =>
    match getFrame h frame with
    | .error e => .error e
    | .ok fr => .ok (setBindings h frame (updateBindingAt fr.bindings i expr))
  | .ok none =>
    match getFrame h frame with
    | .error e => .error e
    | .ok fr => .ok (setBindings h frame ((var, expr) :: fr.bindings))

/-- The function `bind` of `interpreter.c`. -/
def bind (name : String) (function : Prim) (frame : Nat) (h : Heap) : Res Heap :=
  addBindingGlobal (.symbol name) (.primitive function) frame h

/-! ## The evaluator (`interpreter.c`): special forms

The helpers of `eval` call `eval` back; here they take the evaluator to call as the
argument `ev`, and `eval` passes itself (at the remaining fuel). -/

/-- The type of `eval` once the fuel is fixed: expression, frame, heap. -/
abbrev Ev := Value → Nat → Heap → Res (Value × Heap)

/-- The type of `apply` once the fuel is fixed: function, arguments, frame, heap. -/
abbrev Ap := Value → Value → Nat → Heap → Res (Value × Heap)

/-- The test `v->type == CONS_TYPE`. -/
def isConsType : Value → Bool
  | .cons _ _ => true
  | _ => false

/-- The test `v->type == SYMBOL_TYPE`. -/
def isSymbolType : Value → Bool
  | .symbol _ => true
  | _ => false

/-- The test `v->type == BOOL_TYPE && !strcmp(v->s, "#f")` on a value. -/
def isFalseValue : Value → Bool
  | .bool s => decide (s = "#f")
  | _ => false

/-- The condition of `evalIf` (lines 172-173) and, negated, of `evalCond` (lines 516-517):
`eval(test, frame)->type == BOOL_TYPE && !strcmp(eval(test, frame)->s, "#f")`.
The test is evaluated once and, when the first value is a Boolean, a second time; the
string field of the second value is compared with `"#f"`. -/
def evalTestIsFalse (ev : Ev) (test : Value) (frame : Nat) (h : Heap) : Res (Bool × Heap) :=
  match ev test frame h with
  | .error e => .error e
  | .ok (v1, h1) =>
    if isBoolType v1 then
      match ev test frame h1 with
      | .error e => .error e
      | .ok (v2, h2) =>
        match strField v2 with
        | .error e => .error e
        | .ok s => .ok (decide (s = "#f"), h2)
    else .ok (false, h1)

/-- The function `evalIf` of `interpreter.c`. -/
def evalIf (ev : Ev) (args : Value) (frame : Nat) (h : Heap) : Res (Value × Heap) :=
  match length args with
  | .error e => .error e
  | .ok n =>
    if n ≠ 3 ∧ n ≠ 2 then .error .evaluationError
    else
      match args with
      | .cons test (.cons consequent rest) =>
        match evalTestIsFalse ev test frame h with
        | .error e => .error e
        | .ok (true, h1) =>
          if !isNull rest then
            match car rest with
            | .error e => .error e
            | .ok alternative => ev alternative frame h1
          else .ok (.void, h1)
        | .ok (false, h1) => ev consequent frame h1
      | _ => .error .crash

/-- The loop that ends `evalLet`, `evalLetrec`, `evalLetstar`, `evalBegin`, `apply` and
the clauses of `evalCond`:
`while (cdr(body)->type != NULL_TYPE) { eval(car(body), frame); body = cdr(body); }
return eval(car(body), frame);`. -/
def evalBody (ev : Ev) : Value → Nat → Heap → Res (Value × Heap)
  | .cons e rest, frame, h =>
    match rest with
    | .null => ev e frame h
    | _ =>
      match ev e frame h with
      | .error err => .error err
      | .ok (_, h1) => evalBody ev rest frame h1
  | _, _, _ => .error .crash

/-- The loop of `evalAnd` (lines 292-300). -/
def evalAndLoop (ev : Ev) : Value → Nat → Heap → Res (Value × Heap)
  | .cons e rest, frame, h =>
    match rest with
    | .null => ev e frame h
    | _ =>
      match ev e frame h with
      | .error err => .error err
      | .ok (curValue, h1) =>
        if isFalseValue curValue then .ok (.bool "#f", h1)
        else evalAndLoop ev rest frame h1
  | _, _, _ => .error .crash

/-- The function `evalAnd` of `interpreter.c`. -/
def evalAnd (ev : Ev) (args : Value) (frame : Nat) (h : Heap) : Res (Value × Heap) :=
  match length args with
  | .error e => .error e
  | .ok n => if n = 0 then .ok (.bool "#t", h) else evalAndLoop ev args frame h

/-- The loop of `evalOr` (lines 320-327). -/
def evalOrLoop (ev : Ev) : Value → Nat → Heap → Res (Value × Heap)
  | .cons e rest, frame, h =>
    match rest with
    | .null => ev e frame h
    | _ =>
      match ev e frame h with
      | .error err => .error err
      | .ok (curValue, h1) =>
        if !isFalseValue curValue then .ok (curValue, h1)
        else evalOrLoop ev rest frame h1
  | _, _, _ => .error .crash

/-- The function `evalOr` of `interpreter.c`. -/
def evalOr (ev : Ev) (args : Value) (frame : Nat) (h : Heap) : Res (Value × Heap) :=
  match length args with
  | .error e => .error e
  | .ok n => if n = 0 then .ok (.bool "#f", h) else evalOrLoop ev args frame h

/-- The function `evalBegin` of `interpreter.c`. -/
def evalBegin (ev : Ev) (args : Value) (frame : Nat) (h : Heap) : Res (Value × Heap) :=
  match args with
  | .null => .ok (.void, h)
  | .cons _ _ => evalBody ev args frame h
  | _ => .error .crash

/-- The binding loop of `evalLet` (lines 373-385) and of `evalLetrec` (lines 418-430):
`cur` runs over the bindings, each expression is evaluated in `evalFrame` (the enclosing
frame for `let`, the new frame for `letrec`) and bound in `frameG`. -/
def evalLetBindings (ev : Ev) : Value → Nat → Nat → Heap → Res Heap
  | .null, _, _, h => .ok h
  | .cons b rest, evalFrame, frameG, h =>
    if !isConsType b then .error .evaluationError
    else
      match length b with
      | .error err => .error err
      | .ok n =>
        if n ≠ 2 then .error .evaluationError
        else
          match b with
          | .cons name (.cons e _) =>
            match ev e evalFrame h with
            | .error err => .error err
            | .ok (v, h1) =>
              if !isSymbolType name then .error .evaluationError
              else
                match addBindingLocal name v frameG h1 with
                | .error err => .error err
                | .ok h2 => evalLetBindings ev rest evalFrame frameG h2
          | _ => .error .crash
  | _, _, _, _ => .error .crash

/-- The function `evalLet` of `interpreter.c`. -/
def evalLet (ev : Ev) (args : Value) (frame : Nat) (h : Heap) : Res (Value × Heap) :=
  match args with
  | .cons cur body =>
    if !isNull cur && !isConsType cur then .error .evaluationError
    else if isNull body then .error .evaluationError
    else
      match evalLetBindings ev cur frame (allocFrame h (some frame)).1
          (allocFrame h (some frame)).2 with
      | .error err => .error err
      | .ok h1 => evalBody ev body (allocFrame h (some frame)).1 h1
  | _ => .error .crash

/-- The function `evalLetrec` of `interpreter.c`. -/
def evalLetrec (ev : Ev) (args : Value) (frame : Nat) (h : Heap) : Res (Value × Heap) :=
  match args with
  | .cons cur body =>
    if !isNull cur && !isConsType cur then .error .evaluationError
    else if isNull body then .error .evaluationError
    else
      match evalLetBindings ev cur (allocFrame h (some frame)).1 (allocFrame h (some frame)).1
          (allocFrame h (some frame)).2 with
      | .error err => .error err
      | .ok h1 => evalBody ev body (allocFrame h (some frame)).1 h1
  | _ => .error .crash

/-- The binding loop of `evalLetstar` (lines 457-477): every binding gets a new frame
whose parent is `lastFrame`; its expression is evaluated in that new frame.  Returns the
last frame made. -/
def evalLetstarBindings (ev : Ev) : Value → Nat → Heap → Res (Nat × Heap)
  | .null, lastFrame, h => .ok (lastFrame, h)
  | .cons b rest, lastFrame, h =>
    if !isConsType b then .error .evaluationError
    else
      match length b with
      | .error err => .error err
      | .ok n =>
        if n ≠ 2 then .error .evaluationError
        else
          match b with
          | .cons name (.cons e _) =>
            match ev e (allocFrame h (some lastFrame)).1 (allocFrame h (some lastFrame)).2 with
            | .error err => .error err
            | .ok (v, h1) =>
              if !isSymbolType name then .error .evaluationError
              else
                match addBindingLocal name v (allocFrame h (some lastFrame)).1 h1 with
                | .error err => .error err
                | .ok h2 => evalLetstarBindings ev rest (allocFrame h (some lastFrame)).1 h2
          | _ => .error .crash
  | _, _, _ => .error .crash

/-- The function `evalLetstar` of `interpreter.c`. -/
def evalLetstar (ev : Ev) (args : Value) (frame : Nat) (h : Heap) : Res (Value × Heap) :=
  match args with
  | .cons cur body =>
    if !isNull cur && !isConsType cur then .error .evaluationError
    else if isNull body then .error .evaluationError
    else
      match evalLetstarBindings ev cur frame h with
      | .error err => .error err
      | .ok (lastFrame, h1) => evalBody ev body lastFrame h1
  | _ => .error .crash

/-- The test `test->type == SYMBOL_TYPE && !strcmp(test->s, "else")` of `evalCond`. -/
def isElse : Value → Bool
  | .symbol s => decide (s = "else")
  | _ => false

/-- The function `evalCond` of `interpreter.c`, by recursion on `clauses`. -/
def evalCond (ev : Ev) : Value → Nat → Heap → Res (Value × Heap)
  | .null, _, h => .ok (.void, h)
  | .cons curClause rest, frame, h =>
    match curClause with
    | .cons test body =>
      if isElse test then
        if isNull rest then evalBody ev body frame h
        else .error .evaluationError
      else
        match evalTestIsFalse ev test frame h with
        | .error err => .error err
        | .ok (false, h1) => evalBody ev body frame h1
        | .ok (true, h1) => evalCond ev rest frame h1
    | _ => .error .crash
  | _, _, _ => .error .crash

/-- The function `evalDefine` of `interpreter.c`. -/
def evalDefine (ev : Ev) (args : Value) (frame : Nat) (h : Heap) : Res (Value × Heap) :=
  match getFrame h frame with
  | .error err => .error err
  | .ok fr =>
    if fr.parent.isSome then .error .evaluationError
    else
      match car args with
      | .error err => .error err
      | .ok var =>
        if !isSymbolType var then .error .evaluationError
        else
          match length args with
          | .error err => .error err
          | .ok n =>
            if n ≠ 2 then .error .evaluationError
            else
              match args with
              | .cons _ (.cons e _) =>
                match ev e frame h with
                | .error err => .error err
                | .ok (expr, h1) =>
                  match addBindingGlobal var expr frame h1 with
                  | .error err => .error err
                  | .ok h2 => .ok (.void, h2)
              | _ => .error .crash

/-- The loop of `evalSet` (lines 590-599): the bindings of the frame are copied, in
reverse order, onto `newBindings`; a binding named `s` is replaced by `(s newValue)`.
The `assert` requires every name to be a symbol. -/
def rebuildBindings (s : String) (newValue : Value) :
    List (Value × Value) → List (Value × Value) → Res (List (Value × Value))
  | [], newBindings => .ok newBindings
  | (name, value) :: oldBindings, newBindings =>
    match name with
    | .symbol t =>
      if t = s then rebuildBindings s newValue oldBindings ((name, newValue) :: newBindings)
      else rebuildBindings s newValue oldBindings ((name, value) :: newBindings)
    | _ => .error .crash

/-- The function `evalSet` of `interpreter.c`.  `lookUpSymbol` either ends the run
(unbound symbol) or returns a non-`NULL` pointer, so the `while` loop over `curFrame`
returns in its first iteration, with `curFrame == frame`. -/
def evalSet (ev : Ev) (args : Value) (frame : Nat) (h : Heap) : Res (Value × Heap) :=
  match car args with
  | .error err => .error err
  | .ok var =>
    if !isSymbolType var then .error .evaluationError
    else
      match length args with
      | .error err => .error err
      | .ok n =>
        if n ≠ 2 then .error .evaluationError
        else
          match lookUpSymbol var frame h with
          | .error err => .error err
          | .ok _ =>
            match args with
            | .cons (.symbol s) (.cons e _) =>
              match ev e frame h with
              | .error err => .error err
              | .ok (newValue, h1) =>
                match getFrame h1 frame with
                | .error err => .error err
                | .ok fr =>
                  match rebuildBindings s newValue fr.bindings [] with
                  | .error err => .error err
                  | .ok newBindings => .ok (.void, setBindings h1 frame newBindings)
            | _ => .error .crash

/-- The loop of `verifyFormal` (lines 100-105). -/
def verifyFormalLoop : Value → Res Bool
  | .null => .ok true
  | .cons a d => if !isSymbolType a then .ok false else verifyFormalLoop d
  | _ => .error .crash

/-- The function `verifyFormal` of `interpreter.c`. -/
def verifyFormal (formals : Value) : Res Bool :=
  if isConsType formals then verifyFormalLoop formals else .ok true

/-- The inner loop of `containsDuplicate` (lines 120-125): is the text of `a` the text
of an element of `next`? -/
def duplicateIn (a : Value) : Value → Res Bool
  | .null => .ok false
  | .cons b d =>
    match strField a, strField b with
    | .ok s, .ok t => if s = t then .ok true else duplicateIn a d
    | _, _ => .error .crash
  | _ => .error .crash

/-- The outer loop of `containsDuplicate` (lines 118-127): the first repeated name. -/
def containsDuplicateLoop : Value → Res (Option Value)
  | .null => .ok none
  | .cons a d =>
    match duplicateIn a d with
    | .error err => .error err
    | .ok true => .ok (some a)
    | .ok false => containsDuplicateLoop d
  | _ => .error .crash

/-- The function `containsDuplicate` of `interpreter.c`; the result is the element whose
name is repeated, or `none` for the C `NULL`. -/
def containsDuplicate (formals : Value) : Res (Option Value) :=
  if isConsType formals then containsDuplicateLoop formals else .ok none

/-- The function `evalLambda` of `interpreter.c`. -/
def evalLambda (args : Value) (frame : Nat) : Res Value :=
  match length args with
  | .error err => .error err
  | .ok n =>
    if n < 2 then .error .evaluationError
    else
      match args with
      | .cons formals body =>
        match verifyFormal formals with
        | .error err => .error err
        | .ok false => .error .evaluationError
        | .ok true =>
          match containsDuplicate formals with
          | .error err => .error err
          | .ok (some _) => .error .evaluationError
          | .ok none => .ok (.closure formals body frame)
      | _ => .error .crash

/-! ## Primitive procedures -/

/-- Least value of the C type `int`. -/
def intMin : Int := -2147483648

/-- Greatest value of the C type `int`. -/
def intMax : Int := 2147483647

/-- The cast `(int) x` of a `double`: truncation toward zero, undefined when the
truncated value is not an `int`. -/
def castInt (x : Rat) : Res Int :=
  if intMin ≤ Int.tdiv x.num x.den ∧ Int.tdiv x.num x.den ≤ intMax then
    .ok (Int.tdiv x.num x.den)
  else .error .crash

/-- An `int` result of `int` arithmetic: overflow is undefined. -/
def intResult (i : Int) : Res Value :=
  if intMin ≤ i ∧ i ≤ intMax then .ok (.int i) else .error .crash

/-- The end of `primitiveAdd`, `primitiveMult` and `primitiveSub`: the accumulator is
stored as an `int` when `result->type` is still `INT_TYPE`, as a `double` otherwise. -/
def storeNumber (isDouble : Bool) (result_num : Rat) : Res Value :=
  if isDouble then .ok (.double result_num)
  else
    match castInt result_num with
    | .error e => .error e
    | .ok i => .ok (.int i)

/-- The loop of `primitiveAdd` (lines 653-667); `isDouble` records
`result->type == DOUBLE_TYPE`. -/
def addLoop : Value → Bool → Rat → Res (Bool × Rat)
  | .null, isDouble, result_num => .ok (isDouble, result_num)
  | .cons cur_num rest, isDouble, result_num =>
    match cur_num with
    | .int i => addLoop rest isDouble (result_num + i)
    | .double d => addLoop rest true (result_num + d)
    | _ => .error .evaluationError
  | _, _, _ => .error .crash

/-- The function `primitiveAdd` of `interpreter.c`. -/
def primitiveAdd (args : Value) : Res Value :=
  match addLoop args false 0 with
  | .error e => .error e
  | .ok (isDouble, result_num) => storeNumber isDouble result_num

/-- The loop of `primitiveMult` (lines 691-705). -/
def multLoop : Value → Bool → Rat → Res (Bool × Rat)
  | .null, isDouble, result_num => .ok (isDouble, result_num)
  | .cons cur_num rest, isDouble, result_num =>
    match cur_num with
    | .int i => multLoop rest isDouble (result_num * i)
    | .double d => multLoop rest true (result_num * d)
    | _ => .error .evaluationError
  | _, _, _ => .error .crash

/-- The function `primitiveMult` of `interpreter.c`. -/
def primitiveMult (args : Value) : Res Value :=
  match multLoop args false 1 with
  | .error e => .error e
  | .ok (isDouble, result_num) => storeNumber isDouble result_num

/-- The loop of `primitiveSub` (lines 753-767). -/
def subLoop : Value → Bool → Rat → Res (Bool × Rat)
  | .null, isDouble, result_num => .ok (isDouble, result_num)
  | .cons cur_num rest, isDouble, result_num =>
    match cur_num with
    | .int i => subLoop rest isDouble (result_num - i)
    | .double d => subLoop rest true (result_num - d)
    | _ => .error .evaluationError
  | _, _, _ => .error .crash

/-- The function `primitiveSub` of `interpreter.c`. -/
def primitiveSub (args : Value) : Res Value :=
  match length args with
  | .error e => .error e
  | .ok n =>
    if n = 0 then .error .evaluationError
    else
      match args with
      | .cons (.int i) rest =>
        if n = 1 then intResult (0 - i)
        else
          match subLoop rest false i with
          | .error e => .error e
          | .ok (isDouble, result_num) => storeNumber isDouble result_num
      | .cons (.double d) rest =>
        if n = 1 then .ok (.double (0 - d))
        else
          match subLoop rest true d with
          | .error e => .error e
          | .ok (isDouble, result_num) => storeNumber isDouble result_num
      | .cons _ _ => .error .evaluationError
      | _ => .error .crash

/-- The loop of `primitiveDiv` (lines 822-844). -/
def divLoop : Value → Bool → Rat → Res (Bool × Rat)
  | .null, isDouble, result_num => .ok (isDouble, result_num)
  | .cons cur_num rest, isDouble, result_num =>
    match cur_num with
    | .int i =>
      if i = 0 then .error .evaluationError else divLoop rest isDouble (result_num / i)
    | .double d =>
      if d = 0 then .error .evaluationError else divLoop rest true (result_num / d)
    | _ => .error .evaluationError
  | _, _, _ => .error .crash

/-- The end of `primitiveDiv` (lines 846-852). -/
def storeQuotient (isDouble : Bool) (result_num : Rat) : Res Value :=
  if isDouble then .ok (.double result_num)
  else
    match castInt result_num with
    | .error e => .error e
    | .ok i => if (i : Rat) = result_num then .ok (.int i) else .ok (.double result_num)

/-- The function `primitiveDiv` of `interpreter.c`. -/
def primitiveDiv (args : Value) : Res Value :=
  match length args with
  | .error e => .error e
  | .ok n =>
    if n = 0 then .error .evaluationError
    else
      match args with
      | .cons (.int i) rest =>
        if n = 1 then
          if i = 0 then .error .evaluationError else .ok (.int (Int.tdiv 1 i))
        else
          match divLoop rest false i with
          | .error e => .error e
          | .ok (isDouble, result_num) => storeQuotient isDouble result_num
      | .cons (.double d) rest =>
        if n = 1 then
          if d = 0 then .error .evaluationError else .ok (.double (1 / d))
        else
          match divLoop rest true d with
          | .error e => .error e
          | .ok (isDouble, result_num) => storeQuotient isDouble result_num
      | .cons _ _ => .error .evaluationError
      | _ => .error .crash

/-- The result of a predicate: the Boolean `#t` or `#f`. -/
def boolValue (b : Bool) : Value :=
  if b then .bool "#t" else .bool "#f"

/-- The function `primitiveIsNull` of `interpreter.c`. -/
def primitiveIsNull (args : Value) : Res Value :=
  match length args with
  | .error e => .error e
  | .ok n =>
    if n ≠ 1 then .error .evaluationError
    else
      match car args with
      | .error e => .error e
      | .ok a => .ok (boolValue (isNull a))

/-- The function `primitiveCar` of `interpreter.c`. -/
def primitiveCar (args : Value) : Res Value :=
  match length args with
  | .error e => .error e
  | .ok n =>
    if n ≠ 1 then .error .evaluationError
    else
      match car args with
      | .error e => .error e
      | .ok a => if !isConsType a then .error .evaluationError else car a

/-- The function `primitiveCdr` of `interpreter.c`. -/
def primitiveCdr (args : Value) : Res Value :=
  match length args with
  | .error e => .error e
  | .ok n =>
    if n ≠ 1 then .error .evaluationError
    else
      match car args with
      | .error e => .error e
      | .ok a => if !isConsType a then .error .evaluationError else cdr a

/-- The function `primitiveCons` of `interpreter.c`. -/
def primitiveCons (args : Value) : Res Value :=
  match length args with
  | .error e => .error e
  | .ok n =>
    if n ≠ 2 then .error .evaluationError
    else
      match args with
      | .cons a (.cons b _) => .ok (.cons a b)
      | _ => .error .crash

/-- The loop of `primitiveLeq` (lines 952-975). -/
def leqLoop : Value → Rat → Res Value
  | .null, _ => .ok (.bool "#t")
  | .cons cur_num rest, cur_largest =>
    match cur_num with
    | .int i => if cur_largest ≤ i then leqLoop rest i else .ok (.bool "#f")
    | .double d => if cur_largest ≤ d then leqLoop rest d else .ok (.bool "#f")
    | _ => .error .evaluationError
  | _, _ => .error .crash

/-- The function `primitiveLeq` of `interpreter.c`. -/
def primitiveLeq (args : Value) : Res Value :=
  match length args with
  | .error e => .error e
  | .ok n =>
    if n < 2 then .error .evaluationError
    else
      match args with
      | .cons (.int i) rest => leqLoop rest i
      | .cons (.double d) rest => leqLoop rest d
      | .cons _ _ => .error .evaluationError
      | _ => .error .crash

/-- The function `primitiveIsPair` of `interpreter.c`. -/
def primitiveIsPair (args : Value) : Res Value :=
  match length args with
  | .error e => .error e
  | .ok n =>
    if n ≠ 1 then .error .evaluationError
    else
      match car args with
      | .error e => .error e
      | .ok a => .ok (boolValue (isConsType a))

/-- The `switch` of `primitiveIsEq` (lines 1026-1066).  Pairs and closures are compared
by address: two values that differ as trees are different objects, while for two equal
trees the model cannot tell (`Fault.unmodelled`).  Every primitive has one value object,
made by `bind`, so primitives are the same object when they are the same function.  In
the default case `&first == &second` compares two local variables and is false. -/
def isEqSwitch (first second : Value) : Res Bool :=
  match first with
  | .bool s => .ok (match second with | .bool t => decide (s = t) | _ => false)
  | .symbol s => .ok (match second with | .symbol t => decide (s = t) | _ => false)
  | .int i => .ok (match second with | .int j => decide (i = j) | _ => false)
  | .double d => .ok (match second with | .double e => decide (d = e) | _ => false)
  | .str s => .ok (match second with | .str t => decide (s = t) | _ => false)
  | .null => .ok (isNull second)
  | .cons _ _ =>
    if !isConsType second then .ok false
    else if first ≠ second then .ok false
    else .error .unmodelled
  | .closure _ _ _ =>
    match second with
    | .closure _ _ _ => if first ≠ second then .ok false else .error .unmodelled
    | _ => .ok false
  | .primitive p => .ok (match second with | .primitive q => decide (p = q) | _ => false)
  | _ => .ok false

/-- The function `primitiveIsEq` of `interpreter.c`. -/
def primitiveIsEq (args : Value) : Res Value :=
  match length args with
  | .error e => .error e
  | .ok n =>
    if n ≠ 2 then .error .evaluationError
    else
      match args with
      | .cons first (.cons second _) =>
        match isEqSwitch first second with
        | .error e => .error e
        | .ok resultBool => .ok (boolValue resultBool)
      | _ => .error .crash

/-- The function `primitiveNumberCheck` of `interpreter.c`. -/
def primitiveNumberCheck (args : Value) : Res Value :=
  match length args with
  | .error e => .error e
  | .ok n =>
    if n ≠ 1 then .error .evaluationError
    else
      match car args with
      | .error e => .error e
      | .ok (.int _) => .ok (.bool "#t")
      | .ok (.double _) => .ok (.bool "#t")
      | .ok _ => .ok (.bool "#f")

/-- The function `primitiveIntegerCheck` of `interpreter.c`. -/
def primitiveIntegerCheck (args : Value) : Res Value :=
  match length args with
  | .error e => .error e
  | .ok n =>
    if n ≠ 1 then .error .evaluationError
    else
      match car args with
      | .error e => .error e
      | .ok (.int _) => .ok (.bool "#t")
      | .ok _ => .ok (.bool "#f")

/-- The function `primitiveEvalError` of `interpreter.c`: prints the string field of its
first argument and raises the evaluation error. -/
def primitiveEvalError (errorMessage : Value) : Res Value :=
  match car errorMessage with
  | .error e => .error e
  | .ok m =>
    match strField m with
    | .error e => .error e
    | .ok _ => .error .evaluationError

/-- The function `primitiveLoad` of `interpreter.c`.  The file system is the argument
`fs`: the token list that `tokenize` returns for the file of a given name, `none` when
`fopen` fails. -/
def primitiveLoad (fs : String → Option (List Value)) (arg : Value) : Res Value :=
  match car arg with
  | .error e => .error e
  | .ok a =>
    match strField a with
    | .error e => .error e
    | .ok filename =>
      match fs filename with
      | none => .error .evaluationError
      | some list =>
        match parse list with
        | .tree tree => .ok tree
        | .failed => .error .exit
        | .crash => .error .crash

/-- The first loop of `primitiveApply` (lines 1142-1145): all arguments but the last are
consed onto `arguments`; returns the final `cur_arg` and `arguments`. -/
def applyLeading : Value → Value → Res (Value × Value)
  | .cons a rest, arguments =>
    match rest with
    | .null => .ok (.cons a rest, arguments)
    | _ => applyLeading rest (.cons a arguments)
  | _, _ => .error .crash

/-- The second loop of `primitiveApply` (lines 1155-1162): the elements of the last
argument are consed onto `arguments`. -/
def applySpread : Value → Value → Res Value
  | .null, arguments => .ok arguments
  | .cons a rest, arguments => applySpread rest (.cons a arguments)
  | _, _ => .error .evaluationError

/-- The function `primitiveApply` of `interpreter.c`.  In the test of line 1147,
`primitiveIsPair(cur_arg)` is called on the one-element list `cur_arg` and returns a
pointer that is never `NULL`, so the `else` branch is always the one taken. -/
def primitiveApply (app : Ap) (args : Value) (h : Heap) : Res (Value × Heap) :=
  match args with
  | .cons procedure rest =>
    match applyLeading rest makeNull with
    | .error e => .error e
    | .ok (cur_arg, arguments) =>
      match primitiveIsPair cur_arg with
      | .error e => .error e
      | .ok _ =>
        match car cur_arg with
        | .error e => .error e
        | .ok last =>
          match applySpread last arguments with
          | .error e => .error e
          | .ok arguments1 =>
            app procedure arguments1 (allocFrame h none).1 (allocFrame h none).2
  | _ => .error .crash

/-- The call `(function->pf)(args)` of a primitive. -/
def callPrimitive (fs : String → Option (List Value)) (app : Ap) (pf : Prim) (args : Value)
    (h : Heap) : Res (Value × Heap) :=
  match pf with
  | .primitiveApply => primitiveApply app args h
  | .primitiveLoad => (primitiveLoad fs args).map (fun v => (v, h))
  | .primitiveAdd => (primitiveAdd args).map (fun v => (v, h))
  | .primitiveMult => (primitiveMult args).map (fun v => (v, h))
  | .primitiveSub => (primitiveSub args).map (fun v => (v, h))
  | .primitiveDiv => (primitiveDiv args).map (fun v => (v, h))
  | .primitiveLeq => (primitiveLeq args).map (fun v => (v, h))
  | .primitiveIsEq => (primitiveIsEq args).map (fun v => (v, h))
  | .primitiveIsPair => (primitiveIsPair args).map (fun v => (v, h))
  | .primitiveIsNull => (primitiveIsNull args).map (fun v => (v, h))
  | .primitiveCar => (primitiveCar args).map (fun v => (v, h))
  | .primitiveCdr => (primitiveCdr args).map (fun v => (v, h))
  | .primitiveCons => (primitiveCons args).map (fun v => (v, h))
  | .primitiveNumberCheck => (primitiveNumberCheck args).map (fun v => (v, h))
  | .primitiveEvalError => (primitiveEvalError args).map (fun v => (v, h))
  | .primitiveIntegerCheck => (primitiveIntegerCheck args).map (fun v => (v, h))

/-! ## `apply` and `eval` -/

/-- The binding loop of `apply` (lines 1109-1113) for a formal list. -/
def bindFormals : Value → Value → Nat → Heap → Res Heap
  | .null, _, _, h => .ok h
  | .cons formal rest, curActual, newFrame, h =>
    match curActual with
    | .cons actual restActual =>
      match addBindingLocal formal actual newFrame h with
      | .error e => .error e
      | .ok h1 => bindFormals rest restActual newFrame h1
    | _ => .error .crash
  | _, _, _, _ => .error .crash

/-- The body of the function `apply` of `interpreter.c`, with the evaluator `ev` for the
body forms and `app` for the calls that `primitiveApply` makes.  The parameter `frame`
is not used by the C function either. -/
def applyStep (fs : String → Option (List Value)) (ev : Ev) (app : Ap)
    (function args : Value) (_frame : Nat) (h : Heap) : Res (Value × Heap) :=
  match function with
  | .primitive pf => callPrimitive fs app pf args h
  | .closure formal body parentFrame =>
    if isConsType formal then
      match length formal, length args with
      | .ok n, .ok m =>
        if n ≠ m then .error .evaluationError
        else
          match bindFormals formal args (allocFrame h (some parentFrame)).1
              (allocFrame h (some parentFrame)).2 with
          | .error e => .error e
          | .ok h1 => evalBody ev body (allocFrame h (some parentFrame)).1 h1
      | _, _ => .error .crash
    else
      match addBindingLocal formal args (allocFrame h (some parentFrame)).1
          (allocFrame h (some parentFrame)).2 with
      | .error e => .error e
      | .ok h1 => evalBody ev body (allocFrame h (some parentFrame)).1 h1
  | _ => .error .evaluationError

/-- The text that `strcmp(first->s, ...)` reads in `eval` for the head of a form: the
string field of a string, symbol or Boolean.  For a pair, `first->s` reads the bytes of a
pointer, which spell no name of a special form, so the form is an application (`none`).
For the other variants the read is a crash. -/
def headName : Value → Res (Option String)
  | .str s => .ok (some s)
  | .symbol s => .ok (some s)
  | .bool s => .ok (some s)
  | .cons _ _ => .ok none
  | _ => .error .crash

/-- The loop of `eval` over the forms that `load` returned (lines 1336-1339). -/
def evalLoadLoop (ev : Ev) : Value → Nat → Heap → Res Heap
  | .cons e rest, frame, h =>
    match ev e frame h with
    | .error err => .error err
    | .ok (_, h1) => evalLoadLoop ev rest frame h1
  | _, _, h => .ok h

/-- The loop of `eval` over the elements of an application (lines 1346-1350): each is
evaluated and consed onto `values`. -/
def evalOperands (ev : Ev) : Value → Value → Nat → Heap → Res (Value × Heap)
  | .null, values, _, h => .ok (values, h)
  | .cons e rest, values, frame, h =>
    match ev e frame h with
    | .error err => .error err
    | .ok (cur_value, h1) => evalOperands ev rest (.cons cur_value values) frame h1
  | _, _, _, _ => .error .crash

/-- The loop of `reverse`: the elements of a list are consed onto `acc`. -/
def reverseOnto : Value → Value → Res Value
  | .null, acc => .ok acc
  | .cons a d, acc => reverseOnto d (.cons a acc)
  | _, _ => .error .crash

/-- Modelled from the spec: `reverse` of `linkedlist.c` (not among the sources) returns the
elements of a proper list in reverse order. -/
def reverse (list : Value) : Res Value :=
  reverseOnto list makeNull

/-- The body of the function `eval` of `interpreter.c`, with `ev` and `app` for the
recursive calls of `eval` and `apply`. -/
def evalStep (fs : String → Option (List Value)) (ev : Ev) (app : Ap)
    (expr : Value) (frame : Nat) (h : Heap) : Res (Value × Heap) :=
  match expr with
  | .int _ => .ok (expr, h)
  | .double _ => .ok (expr, h)
  | .str _ => .ok (expr, h)
  | .bool _ => .ok (expr, h)
  | .symbol _ =>
    match lookUpSymbol expr frame h with
    | .error e => .error e
    | .ok v => .ok (v, h)
  | .cons first args =>
    match headName first with
    | .error e => .error e
    | .ok name =>
      if name = some "if" then evalIf ev args frame h
      else if name = some "quote" then
        match length args with
        | .error e => .error e
        | .ok n =>
          if n ≠ 1 then .error .evaluationError
          else
            match car args with
            | .error e => .error e
            | .ok a => .ok (a, h)
      else if name = some "and" then evalAnd ev args frame h
      else if name = some "or" then evalOr ev args frame h
      else if name = some "begin" then evalBegin ev args frame h
      else if name = some "cond" then evalCond ev args frame h
      else if name = some "let" then evalLet ev args frame h
      else if name = some "letrec" then evalLetrec ev args frame h
      else if name = some "let*" then evalLetstar ev args frame h
      else if name = some "define" then evalDefine ev args frame h
      else if name = some "set!" then evalSet ev args frame h
      else if name = some "lambda" then
        match evalLambda args frame with
        | .error e => .error e
        | .ok closure => .ok (closure, h)
      else if isSymbolType first && decide (name = some "load") then
        match ev first frame h with
        | .error e => .error e
        | .ok (loadFunction, h1) =>
          match loadFunction with
          | .primitive pf =>
            match callPrimitive fs app pf args h1 with
            | .error e => .error e
            | .ok (loadTree, h2) =>
              match evalLoadLoop ev loadTree frame h2 with
              | .error e => .error e
              | .ok h3 => .ok (.void, h3)
          | _ => .error .crash
      else
        match evalOperands ev expr makeNull frame h with
        | .error e => .error e
        | .ok (values, h1) =>
          match reverse values with
          | .ok (.cons function actual) => app function actual frame h1
          | _ => .error .crash
  | _ => .error .evaluationError

mutual
/-- The function `eval` of `interpreter.c` at a given fuel: `eval fs (n + 1)` is the body
of the C function with its recursive calls made at fuel `n`. -/
def eval (fs : String → Option (List Value)) : Nat → Ev
  | 0, _, _, _ => .error .fuel
  | n + 1, expr, frame, h => evalStep fs (eval fs n) (apply fs n) expr frame h
/-- The function `apply` of `interpreter.c` at a given fuel. -/
def apply (fs : String → Option (List Value)) : Nat → Ap
  | 0, _, _, _, _ => .error .fuel
  | n + 1, function, args, frame, h =>
    applyStep fs (eval fs n) (apply fs n) function args frame h
end

/-- The calls of `bind` in `interpret` (lines 1382-1398), in order. -/
def primitiveTable : List (String × Prim) :=
  [("+", .primitiveAdd), ("*", .primitiveMult), ("-", .primitiveSub),
   ("/", .primitiveDiv), ("<=", .primitiveLeq), ("eq?", .primitiveIsEq),
   ("pair?", .primitiveIsPair), ("null?", .primitiveIsNull), ("apply", .primitiveApply),
   ("car", .primitiveCar), ("cdr", .primitiveCdr), ("cons", .primitiveCons),
   ("load", .primitiveLoad), ("number?", .primitiveNumberCheck),
   ("evaluationError", .primitiveEvalError), ("integer?", .primitiveIntegerCheck)]

/-- The primitives are bound in `topFrame`, one call of `bind` after the other. -/
def bindPrimitives : List (String × Prim) → Nat → Heap → Res Heap
  | [], _, h => .ok h
  | (name, function) :: rest, topFrame, h =>
    match bind name function topFrame h with
    | .error e => .error e
    | .ok h1 => bindPrimitives rest topFrame h1

/-- The loop of `interpret` (lines 1401-1412) without the printing: every top-level form
of `tree` is evaluated in `topFrame`; the results are returned in order. -/
def interpretLoop (fs : String → Option (List Value)) (fuel : Nat) :
    Value → Nat → Heap → Res (List Value × Heap)
  | .cons e rest, topFrame, h =>
    match eval fs fuel e topFrame h with
    | .error err => .error err
    | .ok (result, h1) =>
      match interpretLoop fs fuel rest topFrame h1 with
      | .error err => .error err
      | .ok (results, h2) => .ok (result :: results, h2)
  | _, _, h => .ok ([], h)

/-- A heap holding one empty frame without parent: the top-level frame that the caller
of `interpret` makes. -/
def emptyTop : Heap := [{ bindings := [], parent := none }]

/-- A file system without files. -/
def noFiles : String → Option (List Value) := fun _ => none

/-! ## Printing (`displayEval`, `interpret`) -/

/-- The function `displayEval` of `interpreter.c`: the text it writes to standard output.
The `while` loop over `cur` is the recursion on the `cdr` of a Cons value.  `fmt` is the
text that `printf` gives for a `double` under `%f`; `%i` gives the decimal digits of an
`int`. -/
def displayEval (fmt : Rat → String) : Value → Bool → String
  | .int i, newline => toString i ++ " " ++ (if newline then "\n" else "")
  | .double d, newline => fmt d ++ " " ++ (if newline then "\n" else "")
  | .str s, newline =>
    String.singleton (Char.ofNat 34) ++ s ++ String.singleton (Char.ofNat 34) ++ " "
      ++ (if newline then "\n" else "")
  | .symbol s, newline => s ++ " " ++ (if newline then "\n" else "")
  | .bool s, newline => s ++ " " ++ (if newline then "\n" else "")
  | .cons a d, newline =>
    (if isConsType a then
      "(" ++ displayEval fmt a false ++ ")"
        ++ (if !isNull d && !isConsType d then " . " else "")
    else
      displayEval fmt a false ++ (if !isNull d && !isConsType d then ". " else ""))
    ++ (if newline then "\n" else "")
    ++ (if !isNull d then displayEval fmt d newline else "")
  | .null, newline => "()" ++ (if newline then "\n" else "")
  | .void, _ => ""
  | .closure _ _ _, newline => "#procedure " ++ (if newline then "\n" else "")
  | _, newline => " " ++ (if newline then "\n" else "")

/-- What `interpret` prints for one result (lines 1404-1410). -/
def displayResult (fmt : Rat → String) (result : Value) : String :=
  if isConsType result then "(" ++ displayEval fmt result false ++ ")\n"
  else displayEval fmt result true

/-- The loop of `interpret` (lines 1401-1412) with its printing: the text written to
standard output for the results of the top-level forms, in order, up to the first form
whose evaluation stops the run.  The messages printed when a run stops are not
modelled. -/
def interpretPrint (fs : String → Option (List Value)) (fuel : Nat) (fmt : Rat → String) :
    Value → Nat → Heap → String
  | .cons e rest, topFrame, h =>
    match eval fs fuel e topFrame h with
    | .error _ => ""
    | .ok (result, h1) =>
      displayResult fmt result ++ interpretPrint fs fuel fmt rest topFrame h1
  | _, _, _ => ""

/-! ## Notions used to state the properties of the parser -/

/-- Number of `OPEN_TYPE` tokens of a token list. -/
def countOpen : List Value → Nat
  | [] => 0
  | .openType :: ts => countOpen ts + 1
  | _ :: ts => countOpen ts

/-- Number of `CLOSE_TYPE` tokens of a token list. -/
def countClose : List Value → Nat
  | [] => 0
  | .closeType :: ts => countClose ts + 1
  | _ :: ts => countClose ts

/-- A token list read with `d` parentheses already open is unbalanced when in some
prefix the closing parentheses outnumber the open ones, or when at the end some
parenthesis is still open. -/
def UnbalancedFrom (d : Nat) (ts : List Value) : Prop :=
  (∃ n, d + countOpen (ts.take n) < countClose (ts.take n)) ∨
    countClose ts < d + countOpen ts

/-- Unbalanced token lists. -/
def Unbalanced (ts : List Value) : Prop := UnbalancedFrom 0 ts

mutual
/-- The tokens that spell an expression: an atom is its own token, a list is spelled
by `(`, the tokens of its elements and `)`. -/
def tokensOf : Value → List Value
  | .cons a d => .openType :: (tokensOf a ++ tokensOfTail d)
  | .null => [.openType, .closeType]
  | v => [v]
/-- The tokens that spell the remaining elements of a list, and the closing `)`. -/
def tokensOfTail : Value → List Value
  | .cons a d => tokensOf a ++ tokensOfTail d
  | _ => [.closeType]
end

/-- S-expressions built from atoms and nested non-empty proper lists. -/
def isDatum : Value → Bool
  | .cons a d =>
    isDatum a && (match d with
      | .null => true
      | .cons _ _ => isDatum d
      | _ => false)
  | v => isAtom v

/-- The items popped at a `)`: the items of `pre` (top of the stack first) consed one
after the other onto `inner`. -/
def consOnto : List Value → Value → Value
  | [], inner => inner
  | x :: pre, inner => consOnto pre (.cons x inner)

/-- An `OPEN_TYPE` or `CLOSE_TYPE` marker occurs in a value, at any depth. -/
def containsMarker : Value → Bool
  | .openType => true
  | .closeType => true
  | .cons a d => containsMarker a || containsMarker d
  | .closure formal body _ => containsMarker formal || containsMarker body
  | _ => false

/-- Modelled from the spec: the tokenizer is not among the sources; its token vocabulary
(section 6.1 of the specification) is the two parenthesis markers and the atoms Integer,
Double, String, Symbol and Boolean. -/
def isToken (v : Value) : Bool :=
  isAtom v || decide (v = .openType) || decide (v = .closeType)

/-! ## Notions used to state the properties of frames and of the evaluator -/

/-- The value of the first binding named by the symbol `s` in a list of bindings. -/
def firstBinding (s : String) : List (Value × Value) → Option Value
  | [] => none
  | (name, value) :: rest => if name = .symbol s then some value else firstBinding s rest

/-- The bindings seen from a frame: those of the frame, then those of its parent, and so
on up the chain (at most `fuel` frames). -/
def chainBindings (h : Heap) : Nat → Option Nat → List (Value × Value)
  | _, none => []
  | 0, some _ => []
  | fuel + 1, some frame =>
    match h[frame]? with
    | none => []
    | some fr => fr.bindings ++ chainBindings h fuel fr.parent

/-- The bindings seen from a frame of a heap. -/
def visibleBindings (h : Heap) (frame : Nat) : List (Value × Value) :=
  chainBindings h h.length (some frame)

/-- Every frame was allocated after its parent: parent indices are smaller. -/
def ParentsBelow (h : Heap) : Prop :=
  ∀ (i : Nat) (fr : Frame), h[i]? = some fr → ∀ p, fr.parent = some p → p < i

/-- Every binding of every frame is named by a symbol. -/
def SymbolNames (h : Heap) : Prop :=
  ∀ (i : Nat) (fr : Frame), h[i]? = some fr → ∀ b ∈ fr.bindings, isSymbolType b.1 = true

/-- Number of bindings named by the symbol `s`. -/
def bindingCount (s : String) : List (Value × Value) → Nat
  | [] => 0
  | (name, _) :: rest => (if name = .symbol s then 1 else 0) + bindingCount s rest

/-- The bindings that are not named by the symbol `s`, in order. -/
def otherBindings (s : String) : List (Value × Value) → List (Value × Value)
  | [] => []
  | (name, value) :: rest =>
    if name = .symbol s then otherBindings s rest else (name, value) :: otherBindings s rest

/-- The forms of a list are evaluated in order in a frame; their values are dropped. -/
def runForms (ev : Ev) : List Value → Nat → Heap → Res Heap
  | [], _, h => .ok h
  | e :: rest, frame, h =>
    match ev e frame h with
    | .error err => .error err
    | .ok (_, h1) => runForms ev rest frame h1

/-- The forms of a list are evaluated in order, then a last form, whose value is the
result. -/
def evalSequence (ev : Ev) (forms : List Value) (last : Value) (frame : Nat) (h : Heap) :
    Res (Value × Heap) :=
  match runForms ev forms frame h with
  | .error err => .error err
  | .ok h1 => ev last frame h1

/-- The bindings made by the loop of `apply`: each formal is paired with its actual and
put in front of the bindings made before. -/
def bindAll : List String → List Value → List (Value × Value) → List (Value × Value)
  | s :: ss, a :: as, pre => bindAll ss as ((.symbol s, a) :: pre)
  | _, _, pre => pre

/-- The names of the bindings of a frame, first binding first. -/
def bindingNames (bs : List (Value × Value)) : List Value := bs.map Prod.fst

/-- No two bindings of a frame of the heap have the same name. -/
def DistinctNames (h : Heap) : Prop :=
  ∀ (i : Nat) (fr : Frame), h[i]? = some fr → (bindingNames fr.bindings).Nodup

/-- A binding after the assignment of `v` to the symbol `s`: a binding named `s` gets the
value `v`, any other binding stays as it is. -/
def assignBinding (s : String) (v : Value) (b : Value × Value) : Value × Value :=
  if b.1 = .symbol s then (b.1, v) else b

/-- An evaluator keeps the names of every frame distinct. -/
def EvKeeps (ev : Ev) : Prop :=
  ∀ (e : Value) (frame : Nat) (h : Heap) (v : Value) (h1 : Heap),
    ev e frame h = .ok (v, h1) → DistinctNames h → DistinctNames h1

/-- An `apply` keeps the names of every frame distinct. -/
def ApKeeps (app : Ap) : Prop :=
  ∀ (function args : Value) (frame : Nat) (h : Heap) (v : Value) (h1 : Heap),
    app function args frame h = .ok (v, h1) → DistinctNames h → DistinctNames h1

/-! ## Notions used to state the properties of the special forms -/

/-- The expressions of a list are evaluated from left to right in a frame; the values
are collected in the same order. -/
def evalList (ev : Ev) : List Value → Nat → Heap → Res (List Value × Heap)
  | [], _, h => .ok ([], h)
  | e :: rest, frame, h =>
    match ev e frame h with
    | .error err => .error err
    | .ok (v, h1) =>
      match evalList ev rest frame h1 with
      | .error err => .error err
      | .ok (vs, h2) => .ok (v :: vs, h2)

/-- The expressions of a list are evaluated in order in a frame, from heap `h` to heap
`hEnd`, and the value of each satisfies `p`. -/
def EvalsAll (ev : Ev) (p : Value → Bool) (frame : Nat) : List Value → Heap → Heap → Prop
  | [], h, hEnd => hEnd = h
  | e :: rest, h, hEnd =>
    ∃ v h1, ev e frame h = .ok (v, h1) ∧ p v = true ∧ EvalsAll ev p frame rest h1 hEnd

/-- The binding list `((x1 e1) ... (xn en))` of a `let`, `letrec` or `let*`. -/
def letBindings (bindings : List (String × Value)) : Value :=
  listToValue (bindings.map fun b => listToValue [.symbol b.1, b.2])

/-- The binding expressions of a `let` or `letrec` evaluate one after the other: each
`e` evaluates in `evalFrame` to its value `v` and leaves the frame `g` as it was (with the
bindings `bs` made so far and its parent), and then `(x, v)` is put in front of the
bindings of `g`.  The run starts in heap `h` and ends in heap `hEnd`. -/
def BindsInOrder (ev : Ev) (evalFrame g : Nat) (parent : Option Nat) :
    List (String × Value) → List Value → List (Value × Value) → Heap → Heap → Prop
  | [], [], _, h, hEnd => hEnd = h
  | (x, e) :: rest, v :: vs, bs, h, hEnd =>
    ∃ h1, ev e evalFrame h = .ok (v, h1) ∧
      h1[g]? = some { bindings := bs, parent := parent } ∧
      BindsInOrder ev evalFrame g parent rest vs ((.symbol x, v) :: bs)
        (setBindings h1 g ((.symbol x, v) :: bs)) hEnd
  | _, _, _, _, _ => False

/-- The heap that `interpret` starts from: one top-level frame in which the primitives
are bound. -/
def primitivesTop : Heap :=
  match bindPrimitives primitiveTable 0 emptyTop with
  | .ok h => h
  | .error _ => emptyTop

/-- The program of scenario 4 with the argument `k`:
`(letrec ((fact (lambda (n) (if (<= n 1) 1 (* n (fact (- n 1))))))) (fact k))`. -/
def factorialForm (k : Nat) : Value :=
  listToValue [.symbol "letrec",
    listToValue [listToValue [.symbol "fact",
      listToValue [.symbol "lambda", listToValue [.symbol "n"],
        listToValue [.symbol "if", listToValue [.symbol "<=", .symbol "n", .int 1], .int 1,
          listToValue [.symbol "*", .symbol "n",
            listToValue [.symbol "fact", listToValue [.symbol "-", .symbol "n", .int 1]]]]]]],
    listToValue [.symbol "fact", .int k]]

/-! ## Notions used to state the properties of the primitives -/

/-- The test `v->type == INT_TYPE`. -/
def isIntType : Value → Bool
  | .int _ => true
  | _ => false

/-- The test `v->type == DOUBLE_TYPE`. -/
def isDoubleType : Value → Bool
  | .double _ => true
  | _ => false

/-- Numbers: Integer and Double values. -/
def isNumber (v : Value) : Bool := isIntType v || isDoubleType v

/-- The number held by an Integer or Double value (0 for any other value). -/
def numValue : Value → Rat
  | .int i => i
  | .double d => d
  | _ => 0

/-- The Integer 0 and the Double 0.0. -/
def isZeroNumber : Value → Bool
  | .int i => decide (i = 0)
  | .double d => decide (d = 0)
  | _ => false

/-- A list of numbers is non-decreasing: each is at most the one that follows it. -/
def nonDecreasing : List Rat → Bool
  | [] => true
  | [_] => true
  | a :: b :: rest => decide (a ≤ b) && nonDecreasing (b :: rest)

/-! ## Notions used to state where closures come from -/

/-- Expression trees as `parse` builds them from tokens: atoms, and lists none of whose
elements is the empty list; no Void, closure, primitive or marker occurs in them. -/
def isCode : Value → Bool
  | .int _ => true
  | .double _ => true
  | .str _ => true
  | .symbol _ => true
  | .bool _ => true
  | .null => true
  | .cons a d => !isNull a && isCode a && isCode d
  | _ => false

/-- Values whose closures come from `lambda` expressions of parsed code: the formal of
every closure is not the empty list and its body is code. -/
def closuresFromCode : Value → Bool
  | .cons a d => closuresFromCode a && closuresFromCode d
  | .closure formal body _ => !isNull formal && isCode body
  | _ => true

/-- Every value bound in a frame of the heap has its closures from code. -/
def HeapFromCode (h : Heap) : Prop :=
  ∀ (i : Nat) (fr : Frame), h[i]? = some fr →
    ∀ b ∈ fr.bindings, closuresFromCode b.2 = true

/-- Integers, Doubles and Booleans: the results of the numeric primitives and of the
predicates. -/
def isPlain : Value → Bool
  | .int _ => true
  | .double _ => true
  | .bool _ => true
  | _ => false

/-- Every file of the file system holds tokens. -/
def TokenFiles (fs : String → Option (List Value)) : Prop :=
  ∀ (name : String) (ts : List Value), fs name = some ts → ∀ t ∈ ts, isToken t = true

/-- An `apply` keeps closures from code: applied to a function and arguments whose
closures are from code, in a heap of such values, it returns such a value and such a
heap; and it returns nothing when the function is an expression tree. -/
def ApFromCode (app : Ap) : Prop :=
  (∀ (function args : Value) (frame : Nat) (h : Heap) (v : Value) (h1 : Heap),
    closuresFromCode function = true → closuresFromCode args = true → HeapFromCode h →
    app function args frame h = .ok (v, h1) →
    closuresFromCode v = true ∧ HeapFromCode h1) ∧
  (∀ (function args : Value) (frame : Nat) (h : Heap) (r : Value × Heap),
    isCode function = true → app function args frame h ≠ .ok r)

/-- An evaluator keeps closures from code: the value of an expression tree, evaluated in
a heap of values whose closures are from code, is such a value, and the heap left is
such a heap. -/
def EvFromCode (ev : Ev) : Prop :=
  ∀ (e : Value) (frame : Nat) (h : Heap) (v : Value) (h1 : Heap),
    isCode e = true → HeapFromCode h → ev e frame h = .ok (v, h1) →
    closuresFromCode v = true ∧ HeapFromCode h1

/-! ## Theorems: the parser -/

theorem countOpen_popToOpen : ∀ (stack : List Value) (inner : Value),
    0 < countOpen stack →
    ∃ inner1 stack1, popToOpen stack inner = some (inner1, stack1) ∧
      countOpen stack1 + 1 = countOpen stack ∧
      (inner1 = inner ∨ isConsType inner1 = true) := by
  intro stack
  induction stack with
  | nil => intro inner h; simp [countOpen] at h
  | cons x xs ih =>
    intro inner h
    by_cases hx : x = .openType
    · subst hx
      exact ⟨inner, xs, by simp [popToOpen], by simp [countOpen], Or.inl rfl⟩
    · have hc : countOpen (x :: xs) = countOpen xs := by
        cases x <;> simp_all [countOpen]
      have hp : popToOpen (x :: xs) inner = popToOpen xs (.cons x inner) := by
        cases x <;> simp_all [popToOpen]
      obtain ⟨inner1, stack1, h1, h2, h3⟩ := ih (.cons x inner) (by omega)
      refine ⟨inner1, stack1, by rw [hp, h1], by omega, ?_⟩
      rcases h3 with h3 | h3
      · right; subst h3; rfl
      · right; exact h3

theorem unbalancedFrom_nil (d : Nat) : UnbalancedFrom d [] ↔ d ≠ 0 := by
  simp [UnbalancedFrom, countOpen, countClose]
  omega

theorem unbalancedFrom_open (d : Nat) (ts : List Value) :
    UnbalancedFrom d (.openType :: ts) ↔ UnbalancedFrom (d + 1) ts := by
  unfold UnbalancedFrom
  constructor
  · rintro (⟨n, hn⟩ | h)
    · cases n with
      | zero => simp [countOpen, countClose] at hn
      | succ m =>
        left; refine ⟨m, ?_⟩
        simp [countOpen, countClose] at hn; omega
    · right; simp [countOpen, countClose] at h; omega
  · rintro (⟨n, hn⟩ | h)
    · left; refine ⟨n + 1, ?_⟩
      simp [countOpen, countClose]; omega
    · right; simp [countOpen, countClose]; omega

theorem unbalancedFrom_close (d : Nat) (ts : List Value) :
    UnbalancedFrom (d + 1) (.closeType :: ts) ↔ UnbalancedFrom d ts := by
  unfold UnbalancedFrom
  constructor
  · rintro (⟨n, hn⟩ | h)
    · cases n with
      | zero => simp [countOpen, countClose] at hn
      | succ m =>
        left; refine ⟨m, ?_⟩
        simp [countOpen, countClose] at hn; omega
    · right; simp [countOpen, countClose] at h; omega
  · rintro (⟨n, hn⟩ | h)
    · left; refine ⟨n + 1, ?_⟩
      simp [countOpen, countClose]; omega
    · right; simp [countOpen, countClose]; omega

theorem unbalancedFrom_close_zero (ts : List Value) :
    UnbalancedFrom 0 (.closeType :: ts) := by
  left; refine ⟨1, ?_⟩; simp [countOpen, countClose]

theorem unbalancedFrom_other (d : Nat) (t : Value) (ts : List Value)
    (ho : t ≠ .openType) (hc : t ≠ .closeType) :
    UnbalancedFrom d (t :: ts) ↔ UnbalancedFrom d ts := by
  have h1 : ∀ l, countOpen (t :: l) = countOpen l := by
    intro l; cases t <;> simp_all [countOpen]
  have h2 : ∀ l, countClose (t :: l) = countClose l := by
    intro l; cases t <;> simp_all [countClose]
  unfold UnbalancedFrom
  constructor
  · rintro (⟨n, hn⟩ | h)
    · cases n with
      | zero => simp [countOpen, countClose] at hn
      | succ m =>
        left; refine ⟨m, ?_⟩
        simpa [h1, h2] using hn
    · right; simpa [h1, h2] using h
  · rintro (⟨n, hn⟩ | h)
    · left; refine ⟨n + 1, ?_⟩
      simpa [h1, h2] using hn
    · right; simpa [h1, h2] using h

theorem parseLoop_outcome : ∀ (ts stack : List Value) (d : Nat),
    countOpen stack = d →
    (parseLoop ts stack d = .failed ∧ UnbalancedFrom d ts) ∨
    (∃ v, parseLoop ts stack d = .tree v ∧ ¬ UnbalancedFrom d ts) := by
  intro ts
  induction ts with
  | nil =>
    intro stack d _
    by_cases hd : d = 0
    · right; exact ⟨listToValue stack, by simp [parseLoop, hd], by simp [unbalancedFrom_nil, hd]⟩
    · left; exact ⟨by simp [parseLoop, hd], by simp [unbalancedFrom_nil, hd]⟩
  | cons t ts ih =>
    intro stack d hs
    by_cases ho : t = .openType
    · subst ho
      have := ih (.openType :: stack) (d + 1) (by simp [countOpen, hs])
      simpa [parseLoop, unbalancedFrom_open] using this
    · by_cases hc : t = .closeType
      · subst hc
        cases d with
        | zero => left; exact ⟨by simp [parseLoop], unbalancedFrom_close_zero ts⟩
        | succ d =>
          obtain ⟨inner1, stack1, hp, hcount, hinner⟩ := countOpen_popToOpen stack makeNull (by omega)
          have hs1 : countOpen stack1 = d := by omega
          have hinner : inner1 = .null ∨ isConsType inner1 = true := by
            rcases hinner with h | h
            · left; simpa [makeNull] using h
            · right; exact h
          have hpl : parseLoop (.closeType :: ts) stack (d + 1) =
              parseLoop ts (if isNull inner1 then stack1 else inner1 :: stack1) d := by
            simp only [parseLoop, hp]
            cases hn : isNull inner1 <;> simp
          have hst : countOpen (if isNull inner1 then stack1 else inner1 :: stack1) = d := by
            rcases hinner with h | h
            · subst h; simpa [isNull] using hs1
            · cases inner1 <;> simp_all [isConsType, isNull, countOpen]
          rw [hpl, unbalancedFrom_close]
          exact ih _ d hst
      · have hst : countOpen (t :: stack) = d := by
          cases t <;> simp_all [countOpen]
        have := ih (t :: stack) d hst
        have hpl : parseLoop (t :: ts) stack d = parseLoop ts (t :: stack) d := by
          cases t <;> simp_all [parseLoop]
        rw [hpl, unbalancedFrom_other d t ts ho hc]
        exact this

theorem popToOpen_append (pre : List Value) (hpre : ∀ x ∈ pre, x ≠ .openType)
    (stack : List Value) (inner : Value) :
    popToOpen (pre ++ .openType :: stack) inner = some (consOnto pre inner, stack) := by
  induction pre generalizing inner with
  | nil => simp [popToOpen, consOnto]
  | cons x pre ih =>
    have hx : x ≠ .openType := hpre x (by simp)
    have hp : popToOpen (x :: (pre ++ .openType :: stack)) inner
        = popToOpen (pre ++ .openType :: stack) (.cons x inner) := by
      cases x <;> simp_all [popToOpen]
    rw [List.cons_append, hp, ih (fun y hy => hpre y (by simp [hy]))]
    rfl

theorem isDatum_ne_open (v : Value) (h : isDatum v = true) : v ≠ .openType := by
  intro hv; subst hv; simp [isDatum, isAtom] at h

theorem consOnto_isCons (pre : List Value) (inner : Value) (h : isConsType inner = true) :
    isConsType (consOnto pre inner) = true := by
  induction pre generalizing inner with
  | nil => simpa [consOnto] using h
  | cons x pre ih => exact ih _ rfl

theorem tokensOf_atom (v : Value) (h : isAtom v = true) : tokensOf v = [v] := by
  cases v <;> first | rfl | simp [isAtom] at h

theorem tokensOf_cons (a d : Value) :
    tokensOf (.cons a d) = .openType :: (tokensOf a ++ tokensOfTail d) := by
  rw [tokensOf]

theorem tokensOfTail_cons (a d : Value) :
    tokensOfTail (.cons a d) = tokensOf a ++ tokensOfTail d := by
  rw [tokensOfTail]

theorem tokensOfTail_null : tokensOfTail .null = [.closeType] := by
  rw [tokensOfTail]
  intro a d h; cases h

theorem parseLoop_atom (t : Value) (h : isAtom t = true) (current stack : List Value)
    (depth : Nat) :
    parseLoop (t :: current) stack depth = parseLoop current (t :: stack) depth := by
  cases t <;> first | rfl | simp [isAtom] at h

theorem isDatum_cons_eq (a d : Value) :
    isDatum (.cons a d) = (isDatum a && (match d with
      | .null => true
      | .cons _ _ => isDatum d
      | _ => false)) := by
  cases d <;> rfl

theorem isDatum_cons (a d : Value) (h : isDatum (.cons a d) = true) :
    isDatum a = true ∧ (isNull d = true ∨ (isConsType d = true ∧ isDatum d = true)) := by
  rw [isDatum_cons_eq] at h
  cases d <;> simp_all [isNull, isConsType]

theorem isDatum_atom (v : Value) (h : isDatum v = true) (hc : isConsType v = false) :
    isAtom v = true := by
  cases v <;> first | exact h | simp [isConsType] at hc

theorem parseLoop_tokens (v : Value) :
    (isDatum v = true → ∀ (current stack : List Value) (depth : Nat),
      parseLoop (tokensOf v ++ current) stack depth = parseLoop current (v :: stack) depth) ∧
    ((isNull v = true ∨ (isConsType v = true ∧ isDatum v = true)) →
      ∀ (current pre stack : List Value) (depth : Nat),
      pre ≠ [] → (∀ x ∈ pre, x ≠ .openType) →
      parseLoop (tokensOfTail v ++ current) (pre ++ .openType :: stack) (depth + 1)
        = parseLoop current (consOnto pre v :: stack) depth) := by
  induction v with
  | cons a d iha ihd =>
    constructor
    · intro h current stack depth
      obtain ⟨ha, hd⟩ := isDatum_cons a d h
      have h1 := iha.1 ha (tokensOfTail d ++ current) (.openType :: stack) (depth + 1)
      have h2 := ihd.2 hd current [a] stack depth (by simp)
        (by intro x hx; simp at hx; subst hx; exact isDatum_ne_open _ ha)
      rw [tokensOf_cons, List.cons_append, List.append_assoc]
      show parseLoop (tokensOf a ++ (tokensOfTail d ++ current)) (.openType :: stack)
        (depth + 1) = _
      rw [h1]
      exact h2
    · rintro (h | ⟨_, h⟩) current pre stack depth hne hpre
      · simp [isNull] at h
      · obtain ⟨ha, hd⟩ := isDatum_cons a d h
        have h1 := iha.1 ha (tokensOfTail d ++ current) (pre ++ .openType :: stack) (depth + 1)
        have h2 := ihd.2 hd current (a :: pre) stack depth (by simp)
          (by
            intro x hx
            rcases List.mem_cons.1 hx with hx | hx
            · subst hx; exact isDatum_ne_open _ ha
            · exact hpre x hx)
        rw [tokensOfTail_cons, List.append_assoc, h1]
        exact h2
  | null =>
    constructor
    · intro h; simp [isDatum, isAtom] at h
    · intro _ current pre stack depth hne hpre
      have hc : isConsType (consOnto pre .null) = true := by
        cases pre with
        | nil => exact absurd rfl hne
        | cons x pre => exact consOnto_isCons pre _ rfl
      have hn : isNull (consOnto pre .null) = false := by
        cases hv : consOnto pre .null <;> simp_all [isNull, isConsType]
      rw [tokensOfTail_null]
      simp [parseLoop, popToOpen_append pre hpre, makeNull, hn]
  | _ =>
    constructor
    · intro h current stack depth
      have ha := isDatum_atom _ h rfl
      rw [tokensOf_atom _ ha]
      exact parseLoop_atom _ ha current stack depth
    · rintro (h | ⟨h, _⟩) <;> simp [isNull, isConsType] at h

/-- C3, the code at the failing inputs: `parse` returns its stack as it stands, so the
top-level forms come out last form first.  The tokens of `1 2` give the list `(2 1)`,
and the tokens of `(a) (b)` give `((b) (a))`. -/
theorem parse_returns_forms_last_first :
    parse [.int 1, .int 2] = .tree (listToValue [.int 2, .int 1]) ∧
    parse [.openType, .symbol "a", .closeType, .openType, .symbol "b", .closeType]
      = .tree (listToValue [listToValue [.symbol "b"], listToValue [.symbol "a"]]) := by
  constructor <;> decide

/-- C4: `parse` returns the failure sentinel exactly on the unbalanced token lists (some
prefix has more closing than opening parentheses, or a parenthesis is still open at the
end); on every other token list it returns a tree.  The single token `(` fails and the
single token `)` fails. -/
theorem parse_failed_iff_unbalanced (tokens : List Value) :
    (parse tokens = .failed ↔ Unbalanced tokens) ∧
    (Unbalanced tokens ∨ ∃ tree, parse tokens = .tree tree) ∧
    parse [.openType] = .failed ∧ parse [.closeType] = .failed := by
  have h := parseLoop_outcome tokens [] 0 rfl
  refine ⟨?_, ?_, by decide, by decide⟩
  · rcases h with ⟨h1, h2⟩ | ⟨v, h1, h2⟩
    · exact ⟨fun _ => h2, fun _ => h1⟩
    · constructor
      · intro hf; rw [parse, h1] at hf; cases hf
      · intro hu; exact absurd hu h2
  · rcases h with ⟨_, h2⟩ | ⟨v, h1, _⟩
    · exact Or.inl h2
    · exact Or.inr ⟨v, h1⟩

/-- C5 as stated fails: the tokens `( )` do not parse to a one-element list holding
Null, and `( f ( ) )` does not parse to the list holding `(f ())`. -/
theorem parse_empty_list_not_pushed :
    parse [.openType, .closeType] ≠ .tree (listToValue [.null]) ∧
    parse [.openType, .symbol "f", .openType, .closeType, .closeType]
      ≠ .tree (listToValue [listToValue [.symbol "f", .null]]) := by
  constructor <;> decide

/-- C5, amended: when a `)` closes a `(` with no items between them, `parse` pushes
nothing (the guard `!isNull(inner)`), whatever the stack, the depth and the tokens that
follow; the tokens `( )` parse to the empty list and `( f ( ) )` to the list holding the
one-element list `(f)`. -/
theorem parse_drops_empty_list (current stack : List Value) (depth : Nat) :
    parseLoop (.openType :: .closeType :: current) stack depth
      = parseLoop current stack depth ∧
    parse [.openType, .closeType] = .tree .null ∧
    parse [.openType, .symbol "f", .openType, .closeType, .closeType]
      = .tree (listToValue [listToValue [.symbol "f"]]) := by
  refine ⟨?_, by decide, by decide⟩
  simp [parseLoop, popToOpen, makeNull, isNull]

/-! ## Theorems: frames -/

theorem lookUpBindings_eq (s : String) (bs : List (Value × Value))
    (hs : ∀ b ∈ bs, isSymbolType b.1 = true) :
    lookUpBindings s bs = .ok (firstBinding s bs) := by
  induction bs with
  | nil => rfl
  | cons b bs ih =>
    obtain ⟨name, value⟩ := b
    have hn : isSymbolType name = true := hs (name, value) (by simp)
    have ih' := ih (fun b hb => hs b (by simp [hb]))
    cases name <;> simp [isSymbolType] at hn
    rename_i t
    by_cases hts : t = s
    · simp [lookUpBindings, firstBinding, strField, hts]
    · simp [lookUpBindings, firstBinding, strField, hts, ih']

theorem firstBinding_append (s : String) (xs ys : List (Value × Value)) :
    firstBinding s (xs ++ ys) =
      match firstBinding s xs with
      | some v => some v
      | none => firstBinding s ys := by
  induction xs with
  | nil => simp [firstBinding]
  | cons b xs ih =>
    obtain ⟨name, value⟩ := b
    by_cases hn : name = .symbol s
    · simp [firstBinding, hn]
    · simp [firstBinding, hn, ih]

theorem firstBinding_none_iff (s : String) (bs : List (Value × Value)) :
    firstBinding s bs = none ↔ ∀ b ∈ bs, b.1 ≠ .symbol s := by
  induction bs with
  | nil => simp [firstBinding]
  | cons b bs ih =>
    obtain ⟨name, value⟩ := b
    by_cases hn : name = .symbol s
    · simp [firstBinding, hn]
    · simp [firstBinding, hn, ih]

theorem lookUpFrames_eq (s : String) (h : Heap) (hwf : ParentsBelow h) (hsym : SymbolNames h) :
    ∀ (fuel : Nat) (cur : Option Nat),
      (∀ f, cur = some f → f < fuel ∧ f < h.length) →
      lookUpFrames s h fuel cur =
        match firstBinding s (chainBindings h fuel cur) with
        | some v => .ok v
        | none => .error .evaluationError := by
  intro fuel
  induction fuel with
  | zero =>
    intro cur hc
    cases cur with
    | none => simp [lookUpFrames, chainBindings, firstBinding]
    | some f => exact absurd (hc f rfl).1 (by omega)
  | succ n ih =>
    intro cur hc
    cases cur with
    | none => simp [lookUpFrames, chainBindings, firstBinding]
    | some f =>
      obtain ⟨hf1, hf2⟩ := hc f rfl
      have hget : h[f]? = some h[f] := List.getElem?_eq_getElem hf2
      have hb := lookUpBindings_eq s h[f].bindings (hsym f _ hget)
      have ihp := ih h[f].parent (by
        intro p hp
        have := hwf f _ hget p hp
        exact ⟨by omega, by omega⟩)
      simp only [lookUpFrames, getFrame, chainBindings, hget, hb, firstBinding_append]
      cases hfb : firstBinding s h[f].bindings with
      | some v => simp
      | none => simpa using ihp

theorem updateBindingAt_zero (b : Value × Value) (bs : List (Value × Value)) (v : Value) :
    updateBindingAt (b :: bs) 0 v = (b.1, v) :: bs := by
  simp [updateBindingAt]

theorem updateBindingAt_succ (b : Value × Value) (bs : List (Value × Value)) (i : Nat)
    (v : Value) :
    updateBindingAt (b :: bs) (i + 1) v = b :: updateBindingAt bs i v := by
  simp only [updateBindingAt, List.getElem?_cons_succ]
  cases bs[i]? <;> simp

theorem isBoundedIn_spec (s : String) (v : Value) (bs : List (Value × Value))
    (hs : ∀ b ∈ bs, isSymbolType b.1 = true) :
    (isBoundedIn (.symbol s) bs = .ok none ∧ bindingCount s bs = 0) ∨
    (∃ i, isBoundedIn (.symbol s) bs = .ok (some i) ∧
      firstBinding s (updateBindingAt bs i v) = some v ∧
      bindingCount s (updateBindingAt bs i v) = bindingCount s bs ∧
      1 ≤ bindingCount s bs ∧
      otherBindings s (updateBindingAt bs i v) = otherBindings s bs ∧
      ∀ b ∈ updateBindingAt bs i v, isSymbolType b.1 = true) := by
  induction bs with
  | nil => left; simp [isBoundedIn, bindingCount]
  | cons b bs ih =>
    obtain ⟨name, value⟩ := b
    have hn : isSymbolType name = true := hs (name, value) (by simp)
    have hs' : ∀ b ∈ bs, isSymbolType b.1 = true := fun b hb => hs b (by simp [hb])
    cases name <;> simp [isSymbolType] at hn
    rename_i t
    by_cases hts : t = s
    · right
      refine ⟨0, by simp [isBoundedIn, strField, hts], ?_, ?_, ?_, ?_, ?_⟩
      · simp [updateBindingAt_zero, firstBinding, hts]
      · simp [updateBindingAt_zero, bindingCount, hts]
      · simp [bindingCount, hts]
      · simp [updateBindingAt_zero, otherBindings, hts]
      · intro b hb
        rw [updateBindingAt_zero] at hb
        rcases List.mem_cons.1 hb with hb | hb
        · subst hb; rfl
        · exact hs' b hb
    · rcases ih hs' with ⟨h1, h2⟩ | ⟨i, h1, h2, h3, h3b, h4, h5⟩
      · left; simp [isBoundedIn, strField, hts, h1, bindingCount, h2]
      · right
        refine ⟨i + 1, by simp [isBoundedIn, strField, hts, h1], ?_, ?_, ?_, ?_, ?_⟩
        · simp [updateBindingAt_succ, firstBinding, hts, h2]
        · simp [updateBindingAt_succ, bindingCount, hts, h3]
        · simp [bindingCount, hts, h3b]
        · simp [updateBindingAt_succ, otherBindings, hts, h4]
        · intro b hb
          rw [updateBindingAt_succ] at hb
          rcases List.mem_cons.1 hb with hb | hb
          · subst hb; rfl
          · exact h5 b hb

theorem getElem?_setBindings_self (h : Heap) (frame : Nat) (fr : Frame)
    (bs : List (Value × Value)) (hfr : h[frame]? = some fr) :
    (setBindings h frame bs)[frame]? = some { fr with bindings := bs } := by
  have hlt : frame < h.length := by
    rcases Nat.lt_or_ge frame h.length with hl | hl
    · exact hl
    · rw [List.getElem?_eq_none hl] at hfr; cases hfr
  simp [setBindings, hfr, List.getElem?_set, hlt]

theorem getElem?_setBindings_other (h : Heap) (frame i : Nat) (bs : List (Value × Value))
    (hi : i ≠ frame) : (setBindings h frame bs)[i]? = h[i]? := by
  unfold setBindings
  cases hfr : h[frame]? with
  | none => rfl
  | some fr => simp [List.getElem?_set, Ne.symm hi]

theorem length_setBindings (h : Heap) (frame : Nat) (bs : List (Value × Value)) :
    (setBindings h frame bs).length = h.length := by
  unfold setBindings
  cases h[frame]? <;> simp

theorem lookUpSymbol_local (s : String) (frame : Nat) (h : Heap) (fr : Frame) (v : Value)
    (hfr : h[frame]? = some fr) (hs : ∀ b ∈ fr.bindings, isSymbolType b.1 = true)
    (hv : firstBinding s fr.bindings = some v) :
    lookUpSymbol (.symbol s) frame h = .ok v := by
  have hlt : frame < h.length := by
    rcases Nat.lt_or_ge frame h.length with hl | hl
    · exact hl
    · rw [List.getElem?_eq_none hl] at hfr; cases hfr
  obtain ⟨k, hk⟩ : ∃ k, h.length = k + 1 := ⟨h.length - 1, by omega⟩
  simp [lookUpSymbol, strField, hk, lookUpFrames, getFrame, hfr, lookUpBindings_eq s _ hs, hv]

/-! ## Theorems: the evaluator -/

theorem eval_succ (fs : String → Option (List Value)) (n : Nat) (expr : Value) (frame : Nat)
    (h : Heap) :
    eval fs (n + 1) expr frame h = evalStep fs (eval fs n) (apply fs n) expr frame h := by
  rw [eval]

theorem apply_succ (fs : String → Option (List Value)) (n : Nat) (function args : Value)
    (frame : Nat) (h : Heap) :
    apply fs (n + 1) function args frame h
      = applyStep fs (eval fs n) (apply fs n) function args frame h := by
  rw [apply]

theorem length_listToValue (xs : List Value) : length (listToValue xs) = .ok xs.length := by
  induction xs with
  | nil => rfl
  | cons x xs ih => simp [listToValue, length, ih]

theorem eval_quote (fs : String → Option (List Value)) (n : Nat) (args : Value) (frame : Nat)
    (h : Heap) :
    eval fs (n + 1) (.cons (.symbol "quote") args) frame h =
      match length args with
      | .error e => .error e
      | .ok k =>
        if k ≠ 1 then .error .evaluationError
        else
          match car args with
          | .error e => .error e
          | .ok a => .ok (a, h) := by
  rw [eval_succ]
  cases hl : length args with
  | error e => simp [evalStep, headName, hl]
  | ok k =>
    cases hc : car args <;> simp [evalStep, headName, hl, hc]

theorem eval_if (fs : String → Option (List Value)) (n : Nat) (args : Value) (frame : Nat)
    (h : Heap) :
    eval fs (n + 1) (.cons (.symbol "if") args) frame h = evalIf (eval fs n) args frame h := by
  rw [eval_succ]
  simp [evalStep, headName]

theorem eval_bool (fs : String → Option (List Value)) (n : Nat) (s : String) (frame : Nat)
    (h : Heap) : eval fs (n + 1) (.bool s) frame h = .ok (.bool s, h) := by
  rw [eval_succ]; rfl

theorem evalBody_single (ev : Ev) (e : Value) (frame : Nat) (h : Heap) :
    evalBody ev (.cons e .null) frame h = ev e frame h := by
  simp [evalBody]

theorem evalBody_cons_error (ev : Ev) (e a d : Value) (frame : Nat) (h : Heap) (err : Fault)
    (hev : ev e frame h = .error err) :
    evalBody ev (.cons e (.cons a d)) frame h = .error err := by
  simp [evalBody, hev]

theorem evalBody_cons_ok (ev : Ev) (e a d : Value) (frame : Nat) (h h1 : Heap) (v : Value)
    (hev : ev e frame h = .ok (v, h1)) :
    evalBody ev (.cons e (.cons a d)) frame h = evalBody ev (.cons a d) frame h1 := by
  simp [evalBody, hev]

theorem evalBody_eq_evalSequence (ev : Ev) (forms : List Value) (last : Value) (frame : Nat)
    (h : Heap) :
    evalBody ev (listToValue (forms ++ [last])) frame h
      = evalSequence ev forms last frame h := by
  induction forms generalizing h with
  | nil => simp [listToValue, evalBody, evalSequence, runForms]
  | cons e rest ih =>
    have hne : ∃ a d, listToValue (rest ++ [last]) = .cons a d := by
      cases rest <;> simp [listToValue]
    obtain ⟨a, d, had⟩ := hne
    have hl : listToValue ((e :: rest) ++ [last]) = .cons e (.cons a d) := by
      rw [List.cons_append, listToValue, had]
    rw [hl]
    cases hev : ev e frame h with
    | error err =>
      rw [evalBody_cons_error ev e a d frame h err hev]
      simp [evalSequence, runForms, hev]
    | ok r =>
      obtain ⟨v, h1⟩ := r
      rw [evalBody_cons_ok ev e a d frame h h1 v hev, ← had, ih h1]
      simp [evalSequence, runForms, hev]

theorem firstBinding_bindAll_other (t : String) (ss : List String) (as : List Value)
    (pre : List (Value × Value)) (ht : t ∉ ss) :
    firstBinding t (bindAll ss as pre) = firstBinding t pre := by
  induction ss generalizing as pre with
  | nil => simp [bindAll]
  | cons s ss ih =>
    cases as with
    | nil => simp [bindAll]
    | cons a as =>
      have hts : s ≠ t := fun h => ht (by simp [h])
      rw [bindAll, ih as _ (fun h => ht (by simp [h]))]
      simp [firstBinding, hts]

theorem firstBinding_bindAll (ss : List String) (as : List Value)
    (pre : List (Value × Value)) (hnd : ss.Nodup) (i : Nat) (s : String) (a : Value)
    (hs : ss[i]? = some s) (ha : as[i]? = some a) :
    firstBinding s (bindAll ss as pre) = some a := by
  induction ss generalizing as pre i with
  | nil => simp at hs
  | cons s0 ss ih =>
    cases as with
    | nil => simp at ha
    | cons a0 as =>
      rw [List.nodup_cons] at hnd
      cases i with
      | zero =>
        simp at hs ha
        subst hs; subst ha
        rw [bindAll, firstBinding_bindAll_other _ _ _ _ hnd.1]
        simp [firstBinding]
      | succ i =>
        simp at hs ha
        rw [bindAll]
        exact ih as _ hnd.2 i hs ha

theorem symbols_bindAll (ss : List String) (as : List Value) (pre : List (Value × Value))
    (hpre : ∀ b ∈ pre, isSymbolType b.1 = true) :
    ∀ b ∈ bindAll ss as pre, isSymbolType b.1 = true := by
  induction ss generalizing as pre with
  | nil => simpa [bindAll] using hpre
  | cons s ss ih =>
    cases as with
    | nil => simpa [bindAll] using hpre
    | cons a as =>
      rw [bindAll]
      apply ih
      intro b hb
      rcases List.mem_cons.1 hb with hb | hb
      · subst hb; rfl
      · exact hpre b hb

theorem setBindings_append_self (h : Heap) (fr : Frame) (bs : List (Value × Value)) :
    setBindings (h ++ [fr]) h.length bs = h ++ [{ fr with bindings := bs }] := by
  simp [setBindings]

theorem isBoundedIn_none (s : String) (bs : List (Value × Value))
    (hs : ∀ b ∈ bs, isSymbolType b.1 = true) (hc : firstBinding s bs = none) :
    isBoundedIn (.symbol s) bs = .ok none := by
  induction bs with
  | nil => rfl
  | cons b bs ih =>
    obtain ⟨name, value⟩ := b
    have hn : isSymbolType name = true := hs (name, value) (by simp)
    cases name <;> simp [isSymbolType] at hn
    rename_i t
    by_cases hts : t = s
    · simp [firstBinding, hts] at hc
    · have hc' : firstBinding s bs = none := by simpa [firstBinding, hts] using hc
      simp [isBoundedIn, strField, hts, ih (fun b hb => hs b (by simp [hb])) hc']

theorem bindFormals_eq (ss : List String) (as : List Value) (h : Heap) (parent : Option Nat)
    (pre : List (Value × Value)) (hlen : ss.length = as.length) (hnd : ss.Nodup)
    (hpre : ∀ b ∈ pre, isSymbolType b.1 = true)
    (hfresh : ∀ s ∈ ss, firstBinding s pre = none) :
    bindFormals (listToValue (ss.map .symbol)) (listToValue as) h.length
        (h ++ [{ bindings := pre, parent := parent }])
      = .ok (h ++ [{ bindings := bindAll ss as pre, parent := parent }]) := by
  induction ss generalizing as pre with
  | nil => simp [listToValue, bindFormals, bindAll]
  | cons s ss ih =>
    cases as with
    | nil => simp at hlen
    | cons a as =>
      rw [List.nodup_cons] at hnd
      have hadd : addBindingLocal (.symbol s) a h.length
          (h ++ [{ bindings := pre, parent := parent }])
          = .ok (h ++ [{ bindings := (.symbol s, a) :: pre, parent := parent }]) := by
        simp [addBindingLocal, isBounded, getFrame,
          isBoundedIn_none s pre hpre (hfresh s (by simp)), setBindings_append_self]
      have ih' := ih as ((.symbol s, a) :: pre) (by simpa using hlen) hnd.2
        (by
          intro b hb
          rcases List.mem_cons.1 hb with hb | hb
          · subst hb; rfl
          · exact hpre b hb)
        (by
          intro t ht
          have hts : s ≠ t := fun h => hnd.1 (h ▸ ht)
          simp [firstBinding, hts, hfresh t (by simp [ht])])
      simp [listToValue, bindFormals, hadd, ih', bindAll]

/-! ## Theorems: the special forms and the application -/

theorem eval_define (fs : String → Option (List Value)) (n : Nat) (args : Value) (frame : Nat)
    (h : Heap) :
    eval fs (n + 1) (.cons (.symbol "define") args) frame h
      = evalDefine (eval fs n) args frame h := by
  rw [eval_succ]
  simp [evalStep, headName]

theorem eval_set (fs : String → Option (List Value)) (n : Nat) (args : Value) (frame : Nat)
    (h : Heap) :
    eval fs (n + 1) (.cons (.symbol "set!") args) frame h
      = evalSet (eval fs n) args frame h := by
  rw [eval_succ]
  simp [evalStep, headName]

theorem lookUpSymbol_unbound (h : Heap) (frame : Nat) (s : String)
    (hwf : ParentsBelow h) (hsym : SymbolNames h) (hframe : frame < h.length)
    (hun : ∀ b ∈ visibleBindings h frame, b.1 ≠ .symbol s) :
    lookUpSymbol (.symbol s) frame h = .error .evaluationError := by
  have hl := lookUpFrames_eq s h hwf hsym h.length (some frame)
    (by intro f hf; cases hf; exact ⟨hframe, hframe⟩)
  have hn : firstBinding s (chainBindings h h.length (some frame)) = none :=
    (firstBinding_none_iff s _).2 hun
  simp only [lookUpSymbol, strField]
  rw [hl, hn]

theorem reverseOnto_listToValue (xs : List Value) (acc : Value) :
    reverseOnto (listToValue xs) acc = .ok (consOnto xs acc) := by
  induction xs generalizing acc with
  | nil => rfl
  | cons x xs ih => simp [listToValue, reverseOnto, consOnto, ih]

theorem consOnto_reverse (xs ys : List Value) :
    consOnto xs.reverse (listToValue ys) = listToValue (xs ++ ys) := by
  induction xs generalizing ys with
  | nil => rfl
  | cons x xs ih =>
    have hc : ∀ (as bs : List Value) (acc : Value),
        consOnto (as ++ bs) acc = consOnto bs (consOnto as acc) := by
      intro as
      induction as with
      | nil => intro bs acc; rfl
      | cons a as iha => intro bs acc; simp [consOnto, iha]
    rw [List.reverse_cons, hc, ih]
    simp [consOnto, listToValue]

theorem evalOperands_eq (ev : Ev) (es vs : List Value) (acc : List Value) (frame : Nat)
    (h h1 : Heap) (hev : evalList ev es frame h = .ok (vs, h1)) :
    evalOperands ev (listToValue es) (listToValue acc) frame h
      = .ok (listToValue (vs.reverse ++ acc), h1) := by
  induction es generalizing vs acc h with
  | nil =>
    simp [evalList] at hev
    obtain ⟨rfl, rfl⟩ := hev
    simp [listToValue, evalOperands]
  | cons e es ih =>
    simp only [evalList] at hev
    cases he : ev e frame h with
    | error err => simp [he] at hev
    | ok r =>
      obtain ⟨v, h2⟩ := r
      simp only [he] at hev
      cases hr : evalList ev es frame h2 with
      | error err => simp [hr] at hev
      | ok r2 =>
        obtain ⟨vs2, h3⟩ := r2
        simp [hr] at hev
        obtain ⟨rfl, rfl⟩ := hev
        have := ih vs2 (v :: acc) h2 hr
        simp only [listToValue] at this
        simp [listToValue, evalOperands, he, this]

theorem eval_and (fs : String → Option (List Value)) (n : Nat) (args : Value) (frame : Nat)
    (h : Heap) :
    eval fs (n + 1) (.cons (.symbol "and") args) frame h
      = evalAnd (eval fs n) args frame h := by
  rw [eval_succ]
  simp [evalStep, headName]

theorem eval_or (fs : String → Option (List Value)) (n : Nat) (args : Value) (frame : Nat)
    (h : Heap) :
    eval fs (n + 1) (.cons (.symbol "or") args) frame h
      = evalOr (eval fs n) args frame h := by
  rw [eval_succ]
  simp [evalStep, headName]

theorem isFalseValue_eq (v : Value) (hv : isFalseValue v = true) : v = .bool "#f" := by
  cases v <;> simp [isFalseValue] at hv
  subst hv; rfl

theorem listToValue_append_cons (pre : List Value) (e : Value) (rest : List Value) :
    ∃ a d, listToValue (pre ++ e :: rest) = .cons a d := by
  cases pre <;> simp [listToValue]

theorem evalAndLoop_spec (ev : Ev) (pre : List Value) (frame : Nat) (h h1 : Heap)
    (hpre : EvalsAll ev (fun v => !isFalseValue v) frame pre h h1) :
    (∀ (e : Value) (rest : List Value) (v : Value) (h2 : Heap),
      ev e frame h1 = .ok (v, h2) → isFalseValue v = true →
      evalAndLoop ev (listToValue (pre ++ e :: rest)) frame h = .ok (.bool "#f", h2)) ∧
    (∀ last : Value, evalAndLoop ev (listToValue (pre ++ [last])) frame h = ev last frame h1) := by
  induction pre generalizing h with
  | nil =>
    simp only [EvalsAll] at hpre
    subst hpre
    constructor
    · intro e rest v h2 he hv
      cases rest with
      | nil => simp [listToValue, evalAndLoop, he, isFalseValue_eq v hv]
      | cons r rest => simp [listToValue, evalAndLoop, he, hv]
    · intro last; simp [listToValue, evalAndLoop]
  | cons p pre ih =>
    obtain ⟨v0, h0, hp, hv0, hrest⟩ := hpre
    have ih' := ih h0 hrest
    have hv0' : isFalseValue v0 = false := by simpa using hv0
    constructor
    · intro e rest v h2 he hv
      obtain ⟨a, d, had⟩ := listToValue_append_cons pre e rest
      have := ih'.1 e rest v h2 he hv
      rw [had] at this
      simp [listToValue, had, evalAndLoop, hp, hv0', this]
    · intro last
      obtain ⟨a, d, had⟩ := listToValue_append_cons pre last []
      have := ih'.2 last
      rw [had] at this
      simp [listToValue, had, evalAndLoop, hp, hv0', this]

theorem evalOrLoop_spec (ev : Ev) (pre : List Value) (frame : Nat) (h h1 : Heap)
    (hpre : EvalsAll ev isFalseValue frame pre h h1) :
    (∀ (e : Value) (rest : List Value) (v : Value) (h2 : Heap),
      ev e frame h1 = .ok (v, h2) → isFalseValue v = false →
      evalOrLoop ev (listToValue (pre ++ e :: rest)) frame h = .ok (v, h2)) ∧
    (∀ last : Value, evalOrLoop ev (listToValue (pre ++ [last])) frame h = ev last frame h1) := by
  induction pre generalizing h with
  | nil =>
    simp only [EvalsAll] at hpre
    subst hpre
    constructor
    · intro e rest v h2 he hv
      cases rest with
      | nil => simp [listToValue, evalOrLoop, he]
      | cons r rest => simp [listToValue, evalOrLoop, he, hv]
    · intro last; simp [listToValue, evalOrLoop]
  | cons p pre ih =>
    obtain ⟨v0, h0, hp, hv0, hrest⟩ := hpre
    have ih' := ih h0 hrest
    constructor
    · intro e rest v h2 he hv
      obtain ⟨a, d, had⟩ := listToValue_append_cons pre e rest
      have := ih'.1 e rest v h2 he hv
      rw [had] at this
      simp [listToValue, had, evalOrLoop, hp, hv0, this]
    · intro last
      obtain ⟨a, d, had⟩ := listToValue_append_cons pre last []
      have := ih'.2 last
      rw [had] at this
      simp [listToValue, had, evalOrLoop, hp, hv0, this]

theorem eval_let (fs : String → Option (List Value)) (n : Nat) (args : Value) (frame : Nat)
    (h : Heap) :
    eval fs (n + 1) (.cons (.symbol "let") args) frame h
      = evalLet (eval fs n) args frame h := by
  rw [eval_succ]
  simp [evalStep, headName]

theorem eval_letrec (fs : String → Option (List Value)) (n : Nat) (args : Value) (frame : Nat)
    (h : Heap) :
    eval fs (n + 1) (.cons (.symbol "letrec") args) frame h
      = evalLetrec (eval fs n) args frame h := by
  rw [eval_succ]
  simp [evalStep, headName]

theorem letBindings_cons (x : String) (e : Value) (rest : List (String × Value)) :
    letBindings ((x, e) :: rest) = .cons (listToValue [.symbol x, e]) (letBindings rest) := rfl

theorem evalLetBindings_cons (ev : Ev) (x : String) (e v restV : Value) (evalFrame g : Nat)
    (h h1 h2 : Heap) (hev : ev e evalFrame h = .ok (v, h1))
    (hadd : addBindingLocal (.symbol x) v g h1 = .ok h2) :
    evalLetBindings ev (.cons (listToValue [.symbol x, e]) restV) evalFrame g h
      = evalLetBindings ev restV evalFrame g h2 := by
  simp [listToValue, evalLetBindings, isConsType, length, hev, isSymbolType, hadd]

theorem evalLetBindings_ok (ev : Ev) (evalFrame g : Nat) (parent : Option Nat)
    (bindings : List (String × Value)) (vs : List Value) (bs : List (Value × Value))
    (h hEnd : Heap)
    (hnd : (bindings.map Prod.fst).Nodup)
    (hfresh : ∀ x ∈ bindings.map Prod.fst, firstBinding x bs = none)
    (hbs : ∀ b ∈ bs, isSymbolType b.1 = true)
    (hg : h[g]? = some { bindings := bs, parent := parent })
    (hsteps : BindsInOrder ev evalFrame g parent bindings vs bs h hEnd) :
    evalLetBindings ev (letBindings bindings) evalFrame g h = .ok hEnd ∧
    hEnd[g]? = some { bindings := bindAll (bindings.map Prod.fst) vs bs, parent := parent } := by
  induction bindings generalizing vs bs h with
  | nil =>
    cases vs with
    | nil =>
      simp only [BindsInOrder] at hsteps
      subst hsteps
      exact ⟨by simp [letBindings, listToValue, evalLetBindings], by simpa [bindAll] using hg⟩
    | cons v vs => simp [BindsInOrder] at hsteps
  | cons b rest ih =>
    obtain ⟨x, e⟩ := b
    cases vs with
    | nil => simp [BindsInOrder] at hsteps
    | cons v vs =>
      obtain ⟨h1, hev, hg1, hrest⟩ := hsteps
      simp only [List.map_cons, List.nodup_cons] at hnd
      have hx : firstBinding x bs = none := hfresh x (by simp)
      have hadd : addBindingLocal (.symbol x) v g h1
          = .ok (setBindings h1 g ((.symbol x, v) :: bs)) := by
        simp [addBindingLocal, isBounded, getFrame, hg1, isBoundedIn_none x bs hbs hx]
      have hg2 : (setBindings h1 g ((.symbol x, v) :: bs))[g]?
          = some { bindings := (.symbol x, v) :: bs, parent := parent } := by
        rw [getElem?_setBindings_self h1 g _ _ hg1]
      have ih' := ih vs ((.symbol x, v) :: bs) (setBindings h1 g ((.symbol x, v) :: bs))
        hnd.2
        (by
          intro t ht
          have hxt : x ≠ t := fun hh => hnd.1 (hh ▸ ht)
          simp [firstBinding, hxt, hfresh t (by simp [ht])])
        (by
          intro b hb
          rcases List.mem_cons.1 hb with hb | hb
          · subst hb; rfl
          · exact hbs b hb)
        hg2 hrest
      refine ⟨?_, ?_⟩
      · rw [letBindings_cons, evalLetBindings_cons ev x e v _ evalFrame g h h1 _ hev hadd]
        exact ih'.1
      · simpa [bindAll] using ih'.2

theorem isNull_or_isCons_listToValue (xs : List Value) :
    (!isNull (listToValue xs) && !isConsType (listToValue xs)) = false := by
  cases xs <;> simp [listToValue, isNull, isConsType]

theorem isNull_listToValue_append (xs : List Value) (x : Value) :
    isNull (listToValue (xs ++ [x])) = false := by
  cases xs <;> simp [listToValue, isNull]

theorem getElem?_addBindingLocal_other (var v : Value) (g : Nat) (h1 h2 : Heap)
    (hadd : addBindingLocal var v g h1 = .ok h2) (i : Nat) (hi : i ≠ g) :
    h2[i]? = h1[i]? := by
  unfold addBindingLocal at hadd
  cases hb : isBounded var g h1 with
  | error err => simp [hb] at hadd
  | ok r =>
    cases r with
    | some j => simp [hb] at hadd
    | none =>
      cases hf : getFrame h1 g with
      | error err => simp [hb, hf] at hadd
      | ok fr =>
        simp [hb, hf] at hadd
        subst hadd
        exact getElem?_setBindings_other h1 g i _ hi

theorem lookUpSymbol_parent (x : String) (f g : Nat) (h : Heap) (fr gr : Frame) (v : Value)
    (hfg : f ≠ g)
    (hf : h[f]? = some fr) (hpar : fr.parent = some g)
    (hfs : ∀ b ∈ fr.bindings, isSymbolType b.1 = true)
    (hfx : firstBinding x fr.bindings = none)
    (hg : h[g]? = some gr)
    (hgs : ∀ b ∈ gr.bindings, isSymbolType b.1 = true)
    (hgx : firstBinding x gr.bindings = some v) :
    lookUpSymbol (.symbol x) f h = .ok v := by
  have hlt : ∀ (i : Nat) (r : Frame), h[i]? = some r → i < h.length := by
    intro i r hi
    rcases Nat.lt_or_ge i h.length with hl | hl
    · exact hl
    · rw [List.getElem?_eq_none hl] at hi; cases hi
  have h1 := hlt f fr hf
  have h2 := hlt g gr hg
  obtain ⟨k, hk⟩ : ∃ k, h.length = k + 2 := ⟨h.length - 2, by omega⟩
  simp [lookUpSymbol, strField, hk, lookUpFrames, getFrame, hf, hg, hpar,
    lookUpBindings_eq x _ hfs, lookUpBindings_eq x _ hgs, hfx, hgx]

theorem factorial_fits (k : Nat) (hfit : (k.factorial : Int) ≤ intMax) : k ≤ 12 := by
  by_contra hk
  have h13 : 13 ≤ k := by omega
  have := Nat.factorial_le h13
  have h13f : Nat.factorial 13 = 6227020800 := by decide
  rw [h13f] at this
  have : (6227020800 : Int) ≤ (k.factorial : Int) := by exact_mod_cast this
  simp only [intMax] at hfit
  omega

/-- An application whose head and operands evaluate: `apply` is called with the value of
the head and the list of the values of the operands, in order. -/
theorem eval_application (fs : String → Option (List Value)) (n : Nat) (head : Value)
    (es vs : List Value) (function : Value) (frame : Nat) (h h1 h2 : Heap)
    (hhead : headName head = .ok none ∨
      (∃ s, head = .symbol s ∧ s ∉ ["if", "quote", "and", "or", "begin", "cond", "let",
        "letrec", "let*", "define", "set!", "lambda", "load"]))
    (hf : eval fs n head frame h = .ok (function, h1))
    (hev : evalList (eval fs n) es frame h1 = .ok (vs, h2)) :
    eval fs (n + 1) (listToValue (head :: es)) frame h
      = apply fs n function (listToValue vs) frame h2 := by
  have hall : evalList (eval fs n) (head :: es) frame h = .ok (function :: vs, h2) := by
    simp [evalList, hf, hev]
  have hops := evalOperands_eq (eval fs n) (head :: es) (function :: vs) [] frame h h2 hall
  have hrev : reverse (listToValue (vs.reverse ++ [function]))
      = .ok (.cons function (listToValue vs)) := by
    rw [reverse, reverseOnto_listToValue]
    have := consOnto_reverse (function :: vs) []
    simpa [makeNull, listToValue] using this
  rw [eval_succ]
  simp only [listToValue] at hops ⊢
  rcases hhead with hh | ⟨s, rfl, hs⟩
  · simp [evalStep, hh, hops, makeNull, hrev]
  · simp at hs
    simp [evalStep, headName, hs, isSymbolType, hops, makeNull, hrev]

set_option maxRecDepth 100000 in
/-- The program of scenario 4 evaluates to the factorial of its argument, up to 12. -/
theorem factorial_small (k : Nat) (hk : k ≤ 12) :
    (eval noFiles 80 (factorialForm k) 0 primitivesTop).map Prod.fst
      = .ok (.int k.factorial) := by
  interval_cases k <;> with_unfolding_all rfl

/-! ## Theorems: `cond`, the primitives -/

theorem eval_cond (fs : String → Option (List Value)) (n : Nat) (args : Value) (frame : Nat)
    (h : Heap) :
    eval fs (n + 1) (.cons (.symbol "cond") args) frame h
      = evalCond (eval fs n) args frame h := by
  rw [eval_succ]
  simp [evalStep, headName]

theorem evalTestIsFalse_pure (ev : Ev) (test v : Value) (frame : Nat) (h : Heap)
    (hev : ev test frame h = .ok (v, h)) :
    evalTestIsFalse ev test frame h = .ok (isFalseValue v, h) := by
  cases v <;> simp [evalTestIsFalse, hev, isBoolType, isFalseValue, strField]

theorem evalCond_skip (ev : Ev) (pre tail : List Value) (frame : Nat) (h : Heap)
    (hpre : ∀ c ∈ pre, ∃ t b, c = .cons t b ∧ isElse t = false ∧
      ev t frame h = .ok (.bool "#f", h)) :
    evalCond ev (listToValue (pre ++ tail)) frame h
      = evalCond ev (listToValue tail) frame h := by
  induction pre with
  | nil => rfl
  | cons c pre ih =>
    obtain ⟨t, b, rfl, hne, hev⟩ := hpre _ (List.mem_cons_self _ _)
    have ih1 := ih (fun c hc => hpre c (List.mem_cons_of_mem _ hc))
    have ht := evalTestIsFalse_pure ev t _ frame h hev
    simp only [isFalseValue, decide_True] at ht
    simp [listToValue, evalCond, hne, ht, ih1]

theorem evalCond_match (ev : Ev) (t body rest v : Value) (frame : Nat) (h : Heap)
    (hne : isElse t = false) (hev : ev t frame h = .ok (v, h))
    (hv : isFalseValue v = false) :
    evalCond ev (.cons (.cons t body) rest) frame h = evalBody ev body frame h := by
  have ht := evalTestIsFalse_pure ev t _ frame h hev
  rw [hv] at ht
  simp [evalCond, hne, ht]

theorem castInt_intCast (i : Int) (h1 : intMin ≤ i) (h2 : i ≤ intMax) :
    castInt (i : Rat) = .ok i := by
  simp [castInt, h1, h2]

theorem addLoop_numbers (xs : List Value) (hnum : ∀ x ∈ xs, isNumber x = true)
    (isDouble : Bool) (acc : Rat) :
    addLoop (listToValue xs) isDouble acc
      = .ok (isDouble || xs.any isDoubleType, acc + (xs.map numValue).sum) := by
  induction xs generalizing isDouble acc with
  | nil => simp [listToValue, addLoop]
  | cons x xs ih =>
    have hx : isNumber x = true := hnum x (by simp)
    have ih' := fun d a => ih (fun y hy => hnum y (by simp [hy])) d a
    cases x <;> simp [isNumber, isIntType, isDoubleType] at hx
    · simp [listToValue, addLoop, ih', isDoubleType, numValue, add_assoc]
    · simp [listToValue, addLoop, ih', isDoubleType, numValue, add_assoc]

theorem sum_numValue_ints (is : List Int) :
    ((is.map Value.int).map numValue).sum = ((is.sum : Int) : Rat) := by
  induction is with
  | nil => simp
  | cons i is ih =>
    rw [List.map_cons, List.map_cons, List.sum_cons, ih, List.sum_cons]
    simp only [numValue]
    push_cast
    rfl

theorem any_double_ints (is : List Int) : (is.map Value.int).any isDoubleType = false := by
  induction is with
  | nil => rfl
  | cons i is ih => simp [isDoubleType]

theorem leqLoop_numbers (xs : List Value) (hnum : ∀ x ∈ xs, isNumber x = true) (a : Rat) :
    leqLoop (listToValue xs) a = .ok (boolValue (nonDecreasing (a :: xs.map numValue))) := by
  induction xs generalizing a with
  | nil => simp [listToValue, leqLoop, nonDecreasing, boolValue]
  | cons x xs ih =>
    have hx : isNumber x = true := hnum x (by simp)
    have ih' := fun b => ih (fun y hy => hnum y (by simp [hy])) b
    cases x <;> simp [isNumber, isIntType, isDoubleType] at hx
    · rename_i i
      by_cases hle : a ≤ (i : Rat)
      · simp [listToValue, leqLoop, hle, ih', nonDecreasing, numValue]
      · simp [listToValue, leqLoop, hle, nonDecreasing, numValue, boolValue]
    · rename_i d
      by_cases hle : a ≤ d
      · simp [listToValue, leqLoop, hle, ih', nonDecreasing, numValue]
      · simp [listToValue, leqLoop, hle, nonDecreasing, numValue, boolValue]

theorem castInt_of_abs_le (x : Rat) (hx : |x| ≤ 2147483647) : ∃ t, castInt x = .ok t := by
  have h1 : x ≤ ((2147483647 : Int) : Rat) := by
    have := (abs_le.1 hx).2; exact_mod_cast this
  have h2 : ((-2147483647 : Int) : Rat) ≤ x := by
    have := (abs_le.1 hx).1; exact_mod_cast this
  rw [Rat.le_def] at h1 h2
  simp only [Rat.intCast_num, Rat.intCast_den, Nat.cast_one, mul_one] at h1 h2
  have hden : (0 : Int) < x.den := by exact_mod_cast x.den_pos
  have hn : x.num.natAbs ≤ 2147483647 * x.den := by omega
  have ht : (Int.tdiv x.num x.den).natAbs ≤ 2147483647 := by
    rw [Int.natAbs_tdiv]
    simp only [Int.natAbs_ofNat]
    exact Nat.div_le_of_le_mul (by rw [Nat.mul_comm]; exact hn)
  refine ⟨Int.tdiv x.num x.den, ?_⟩
  unfold castInt
  rw [if_pos]
  simp only [intMin, intMax]
  omega

theorem divLoop_zero (xs : List Value) (hz : ∃ x ∈ xs, isZeroNumber x = true)
    (isDouble : Bool) (acc : Rat) :
    divLoop (listToValue xs) isDouble acc = .error .evaluationError := by
  induction xs generalizing isDouble acc with
  | nil => simp at hz
  | cons x xs ih =>
    obtain ⟨z, hzm, hzz⟩ := hz
    cases x with
    | int i =>
      by_cases hi : i = 0
      · simp [listToValue, divLoop, hi]
      · have : ∃ x ∈ xs, isZeroNumber x = true := by
          rcases List.mem_cons.1 hzm with h | h
          · subst h; simp [isZeroNumber, hi] at hzz
          · exact ⟨z, h, hzz⟩
        simp [listToValue, divLoop, hi, ih this]
    | double d =>
      by_cases hd : d = 0
      · simp [listToValue, divLoop, hd]
      · have : ∃ x ∈ xs, isZeroNumber x = true := by
          rcases List.mem_cons.1 hzm with h | h
          · subst h; simp [isZeroNumber, hd] at hzz
          · exact ⟨z, h, hzz⟩
        simp [listToValue, divLoop, hd, ih this]
    | _ => simp [listToValue, divLoop]

theorem abs_div_int_le (a : Rat) (i : Int) (hi : i ≠ 0) : |a / (i : Rat)| ≤ |a| := by
  rw [abs_div]
  have h1 : (1 : Rat) ≤ |(i : Rat)| := by
    have : (1 : Int) ≤ |i| := Int.one_le_abs hi
    exact_mod_cast this
  exact div_le_self (abs_nonneg a) h1

theorem divLoop_ok (xs : List Value) (hnum : ∀ x ∈ xs, isNumber x = true)
    (hnz : ∀ x ∈ xs, isZeroNumber x = false) (isDouble : Bool) (acc : Rat) :
    ∃ d q, divLoop (listToValue xs) isDouble acc = .ok (d, q) ∧
      (d = false → isDouble = false ∧ |q| ≤ |acc|) := by
  induction xs generalizing isDouble acc with
  | nil => exact ⟨isDouble, acc, by simp [listToValue, divLoop], fun h => ⟨h, le_refl _⟩⟩
  | cons x xs ih =>
    have hx : isNumber x = true := hnum x (by simp)
    have hxz : isZeroNumber x = false := hnz x (by simp)
    have ih' := fun d a => ih (fun y hy => hnum y (by simp [hy]))
      (fun y hy => hnz y (by simp [hy])) d a
    cases x <;> simp [isNumber, isIntType, isDoubleType] at hx
    · rename_i i
      have hi : i ≠ 0 := by simpa [isZeroNumber] using hxz
      obtain ⟨d, q, hq, hb⟩ := ih' isDouble (acc / i)
      refine ⟨d, q, by simp [listToValue, divLoop, hi, hq], ?_⟩
      intro hd
      obtain ⟨h1, h2⟩ := hb hd
      exact ⟨h1, le_trans h2 (abs_div_int_le acc i hi)⟩
    · rename_i r
      have hr : r ≠ 0 := by simpa [isZeroNumber] using hxz
      obtain ⟨d, q, hq, hb⟩ := ih' true (acc / r)
      refine ⟨d, q, by simp [listToValue, divLoop, hr, hq], ?_⟩
      intro hd
      exact absurd (hb hd).1 (by simp)

theorem primitiveDiv_int_error (i : Int) (r : Value) (rs : List Value) (e : Fault)
    (hd : divLoop (listToValue (r :: rs)) false i = .error e) :
    primitiveDiv (listToValue (.int i :: r :: rs)) = .error e := by
  simp only [listToValue] at hd
  simp [primitiveDiv, listToValue, length, length_listToValue, hd]

theorem primitiveDiv_int_ok (i : Int) (r : Value) (rs : List Value) (d : Bool) (q : Rat)
    (hd : divLoop (listToValue (r :: rs)) false i = .ok (d, q)) :
    primitiveDiv (listToValue (.int i :: r :: rs)) = storeQuotient d q := by
  simp only [listToValue] at hd
  simp [primitiveDiv, listToValue, length, length_listToValue, hd]

theorem primitiveDiv_double_error (x : Rat) (r : Value) (rs : List Value) (e : Fault)
    (hd : divLoop (listToValue (r :: rs)) true x = .error e) :
    primitiveDiv (listToValue (.double x :: r :: rs)) = .error e := by
  simp only [listToValue] at hd
  simp [primitiveDiv, listToValue, length, length_listToValue, hd]

theorem primitiveDiv_double_ok (x : Rat) (r : Value) (rs : List Value) (d : Bool) (q : Rat)
    (hd : divLoop (listToValue (r :: rs)) true x = .ok (d, q)) :
    primitiveDiv (listToValue (.double x :: r :: rs)) = storeQuotient d q := by
  simp only [listToValue] at hd
  simp [primitiveDiv, listToValue, length, length_listToValue, hd]

theorem primitiveDiv_not_number (x : Value) (xs : List Value) (hx : isNumber x = false) :
    primitiveDiv (listToValue (x :: xs)) = .error .evaluationError := by
  cases x <;> simp [isNumber, isIntType, isDoubleType] at hx <;>
    simp [primitiveDiv, listToValue, length, length_listToValue]

/-! ## Theorems: invariants of the parser and of the frames -/

theorem tokensOfTail_listToValue (es : List Value) :
    tokensOfTail (listToValue es) = (es.map tokensOf).flatten ++ [.closeType] := by
  induction es with
  | nil => simp [listToValue, tokensOfTail]
  | cons e es ih => simp [listToValue, tokensOfTail, ih]

theorem isDatum_listToValue (e : Value) (es : List Value)
    (h : ∀ x ∈ e :: es, isDatum x = true) : isDatum (listToValue (e :: es)) = true := by
  induction es generalizing e with
  | nil =>
    simp only [listToValue]
    rw [isDatum_cons_eq]
    simp [h e (by simp)]
  | cons x xs ih =>
    have hx := ih x (fun y hy => h y (by simp at hy ⊢; right; exact hy))
    simp only [listToValue] at hx ⊢
    rw [isDatum_cons_eq]
    simp [h e (by simp), hx]

theorem parseStep_next (token : Value) (stack : List Value) (d : Nat) :
    (∃ stack1 d1, parseStep token stack d = .next stack1 ((d1 : Nat) : Int) ∧
      countOpen stack1 = d1 ∧
      ∀ current, parseLoop (token :: current) stack d = parseLoop current stack1 d1) ∨
    (parseStep token stack d = .failed ∧
      ∀ current, parseLoop (token :: current) stack d = .failed) ∨
    countOpen stack ≠ d := by
  by_cases hs : countOpen stack = d
  swap
  · exact Or.inr (Or.inr hs)
  by_cases ho : token = .openType
  · subst ho
    left
    exact ⟨.openType :: stack, d + 1, by simp [parseStep], by simp [countOpen, hs],
      by intro c; simp [parseLoop]⟩
  by_cases hc : token = .closeType
  · subst hc
    cases d with
    | zero => right; left; exact ⟨by simp [parseStep], by intro c; simp [parseLoop]⟩
    | succ d =>
      left
      obtain ⟨inner1, stack1, hp, hcount, hin⟩ :=
        countOpen_popToOpen stack makeNull (by omega)
      have hd : ((d + 1 : Nat) : Int) ≠ 0 := by omega
      have hd1 : ((d + 1 : Nat) : Int) - 1 = ((d : Nat) : Int) := by omega
      by_cases hn : isNull inner1 = true
      · refine ⟨stack1, d, ?_, by omega, ?_⟩
        · simp only [parseStep, hp, hn]
          simp [hd, hd1]
          omega
        · intro c; simp [parseLoop, hp, hn]
      · refine ⟨inner1 :: stack1, d, ?_, ?_, ?_⟩
        · simp only [parseStep, hp]
          simp [hd, hd1, hn]
          omega
        · have : countOpen (inner1 :: stack1) = countOpen stack1 := by
            rcases hin with h | h
            · subst h; simp [makeNull, isNull] at hn
            · cases inner1 <;> simp [isConsType] at h
              simp [countOpen]
          omega
        · intro c; simp [parseLoop, hp, hn]
  · left
    refine ⟨token :: stack, d, ?_, ?_, ?_⟩
    · cases token <;> simp_all [parseStep]
    · cases token <;> simp_all [countOpen]
    · intro c; cases token <;> simp_all [parseLoop]

theorem parseStates_invariant : ∀ (tokens stack : List Value) (d : Nat),
    countOpen stack = d →
    ∀ st ∈ parseStates tokens stack d, ((countOpen st.1 : Nat) : Int) = st.2 := by
  intro tokens
  induction tokens with
  | nil =>
    intro stack d hs st hst
    simp only [parseStates, List.mem_singleton] at hst
    subst hst
    simp [hs]
  | cons t ts ih =>
    intro stack d hs st hst
    simp only [parseStates, List.mem_cons] at hst
    rcases hst with hst | hst
    · subst hst; simp [hs]
    · rcases parseStep_next t stack d with ⟨stack1, d1, h1, h2, -⟩ | ⟨h1, -⟩ | h1
      · rw [h1] at hst
        exact ih stack1 d1 h2 st hst
      · rw [h1] at hst; simp at hst
      · exact absurd hs h1

theorem parseRun_eq_parseLoop : ∀ (tokens stack : List Value) (d : Nat),
    countOpen stack = d → parseRun tokens stack d = parseLoop tokens stack d := by
  intro tokens
  induction tokens with
  | nil =>
    intro stack d _
    by_cases hd : d = 0
    · simp [parseRun, parseLoop, hd]
    · have : ((d : Nat) : Int) ≠ 0 := by omega
      simp [parseRun, parseLoop, hd, this]
  | cons t ts ih =>
    intro stack d hs
    rcases parseStep_next t stack d with ⟨stack1, d1, h1, h2, h3⟩ | ⟨h1, h3⟩ | h1
    · rw [h3, parseRun, h1]
      exact ih stack1 d1 h2
    · rw [h3, parseRun, h1]
    · exact absurd hs h1

theorem containsMarker_popToOpen : ∀ (stack : List Value) (inner : Value),
    (∀ x ∈ stack, x = .openType ∨ containsMarker x = false) →
    containsMarker inner = false →
    ∀ inner1 stack1, popToOpen stack inner = some (inner1, stack1) →
      containsMarker inner1 = false ∧
      ∀ x ∈ stack1, x = .openType ∨ containsMarker x = false := by
  intro stack
  induction stack with
  | nil => intro inner _ _ inner1 stack1 hp; simp [popToOpen] at hp
  | cons x xs ih =>
    intro inner hst hin inner1 stack1 hp
    have hxs : ∀ y ∈ xs, y = .openType ∨ containsMarker y = false :=
      fun y hy => hst y (List.mem_cons_of_mem _ hy)
    by_cases hx : x = .openType
    · subst hx
      simp only [popToOpen, Option.some.injEq, Prod.mk.injEq] at hp
      obtain ⟨h1, h2⟩ := hp
      subst h1; subst h2
      exact ⟨hin, hxs⟩
    · have hp1 : popToOpen (x :: xs) inner = popToOpen xs (.cons x inner) := by
        cases x <;> simp_all [popToOpen]
      rw [hp1] at hp
      have hxm : containsMarker x = false := by
        rcases hst x (List.mem_cons_self _ _) with h | h
        · exact absurd h hx
        · exact h
      exact ih (.cons x inner) hxs (by simp [containsMarker, hxm, hin]) inner1 stack1 hp

theorem containsMarker_listToValue (stack : List Value)
    (h : ∀ x ∈ stack, containsMarker x = false) :
    containsMarker (listToValue stack) = false := by
  induction stack with
  | nil => rfl
  | cons x xs ih =>
    simp [listToValue, containsMarker, h x (List.mem_cons_self _ _),
      ih (fun y hy => h y (List.mem_cons_of_mem _ hy))]

theorem countOpen_eq_zero (stack : List Value) (h : countOpen stack = 0) :
    ∀ x ∈ stack, x ≠ .openType := by
  induction stack with
  | nil => simp
  | cons x xs ih =>
    intro y hy
    by_cases hx : x = .openType
    · subst hx; simp [countOpen] at h
    · have hc : countOpen (x :: xs) = countOpen xs := by
        cases x <;> simp_all [countOpen]
      rcases List.mem_cons.1 hy with h1 | h1
      · subst h1; exact hx
      · exact ih (by omega) y h1

theorem isToken_cases (t : Value) (h : isToken t = true) :
    t = .openType ∨ t = .closeType ∨ (isAtom t = true ∧ containsMarker t = false) := by
  cases t <;> simp [isToken, isAtom, containsMarker] at h ⊢

theorem parseLoop_no_marker : ∀ (tokens stack : List Value) (d : Nat) (v : Value),
    (∀ t ∈ tokens, isToken t = true) →
    countOpen stack = d →
    (∀ x ∈ stack, x = .openType ∨ containsMarker x = false) →
    parseLoop tokens stack d = .tree v → containsMarker v = false := by
  intro tokens
  induction tokens with
  | nil =>
    intro stack d v _ hs hst hp
    by_cases hd : d = 0
    · simp only [parseLoop, hd, ne_eq, not_true_eq_false, if_false,
        ParseResult.tree.injEq] at hp
      subst hp
      apply containsMarker_listToValue
      intro x hx
      rcases hst x hx with h | h
      · exact absurd h (countOpen_eq_zero stack (by omega) x hx)
      · exact h
    · simp [parseLoop, hd] at hp
  | cons t ts ih =>
    intro stack d v htok hs hst hp
    have hts : ∀ t ∈ ts, isToken t = true := fun y hy => htok y (List.mem_cons_of_mem _ hy)
    rcases isToken_cases t (htok t (List.mem_cons_self _ _)) with ht | ht | ⟨hta, htm⟩
    · subst ht
      rw [parseLoop] at hp
      refine ih (.openType :: stack) (d + 1) v hts (by simp [countOpen, hs]) ?_ hp
      intro x hx
      rcases List.mem_cons.1 hx with h | h
      · exact Or.inl h
      · exact hst x h
    · subst ht
      cases d with
      | zero => simp [parseLoop] at hp
      | succ d =>
        obtain ⟨inner1, stack1, hpop, hcount, hin⟩ :=
          countOpen_popToOpen stack makeNull (by omega)
        obtain ⟨hm1, hst1⟩ := containsMarker_popToOpen stack makeNull hst rfl _ _ hpop
        by_cases hn : isNull inner1 = true
        · have hp1 : parseLoop ts stack1 d = .tree v := by
            simpa [parseLoop, hpop, hn] using hp
          exact ih stack1 d v hts (by omega) hst1 hp1
        · have hp1 : parseLoop ts (inner1 :: stack1) d = .tree v := by
            simpa [parseLoop, hpop, hn] using hp
          have hc : countOpen (inner1 :: stack1) = countOpen stack1 := by
            rcases hin with h | h
            · subst h; simp [makeNull, isNull] at hn
            · cases inner1 <;> simp [isConsType] at h
              simp [countOpen]
          refine ih (inner1 :: stack1) d v hts (by omega) ?_ hp1
          intro x hx
          rcases List.mem_cons.1 hx with h | h
          · subst h; exact Or.inr hm1
          · exact hst1 x h
    · have hp1 : parseLoop ts (t :: stack) d = .tree v := by
        cases t <;> simp_all [parseLoop, isAtom]
      have hc : countOpen (t :: stack) = countOpen stack := by
        cases t <;> simp_all [countOpen, isAtom]
      refine ih (t :: stack) d v hts (by omega) ?_ hp1
      intro x hx
      rcases List.mem_cons.1 hx with h | h
      · subst h; exact Or.inr htm
      · exact hst x h

theorem distinctNames_setBindings (h : Heap) (frame : Nat) (bs : List (Value × Value))
    (hd : DistinctNames h) (hbs : (bindingNames bs).Nodup) :
    DistinctNames (setBindings h frame bs) := by
  intro i fr hfr
  by_cases hi : i = frame
  · subst hi
    cases hf : h[i]? with
    | none => simp [setBindings, hf] at hfr
    | some fr0 =>
      rw [getElem?_setBindings_self h i fr0 bs hf] at hfr
      cases hfr
      exact hbs
  · rw [getElem?_setBindings_other h frame i bs hi] at hfr
    exact hd i fr hfr

theorem distinctNames_allocFrame (h : Heap) (parent : Option Nat) (hd : DistinctNames h) :
    DistinctNames (allocFrame h parent).2 := by
  intro i fr hfr
  simp only [allocFrame] at hfr
  by_cases hi : i < h.length
  · rw [List.getElem?_append_left hi] at hfr
    exact hd i fr hfr
  · rw [List.getElem?_append_right (by omega)] at hfr
    cases hj : i - h.length with
    | zero => simp [hj] at hfr; subst hfr; simp [bindingNames]
    | succ j => simp [hj] at hfr

theorem isBoundedIn_none_not_mem (var : Value) (bs : List (Value × Value))
    (h : isBoundedIn var bs = .ok none) : var ∉ bindingNames bs := by
  induction bs with
  | nil => simp [bindingNames]
  | cons b bs ih =>
    obtain ⟨name, value⟩ := b
    cases name <;> simp [isBoundedIn] at h
    rename_i t
    cases hs : strField var with
    | error e => simp [hs] at h
    | ok s =>
      simp only [hs] at h
      by_cases hts : t = s
      · simp [hts] at h
      · simp only [hts, if_false] at h
        have hrest : isBoundedIn var bs = .ok none := by
          cases hr : isBoundedIn var bs with
          | error e => simp [hr] at h
          | ok o =>
            cases o with
            | none => rfl
            | some i => simp [hr] at h
        have := ih hrest
        simp only [bindingNames, List.map_cons, List.mem_cons, not_or] at this ⊢
        refine ⟨?_, this⟩
        intro hv
        subst hv
        simp [strField] at hs
        exact hts hs

theorem bindingNames_updateBindingAt (bs : List (Value × Value)) (i : Nat) (expr : Value) :
    bindingNames (updateBindingAt bs i expr) = bindingNames bs := by
  unfold updateBindingAt
  cases hb : bs[i]? with
  | none => rfl
  | some b =>
    obtain ⟨name, value⟩ := b
    simp only [bindingNames]
    rw [List.map_set]
    have hlt : i < bs.length := by
      rcases Nat.lt_or_ge i bs.length with hl | hl
      · exact hl
      · rw [List.getElem?_eq_none hl] at hb; cases hb
    apply List.ext_getElem?
    intro j
    by_cases hj : j = i
    · subst hj
      have hget : bs[j] = (name, value) := by
        rw [List.getElem?_eq_getElem hlt] at hb
        exact Option.some.inj hb
      simp [List.getElem?_set, hlt, hget]
    · simp [List.getElem?_set, Ne.symm hj]

theorem addBindingLocal_keeps (var expr : Value) (frame : Nat) (h h1 : Heap)
    (ha : addBindingLocal var expr frame h = .ok h1) (hd : DistinctNames h) :
    DistinctNames h1 := by
  unfold addBindingLocal isBounded at ha
  cases hf : getFrame h frame with
  | error e => simp [hf] at ha
  | ok fr =>
    simp only [hf] at ha
    cases hb : isBoundedIn var fr.bindings with
    | error e => simp [hb] at ha
    | ok o =>
      cases o with
      | some i => simp [hb] at ha
      | none =>
        simp only [hb, Except.ok.injEq] at ha
        subst ha
        apply distinctNames_setBindings h frame _ hd
        have hfr : h[frame]? = some fr := by
          unfold getFrame at hf
          cases hx : h[frame]? with
          | none => simp [hx] at hf
          | some fr0 => simp [hx] at hf; rw [hf]
        simp only [bindingNames, List.map_cons, List.nodup_cons]
        exact ⟨isBoundedIn_none_not_mem var _ hb, hd frame fr hfr⟩

theorem addBindingGlobal_keeps (var expr : Value) (frame : Nat) (h h1 : Heap)
    (ha : addBindingGlobal var expr frame h = .ok h1) (hd : DistinctNames h) :
    DistinctNames h1 := by
  unfold addBindingGlobal isBounded at ha
  cases hf : getFrame h frame with
  | error e => simp [hf] at ha
  | ok fr =>
    simp only [hf] at ha
    have hfr : h[frame]? = some fr := by
      unfold getFrame at hf
      cases hx : h[frame]? with
      | none => simp [hx] at hf
      | some fr0 => simp [hx] at hf; rw [hf]
    cases hb : isBoundedIn var fr.bindings with
    | error e => simp [hb] at ha
    | ok o =>
      cases o with
      | some i =>
        simp only [hb, Except.ok.injEq] at ha
        subst ha
        apply distinctNames_setBindings h frame _ hd
        rw [bindingNames_updateBindingAt]
        exact hd frame fr hfr
      | none =>
        simp only [hb, Except.ok.injEq] at ha
        subst ha
        apply distinctNames_setBindings h frame _ hd
        simp only [bindingNames, List.map_cons, List.nodup_cons]
        exact ⟨isBoundedIn_none_not_mem var _ hb, hd frame fr hfr⟩

theorem bindingNames_rebuildBindings (s : String) (newValue : Value) :
    ∀ (bs acc r : List (Value × Value)),
    rebuildBindings s newValue bs acc = .ok r →
    bindingNames r = (bindingNames bs).reverse ++ bindingNames acc := by
  intro bs
  induction bs with
  | nil => intro acc r h; simp [rebuildBindings] at h; subst h; simp [bindingNames]
  | cons b bs ih =>
    intro acc r h
    obtain ⟨name, value⟩ := b
    cases name <;> simp [rebuildBindings] at h
    rename_i t
    by_cases hts : t = s
    · simp only [hts, if_true] at h
      rw [ih _ _ h]
      simp [bindingNames, hts]
    · simp only [hts, if_false] at h
      rw [ih _ _ h]
      simp [bindingNames]

theorem getFrame_ok (h : Heap) (frame : Nat) (fr : Frame)
    (hf : getFrame h frame = .ok fr) : h[frame]? = some fr := by
  unfold getFrame at hf
  split at hf
  · rename_i hx
    cases hf
    exact hx
  · cases hf

theorem evalTestIsFalse_keeps (ev : Ev) (hev : EvKeeps ev) (test : Value) (frame : Nat)
    (h h1 : Heap) (b : Bool) (ht : evalTestIsFalse ev test frame h = .ok (b, h1))
    (hd : DistinctNames h) : DistinctNames h1 := by
  unfold evalTestIsFalse at ht
  cases h1e : ev test frame h with
  | error e => simp [h1e] at ht
  | ok r =>
    obtain ⟨v1, h2⟩ := r
    have hd2 := hev _ _ _ _ _ h1e hd
    simp only [h1e] at ht
    by_cases hb : isBoolType v1 = true
    · simp only [hb, if_true] at ht
      cases h2e : ev test frame h2 with
      | error e => simp [h2e] at ht
      | ok r2 =>
        obtain ⟨v2, h3⟩ := r2
        have hd3 := hev _ _ _ _ _ h2e hd2
        simp only [h2e] at ht
        cases hs : strField v2 with
        | error e => simp [hs] at ht
        | ok s =>
          simp only [hs, Except.ok.injEq, Prod.mk.injEq] at ht
          rw [← ht.2]; exact hd3
    · simp only [hb] at ht
      simp only [Bool.false_eq_true, if_false, Except.ok.injEq, Prod.mk.injEq] at ht
      rw [← ht.2]; exact hd2

theorem evalBody_keeps (ev : Ev) (hev : EvKeeps ev) (body : Value) :
    ∀ (frame : Nat) (h : Heap) (v : Value) (h1 : Heap),
    evalBody ev body frame h = .ok (v, h1) → DistinctNames h → DistinctNames h1 := by
  induction body with
  | cons e rest _ ih =>
    intro frame h v h1 hb hd
    by_cases hn : rest = .null
    · subst hn
      simp only [evalBody] at hb
      exact hev _ _ _ _ _ hb hd
    · have hstep : evalBody ev (.cons e rest) frame h =
          (match ev e frame h with
            | .error err => .error err
            | .ok (_, h1) => evalBody ev rest frame h1) := by
        cases rest <;> first | rfl | exact absurd rfl hn
      rw [hstep] at hb
      cases he : ev e frame h with
      | error err => simp [he] at hb
      | ok r =>
        obtain ⟨v1, h2⟩ := r
        simp only [he] at hb
        exact ih frame h2 v h1 hb (hev _ _ _ _ _ he hd)
  | _ => intro frame h v h1 hb; simp [evalBody] at hb

theorem evalIf_keeps (ev : Ev) (hev : EvKeeps ev) (args : Value) (frame : Nat)
    (h : Heap) (v : Value) (h1 : Heap)
    (hi : evalIf ev args frame h = .ok (v, h1)) (hd : DistinctNames h) :
    DistinctNames h1 := by
  unfold evalIf at hi
  split at hi
  · cases hi
  · split at hi
    · cases hi
    · split at hi
      · split at hi
        · cases hi
        · rename_i h2 ht
          have hd2 := evalTestIsFalse_keeps ev hev _ _ _ _ _ ht hd
          split at hi
          · split at hi
            · cases hi
            · exact hev _ _ _ _ _ hi hd2
          · cases hi; exact hd2
        · rename_i h2 ht
          exact hev _ _ _ _ _ hi (evalTestIsFalse_keeps ev hev _ _ _ _ _ ht hd)
      · cases hi

theorem evalAndLoop_keeps (ev : Ev) (hev : EvKeeps ev) (args : Value) :
    ∀ (frame : Nat) (h : Heap) (v : Value) (h1 : Heap),
    evalAndLoop ev args frame h = .ok (v, h1) → DistinctNames h → DistinctNames h1 := by
  induction args with
  | cons e rest _ ih =>
    intro frame h v h1 hb hd
    unfold evalAndLoop at hb
    split at hb
    · exact hev _ _ _ _ _ hb hd
    · split at hb
      · cases hb
      · rename_i he
        have hd2 := hev _ _ _ _ _ he hd
        split at hb
        · cases hb; exact hd2
        · exact ih _ _ _ _ hb hd2
  | _ => intro frame h v h1 hb; simp [evalAndLoop] at hb

theorem evalOrLoop_keeps (ev : Ev) (hev : EvKeeps ev) (args : Value) :
    ∀ (frame : Nat) (h : Heap) (v : Value) (h1 : Heap),
    evalOrLoop ev args frame h = .ok (v, h1) → DistinctNames h → DistinctNames h1 := by
  induction args with
  | cons e rest _ ih =>
    intro frame h v h1 hb hd
    unfold evalOrLoop at hb
    split at hb
    · exact hev _ _ _ _ _ hb hd
    · split at hb
      · cases hb
      · rename_i he
        have hd2 := hev _ _ _ _ _ he hd
        split at hb
        · cases hb; exact hd2
        · exact ih _ _ _ _ hb hd2
  | _ => intro frame h v h1 hb; simp [evalOrLoop] at hb

theorem evalAnd_keeps (ev : Ev) (hev : EvKeeps ev) (args : Value) (frame : Nat)
    (h : Heap) (v : Value) (h1 : Heap)
    (hi : evalAnd ev args frame h = .ok (v, h1)) (hd : DistinctNames h) :
    DistinctNames h1 := by
  unfold evalAnd at hi
  split at hi
  · cases hi
  · split at hi
    · cases hi; exact hd
    · exact evalAndLoop_keeps ev hev _ _ _ _ _ hi hd

theorem evalOr_keeps (ev : Ev) (hev : EvKeeps ev) (args : Value) (frame : Nat)
    (h : Heap) (v : Value) (h1 : Heap)
    (hi : evalOr ev args frame h = .ok (v, h1)) (hd : DistinctNames h) :
    DistinctNames h1 := by
  unfold evalOr at hi
  split at hi
  · cases hi
  · split at hi
    · cases hi; exact hd
    · exact evalOrLoop_keeps ev hev _ _ _ _ _ hi hd

theorem evalBegin_keeps (ev : Ev) (hev : EvKeeps ev) (args : Value) (frame : Nat)
    (h : Heap) (v : Value) (h1 : Heap)
    (hi : evalBegin ev args frame h = .ok (v, h1)) (hd : DistinctNames h) :
    DistinctNames h1 := by
  unfold evalBegin at hi
  split at hi
  · cases hi; exact hd
  · exact evalBody_keeps ev hev _ _ _ _ _ hi hd
  · cases hi

theorem evalLetBindings_keeps (ev : Ev) (hev : EvKeeps ev) (cur : Value) :
    ∀ (evalFrame frameG : Nat) (h h1 : Heap),
    evalLetBindings ev cur evalFrame frameG h = .ok h1 → DistinctNames h →
    DistinctNames h1 := by
  induction cur with
  | null => intro _ _ h h1 hb hd; simp [evalLetBindings] at hb; subst hb; exact hd
  | cons b rest _ ih =>
    intro evalFrame frameG h h1 hb hd
    cases b with
    | cons name tl =>
      cases tl with
      | cons e tl2 =>
        simp only [evalLetBindings] at hb
        split at hb
        · cases hb
        · split at hb
          · cases hb
          · split at hb
            · cases hb
            · split at hb
              · cases hb
              · rename_i he
                split at hb
                · cases hb
                · split at hb
                  · cases hb
                  · rename_i ha
                    exact ih _ _ _ _ hb
                      (addBindingLocal_keeps _ _ _ _ _ ha (hev _ _ _ _ _ he hd))
      | _ => simp [evalLetBindings, isConsType, length] at hb
    | _ => simp [evalLetBindings, isConsType] at hb
  | _ => intro _ _ h h1 hb; simp [evalLetBindings] at hb

theorem evalLet_keeps (ev : Ev) (hev : EvKeeps ev) (args : Value) (frame : Nat)
    (h : Heap) (v : Value) (h1 : Heap)
    (hi : evalLet ev args frame h = .ok (v, h1)) (hd : DistinctNames h) :
    DistinctNames h1 := by
  unfold evalLet at hi
  split at hi
  · split at hi
    · cases hi
    · split at hi
      · cases hi
      · split at hi
        · cases hi
        · rename_i hb
          exact evalBody_keeps ev hev _ _ _ _ _ hi
            (evalLetBindings_keeps ev hev _ _ _ _ _ hb (distinctNames_allocFrame _ _ hd))
  · cases hi

theorem evalLetrec_keeps (ev : Ev) (hev : EvKeeps ev) (args : Value) (frame : Nat)
    (h : Heap) (v : Value) (h1 : Heap)
    (hi : evalLetrec ev args frame h = .ok (v, h1)) (hd : DistinctNames h) :
    DistinctNames h1 := by
  unfold evalLetrec at hi
  split at hi
  · split at hi
    · cases hi
    · split at hi
      · cases hi
      · split at hi
        · cases hi
        · rename_i hb
          exact evalBody_keeps ev hev _ _ _ _ _ hi
            (evalLetBindings_keeps ev hev _ _ _ _ _ hb (distinctNames_allocFrame _ _ hd))
  · cases hi

theorem evalLetstarBindings_keeps (ev : Ev) (hev : EvKeeps ev) (cur : Value) :
    ∀ (lastFrame : Nat) (h : Heap) (last1 : Nat) (h1 : Heap),
    evalLetstarBindings ev cur lastFrame h = .ok (last1, h1) → DistinctNames h →
    DistinctNames h1 := by
  induction cur with
  | null =>
    intro _ h _ h1 hb hd
    simp [evalLetstarBindings] at hb
    rw [← hb.2]; exact hd
  | cons b rest _ ih =>
    intro lastFrame h last1 h1 hb hd
    cases b with
    | cons name tl =>
      cases tl with
      | cons e tl2 =>
        simp only [evalLetstarBindings] at hb
        split at hb
        · cases hb
        · split at hb
          · cases hb
          · split at hb
            · cases hb
            · split at hb
              · cases hb
              · rename_i he
                split at hb
                · cases hb
                · split at hb
                  · cases hb
                  · rename_i ha
                    exact ih _ _ _ _ hb (addBindingLocal_keeps _ _ _ _ _ ha
                      (hev _ _ _ _ _ he (distinctNames_allocFrame _ _ hd)))
      | _ => simp [evalLetstarBindings, isConsType, length] at hb
    | _ => simp [evalLetstarBindings, isConsType] at hb
  | _ => intro _ h _ h1 hb; simp [evalLetstarBindings] at hb

theorem evalLetstar_keeps (ev : Ev) (hev : EvKeeps ev) (args : Value) (frame : Nat)
    (h : Heap) (v : Value) (h1 : Heap)
    (hi : evalLetstar ev args frame h = .ok (v, h1)) (hd : DistinctNames h) :
    DistinctNames h1 := by
  unfold evalLetstar at hi
  split at hi
  · split at hi
    · cases hi
    · split at hi
      · cases hi
      · split at hi
        · cases hi
        · rename_i hb
          exact evalBody_keeps ev hev _ _ _ _ _ hi
            (evalLetstarBindings_keeps ev hev _ _ _ _ _ hb hd)
  · cases hi

theorem evalCond_keeps (ev : Ev) (hev : EvKeeps ev) (clauses : Value) :
    ∀ (frame : Nat) (h : Heap) (v : Value) (h1 : Heap),
    evalCond ev clauses frame h = .ok (v, h1) → DistinctNames h → DistinctNames h1 := by
  induction clauses with
  | null => intro _ h v h1 hb hd; simp [evalCond] at hb; rw [← hb.2]; exact hd
  | cons c rest _ ih =>
    intro frame h v h1 hb hd
    unfold evalCond at hb
    split at hb
    · split at hb
      · split at hb
        · exact evalBody_keeps ev hev _ _ _ _ _ hb hd
        · cases hb
      · split at hb
        · cases hb
        · rename_i ht
          exact evalBody_keeps ev hev _ _ _ _ _ hb
            (evalTestIsFalse_keeps ev hev _ _ _ _ _ ht hd)
        · rename_i ht
          exact ih _ _ _ _ hb (evalTestIsFalse_keeps ev hev _ _ _ _ _ ht hd)
    · cases hb
  | _ => intro _ h v h1 hb; simp [evalCond] at hb

theorem evalDefine_keeps (ev : Ev) (hev : EvKeeps ev) (args : Value) (frame : Nat)
    (h : Heap) (v : Value) (h1 : Heap)
    (hi : evalDefine ev args frame h = .ok (v, h1)) (hd : DistinctNames h) :
    DistinctNames h1 := by
  unfold evalDefine at hi
  split at hi
  · cases hi
  · split at hi
    · cases hi
    · split at hi
      · cases hi
      · split at hi
        · cases hi
        · split at hi
          · cases hi
          · split at hi
            · cases hi
            · split at hi
              · split at hi
                · cases hi
                · rename_i he
                  split at hi
                  · cases hi
                  · rename_i ha
                    cases hi
                    exact addBindingGlobal_keeps _ _ _ _ _ ha (hev _ _ _ _ _ he hd)
              · cases hi

theorem evalSet_keeps (ev : Ev) (hev : EvKeeps ev) (args : Value) (frame : Nat)
    (h : Heap) (v : Value) (h1 : Heap)
    (hi : evalSet ev args frame h = .ok (v, h1)) (hd : DistinctNames h) :
    DistinctNames h1 := by
  unfold evalSet at hi
  split at hi
  · cases hi
  · split at hi
    · cases hi
    · split at hi
      · cases hi
      · split at hi
        · cases hi
        · split at hi
          · cases hi
          · split at hi
            · split at hi
              · cases hi
              · rename_i he
                have hd2 := hev _ _ _ _ _ he hd
                split at hi
                · cases hi
                · rename_i fr hf
                  split at hi
                  · cases hi
                  · rename_i newBindings hr
                    cases hi
                    apply distinctNames_setBindings _ _ _ hd2
                    rw [bindingNames_rebuildBindings _ _ _ _ _ hr]
                    simpa [bindingNames] using hd2 _ _ (getFrame_ok _ _ _ hf)
            · cases hi

theorem evalLoadLoop_keeps (ev : Ev) (hev : EvKeeps ev) (tree : Value) :
    ∀ (frame : Nat) (h h1 : Heap),
    evalLoadLoop ev tree frame h = .ok h1 → DistinctNames h → DistinctNames h1 := by
  induction tree with
  | cons e rest _ ih =>
    intro frame h h1 hb hd
    unfold evalLoadLoop at hb
    split at hb
    · cases hb
    · rename_i he
      exact ih _ _ _ hb (hev _ _ _ _ _ he hd)
  | _ => intro frame h h1 hb hd; simp [evalLoadLoop] at hb; subst hb; exact hd

theorem evalOperands_keeps (ev : Ev) (hev : EvKeeps ev) (expr : Value) :
    ∀ (values : Value) (frame : Nat) (h : Heap) (vs : Value) (h1 : Heap),
    evalOperands ev expr values frame h = .ok (vs, h1) → DistinctNames h →
    DistinctNames h1 := by
  induction expr with
  | null => intro _ _ h vs h1 hb hd; simp [evalOperands] at hb; rw [← hb.2]; exact hd
  | cons e rest _ ih =>
    intro values frame h vs h1 hb hd
    unfold evalOperands at hb
    split at hb
    · cases hb
    · rename_i he
      exact ih _ _ _ _ _ hb (hev _ _ _ _ _ he hd)
  | _ => intro _ _ h vs h1 hb; simp [evalOperands] at hb

theorem bindFormals_keeps (formal : Value) :
    ∀ (actual : Value) (newFrame : Nat) (h h1 : Heap),
    bindFormals formal actual newFrame h = .ok h1 → DistinctNames h →
    DistinctNames h1 := by
  induction formal with
  | null => intro _ _ h h1 hb hd; simp [bindFormals] at hb; subst hb; exact hd
  | cons f rest _ ih =>
    intro actual newFrame h h1 hb hd
    unfold bindFormals at hb
    split at hb
    · split at hb
      · cases hb
      · rename_i ha
        exact ih _ _ _ _ hb (addBindingLocal_keeps _ _ _ _ _ ha hd)
    · cases hb
  | _ => intro _ _ h h1 hb; simp [bindFormals] at hb

theorem primitiveApply_keeps (app : Ap) (happ : ApKeeps app) (args : Value)
    (h : Heap) (v : Value) (h1 : Heap)
    (hi : primitiveApply app args h = .ok (v, h1)) (hd : DistinctNames h) :
    DistinctNames h1 := by
  unfold primitiveApply at hi
  split at hi
  · split at hi
    · cases hi
    · split at hi
      · cases hi
      · split at hi
        · cases hi
        · split at hi
          · cases hi
          · exact happ _ _ _ _ _ _ hi (distinctNames_allocFrame _ _ hd)
  · cases hi

theorem map_keeps (r : Res Value) (h : Heap) (v : Value) (h1 : Heap)
    (hi : r.map (fun v => (v, h)) = .ok (v, h1)) : h1 = h := by
  cases r with
  | error e => cases hi
  | ok a =>
    simp only [Except.map, Except.ok.injEq, Prod.mk.injEq] at hi
    exact hi.2.symm

theorem callPrimitive_keeps (fs : String → Option (List Value)) (app : Ap)
    (happ : ApKeeps app) (pf : Prim) (args : Value) (h : Heap) (v : Value) (h1 : Heap)
    (hi : callPrimitive fs app pf args h = .ok (v, h1)) (hd : DistinctNames h) :
    DistinctNames h1 := by
  cases pf <;> simp only [callPrimitive] at hi <;>
    first
      | exact primitiveApply_keeps app happ _ _ _ _ hi hd
      | (rw [map_keeps _ _ _ _ hi]; exact hd)

theorem applyStep_keeps (fs : String → Option (List Value)) (ev : Ev) (app : Ap)
    (hev : EvKeeps ev) (happ : ApKeeps app) : ApKeeps (applyStep fs ev app) := by
  intro function args frame h v h1 hi hd
  unfold applyStep at hi
  split at hi
  · exact callPrimitive_keeps fs app happ _ _ _ _ _ hi hd
  · split at hi
    · split at hi
      · split at hi
        · cases hi
        · split at hi
          · cases hi
          · rename_i hb
            exact evalBody_keeps ev hev _ _ _ _ _ hi
              (bindFormals_keeps _ _ _ _ _ hb (distinctNames_allocFrame _ _ hd))
      · cases hi
    · split at hi
      · cases hi
      · rename_i ha
        exact evalBody_keeps ev hev _ _ _ _ _ hi
          (addBindingLocal_keeps _ _ _ _ _ ha (distinctNames_allocFrame _ _ hd))
  · cases hi

theorem evalStep_keeps (fs : String → Option (List Value)) (ev : Ev) (app : Ap)
    (hev : EvKeeps ev) (happ : ApKeeps app) : EvKeeps (evalStep fs ev app) := by
  intro expr frame h v h1 hi hd
  cases expr with
  | cons first args =>
    simp only [evalStep] at hi
    cases hn : headName first with
    | error e => simp [hn] at hi
    | ok name =>
      simp only [hn] at hi
      by_cases c1 : name = some "if"
      · rw [if_pos c1] at hi; exact evalIf_keeps ev hev _ _ _ _ _ hi hd
      rw [if_neg c1] at hi
      by_cases c2 : name = some "quote"
      · rw [if_pos c2] at hi
        split at hi
        · cases hi
        · split at hi
          · cases hi
          · split at hi
            · cases hi
            · cases hi; exact hd
      rw [if_neg c2] at hi
      by_cases c3 : name = some "and"
      · rw [if_pos c3] at hi; exact evalAnd_keeps ev hev _ _ _ _ _ hi hd
      rw [if_neg c3] at hi
      by_cases c4 : name = some "or"
      · rw [if_pos c4] at hi; exact evalOr_keeps ev hev _ _ _ _ _ hi hd
      rw [if_neg c4] at hi
      by_cases c5 : name = some "begin"
      · rw [if_pos c5] at hi; exact evalBegin_keeps ev hev _ _ _ _ _ hi hd
      rw [if_neg c5] at hi
      by_cases c6 : name = some "cond"
      · rw [if_pos c6] at hi; exact evalCond_keeps ev hev _ _ _ _ _ hi hd
      rw [if_neg c6] at hi
      by_cases c7 : name = some "let"
      · rw [if_pos c7] at hi; exact evalLet_keeps ev hev _ _ _ _ _ hi hd
      rw [if_neg c7] at hi
      by_cases c8 : name = some "letrec"
      · rw [if_pos c8] at hi; exact evalLetrec_keeps ev hev _ _ _ _ _ hi hd
      rw [if_neg c8] at hi
      by_cases c9 : name = some "let*"
      · rw [if_pos c9] at hi; exact evalLetstar_keeps ev hev _ _ _ _ _ hi hd
      rw [if_neg c9] at hi
      by_cases c10 : name = some "define"
      · rw [if_pos c10] at hi; exact evalDefine_keeps ev hev _ _ _ _ _ hi hd
      rw [if_neg c10] at hi
      by_cases c11 : name = some "set!"
      · rw [if_pos c11] at hi; exact evalSet_keeps ev hev _ _ _ _ _ hi hd
      rw [if_neg c11] at hi
      by_cases c12 : name = some "lambda"
      · rw [if_pos c12] at hi
        split at hi
        · cases hi
        · cases hi; exact hd
      rw [if_neg c12] at hi
      by_cases c13 : (isSymbolType first && decide (name = some "load")) = true
      · rw [if_pos c13] at hi
        split at hi
        · cases hi
        · rename_i he
          have hd1 := hev _ _ _ _ _ he hd
          split at hi
          · split at hi
            · cases hi
            · rename_i hc
              have hd2 := callPrimitive_keeps fs app happ _ _ _ _ _ hc hd1
              split at hi
              · cases hi
              · rename_i hl
                cases hi
                exact evalLoadLoop_keeps ev hev _ _ _ _ hl hd2
          · cases hi
      rw [if_neg c13] at hi
      split at hi
      · cases hi
      · rename_i ho
        have hd1 := evalOperands_keeps ev hev _ _ _ _ _ _ ho hd
        split at hi
        · exact happ _ _ _ _ _ _ hi hd1
        · cases hi
  | symbol s =>
    simp only [evalStep] at hi
    split at hi
    · cases hi
    · cases hi; exact hd
  | int _ => simp only [evalStep] at hi; cases hi; exact hd
  | double _ => simp only [evalStep] at hi; cases hi; exact hd
  | str _ => simp only [evalStep] at hi; cases hi; exact hd
  | bool _ => simp only [evalStep] at hi; cases hi; exact hd
  | _ => simp [evalStep] at hi

theorem eval_apply_keeps (fs : String → Option (List Value)) (n : Nat) :
    EvKeeps (eval fs n) ∧ ApKeeps (apply fs n) := by
  induction n with
  | zero =>
    constructor
    · intro e f h v h1 hi; simp [eval] at hi
    · intro fn a f h v h1 hi; simp [apply] at hi
  | succ n ih =>
    constructor
    · intro e f h v h1 hi
      rw [eval_succ] at hi
      exact evalStep_keeps fs _ _ ih.1 ih.2 _ _ _ _ _ hi
    · intro fn a f h v h1 hi
      rw [apply_succ] at hi
      exact applyStep_keeps fs _ _ ih.1 ih.2 _ _ _ _ _ _ hi

theorem otherBindings_append (s : String) (as bs : List (Value × Value)) :
    otherBindings s (as ++ bs) = otherBindings s as ++ otherBindings s bs := by
  induction as with
  | nil => rfl
  | cons a as ih =>
    obtain ⟨name, value⟩ := a
    by_cases hn : name = .symbol s
    · simp [otherBindings, hn, ih]
    · simp [otherBindings, hn, ih]

theorem otherBindings_reverse (s : String) (bs : List (Value × Value)) :
    otherBindings s bs.reverse = (otherBindings s bs).reverse := by
  induction bs with
  | nil => rfl
  | cons b bs ih =>
    obtain ⟨name, value⟩ := b
    by_cases hn : name = .symbol s
    · simp [otherBindings_append, otherBindings, hn, ih]
    · simp [otherBindings_append, otherBindings, hn, ih]

theorem assignBinding_fst (s : String) (v : Value) (b : Value × Value) :
    (assignBinding s v b).1 = b.1 := by
  unfold assignBinding
  split <;> rfl

theorem assignBinding_other (s : String) (v : Value) (b : Value × Value)
    (hb : b.1 ≠ .symbol s) : assignBinding s v b = b := by
  unfold assignBinding
  rw [if_neg hb]

theorem assignBinding_same (s : String) (v : Value) (b : Value × Value)
    (hb : b.1 = .symbol s) : assignBinding s v b = (.symbol s, v) := by
  unfold assignBinding
  rw [if_pos hb, hb]

theorem otherBindings_replace (s : String) (v : Value) (bs : List (Value × Value)) :
    otherBindings s (bs.map (assignBinding s v)) = otherBindings s bs := by
  induction bs with
  | nil => rfl
  | cons b bs ih =>
    obtain ⟨name, value⟩ := b
    by_cases hn : name = .symbol s
    · rw [List.map_cons, assignBinding_same s v _ hn]
      simp [otherBindings, hn, ih]
    · rw [List.map_cons, assignBinding_other s v _ hn]
      simp [otherBindings, hn, ih]

theorem rebuildBindings_eq (s : String) (v : Value) :
    ∀ (bs acc : List (Value × Value)), (∀ b ∈ bs, isSymbolType b.1 = true) →
    rebuildBindings s v bs acc = .ok ((bs.map (assignBinding s v)).reverse ++ acc) := by
  intro bs
  induction bs with
  | nil => intro acc _; simp [rebuildBindings]
  | cons b bs ih =>
    intro acc hs
    obtain ⟨name, value⟩ := b
    have hn : isSymbolType name = true := hs (name, value) (by simp)
    have ih' := fun acc => ih acc (fun b hb => hs b (by simp [hb]))
    cases name <;> simp [isSymbolType] at hn
    rename_i t
    by_cases hts : t = s
    · rw [List.map_cons, assignBinding_same s v _ (by simp [hts])]
      simp [rebuildBindings, hts, ih']
    · rw [List.map_cons, assignBinding_other s v _ (by simp [hts])]
      simp [rebuildBindings, hts, ih']

theorem firstBinding_of_all (s : String) (v : Value) (bs : List (Value × Value))
    (hall : ∀ b ∈ bs, b.1 = .symbol s → b.2 = v) (hmem : .symbol s ∈ bindingNames bs) :
    firstBinding s bs = some v := by
  induction bs with
  | nil => simp [bindingNames] at hmem
  | cons b bs ih =>
    obtain ⟨name, value⟩ := b
    by_cases hn : name = .symbol s
    · have := hall (name, value) (by simp) hn
      simp at this
      simp [firstBinding, hn, this]
    · have hm : .symbol s ∈ bindingNames bs := by
        simp only [bindingNames, List.map_cons, List.mem_cons] at hmem
        rcases hmem with h | h
        · exact absurd h.symm hn
        · exact h
      simp [firstBinding, hn, ih (fun b hb => hall b (by simp [hb])) hm]

theorem bindingNames_assign (s : String) (v : Value) (bs : List (Value × Value)) :
    bindingNames (bs.map (assignBinding s v)) = bindingNames bs := by
  simp only [bindingNames, List.map_map]
  apply List.map_congr_left
  intro b _
  exact assignBinding_fst s v b

theorem firstBinding_assign (s : String) (v : Value) (bs : List (Value × Value))
    (hmem : .symbol s ∈ bindingNames bs) :
    firstBinding s (bs.map (assignBinding s v)).reverse = some v := by
  apply firstBinding_of_all
  · intro b hb hbn
    simp only [List.mem_reverse, List.mem_map] at hb
    obtain ⟨b0, _, rfl⟩ := hb
    rw [assignBinding_fst] at hbn
    rw [assignBinding_same s v b0 hbn]
  · simp only [bindingNames, List.map_reverse, List.mem_reverse] at hmem ⊢
    have := bindingNames_assign s v bs
    simp only [bindingNames] at this
    rw [this]
    exact hmem

theorem isBoundedIn_some_of_mem (s : String) (bs : List (Value × Value))
    (hs : ∀ b ∈ bs, isSymbolType b.1 = true) (hmem : .symbol s ∈ bindingNames bs) :
    ∃ i, isBoundedIn (.symbol s) bs = .ok (some i) := by
  rcases isBoundedIn_spec s .null bs hs with ⟨h1, -⟩ | ⟨i, h1, -⟩
  · exact absurd hmem (isBoundedIn_none_not_mem _ _ h1)
  · exact ⟨i, h1⟩

theorem isBoundedIn_none_of_not_mem (s : String) (bs : List (Value × Value))
    (hs : ∀ b ∈ bs, isSymbolType b.1 = true) (hmem : .symbol s ∉ bindingNames bs) :
    isBoundedIn (.symbol s) bs = .ok none := by
  apply isBoundedIn_none s bs hs
  rw [firstBinding_none_iff]
  intro b hb hn
  exact hmem (by simp only [bindingNames, List.mem_map]; exact ⟨b, hb, hn⟩)

theorem bindPrimitives_keeps (table : List (String × Prim)) :
    ∀ (topFrame : Nat) (h h1 : Heap),
    bindPrimitives table topFrame h = .ok h1 → DistinctNames h → DistinctNames h1 := by
  induction table with
  | nil => intro _ h h1 hb hd; simp [bindPrimitives] at hb; subst hb; exact hd
  | cons p rest ih =>
    intro topFrame h h1 hb hd
    obtain ⟨name, function⟩ := p
    simp only [bindPrimitives] at hb
    split at hb
    · cases hb
    · rename_i ha
      exact ih _ _ _ hb (addBindingGlobal_keeps _ _ _ _ _ ha hd)

theorem distinctNames_emptyTop : DistinctNames emptyTop := by
  intro i fr hfr
  cases i with
  | zero => simp [emptyTop] at hfr; subst hfr; simp [bindingNames]
  | succ i => simp [emptyTop] at hfr

theorem distinctNames_primitivesTop : DistinctNames primitivesTop := by
  unfold primitivesTop
  split
  · rename_i hb
    exact bindPrimitives_keeps _ _ _ _ hb distinctNames_emptyTop
  · exact distinctNames_emptyTop

/-! ## Theorems: closures come from code -/

theorem isCode_cons (a d : Value) :
    isCode (.cons a d) = (!isNull a && isCode a && isCode d) := rfl

theorem isCode_popToOpen : ∀ (stack : List Value) (inner : Value),
    (∀ x ∈ stack, x = .openType ∨ (isNull x = false ∧ isCode x = true)) →
    isCode inner = true →
    ∀ inner1 stack1, popToOpen stack inner = some (inner1, stack1) →
      isCode inner1 = true ∧
      ∀ x ∈ stack1, x = .openType ∨ (isNull x = false ∧ isCode x = true) := by
  intro stack
  induction stack with
  | nil => intro inner _ _ inner1 stack1 hp; simp [popToOpen] at hp
  | cons x xs ih =>
    intro inner hst hin inner1 stack1 hp
    have hxs : ∀ y ∈ xs, y = .openType ∨ (isNull y = false ∧ isCode y = true) :=
      fun y hy => hst y (List.mem_cons_of_mem _ hy)
    by_cases hx : x = .openType
    · subst hx
      simp only [popToOpen, Option.some.injEq, Prod.mk.injEq] at hp
      obtain ⟨h1, h2⟩ := hp
      subst h1; subst h2
      exact ⟨hin, hxs⟩
    · have hp1 : popToOpen (x :: xs) inner = popToOpen xs (.cons x inner) := by
        cases x <;> simp_all [popToOpen]
      rw [hp1] at hp
      have hxm : isNull x = false ∧ isCode x = true := by
        rcases hst x (List.mem_cons_self _ _) with h | h
        · exact absurd h hx
        · exact h
      exact ih (.cons x inner) hxs (by simp [isCode_cons, hxm.1, hxm.2, hin]) inner1 stack1 hp

theorem isCode_listToValue (stack : List Value)
    (h : ∀ x ∈ stack, isNull x = false ∧ isCode x = true) :
    isCode (listToValue stack) = true := by
  induction stack with
  | nil => rfl
  | cons x xs ih =>
    have hx := h x (List.mem_cons_self _ _)
    simp [listToValue, isCode_cons, hx.1, hx.2,
      ih (fun y hy => h y (List.mem_cons_of_mem _ hy))]

theorem isToken_code (t : Value) (h : isToken t = true) :
    t = .openType ∨ t = .closeType ∨
      (isAtom t = true ∧ isNull t = false ∧ isCode t = true) := by
  cases t <;> simp [isToken, isAtom, isCode, isNull] at h ⊢

theorem parseLoop_isCode : ∀ (tokens stack : List Value) (d : Nat) (v : Value),
    (∀ t ∈ tokens, isToken t = true) →
    countOpen stack = d →
    (∀ x ∈ stack, x = .openType ∨ (isNull x = false ∧ isCode x = true)) →
    parseLoop tokens stack d = .tree v → isCode v = true := by
  intro tokens
  induction tokens with
  | nil =>
    intro stack d v _ hs hst hp
    by_cases hd : d = 0
    · simp only [parseLoop, hd, ne_eq, not_true_eq_false, if_false,
        ParseResult.tree.injEq] at hp
      subst hp
      apply isCode_listToValue
      intro x hx
      rcases hst x hx with h | h
      · exact absurd h (countOpen_eq_zero stack (by omega) x hx)
      · exact h
    · simp [parseLoop, hd] at hp
  | cons t ts ih =>
    intro stack d v htok hs hst hp
    have hts : ∀ t ∈ ts, isToken t = true := fun y hy => htok y (List.mem_cons_of_mem _ hy)
    rcases isToken_code t (htok t (List.mem_cons_self _ _)) with ht | ht | ⟨hta, htn, htm⟩
    · subst ht
      rw [parseLoop] at hp
      refine ih (.openType :: stack) (d + 1) v hts (by simp [countOpen, hs]) ?_ hp
      intro x hx
      rcases List.mem_cons.1 hx with h | h
      · exact Or.inl h
      · exact hst x h
    · subst ht
      cases d with
      | zero => simp [parseLoop] at hp
      | succ d =>
        obtain ⟨inner1, stack1, hpop, hcount, hin⟩ :=
          countOpen_popToOpen stack makeNull (by omega)
        obtain ⟨hm1, hst1⟩ := isCode_popToOpen stack makeNull hst rfl _ _ hpop
        by_cases hn : isNull inner1 = true
        · have hp1 : parseLoop ts stack1 d = .tree v := by
            simpa [parseLoop, hpop, hn] using hp
          exact ih stack1 d v hts (by omega) hst1 hp1
        · have hp1 : parseLoop ts (inner1 :: stack1) d = .tree v := by
            simpa [parseLoop, hpop, hn] using hp
          have hc : countOpen (inner1 :: stack1) = countOpen stack1 := by
            rcases hin with h | h
            · subst h; simp [makeNull, isNull] at hn
            · cases inner1 <;> simp [isConsType] at h
              simp [countOpen]
          refine ih (inner1 :: stack1) d v hts (by omega) ?_ hp1
          intro x hx
          rcases List.mem_cons.1 hx with h | h
          · subst h; exact Or.inr ⟨by simpa using hn, hm1⟩
          · exact hst1 x h
    · have hp1 : parseLoop ts (t :: stack) d = .tree v := by
        rw [← parseLoop_atom t hta ts stack d]; exact hp
      have hc : countOpen (t :: stack) = countOpen stack := by
        clear ih hp hp1 htok hts hst
        cases t <;> first | rfl | simp [isAtom] at hta
      refine ih (t :: stack) d v hts (by omega) ?_ hp1
      intro x hx
      rcases List.mem_cons.1 hx with h | h
      · subst h; exact Or.inr ⟨htn, htm⟩
      · exact hst x h

theorem parse_isCode (tokens : List Value) (v : Value)
    (htok : ∀ t ∈ tokens, isToken t = true) (hp : parse tokens = .tree v) :
    isCode v = true :=
  parseLoop_isCode tokens [] 0 v htok rfl (by simp) hp

theorem applyStep_arity (fs : String → Option (List Value)) (ev : Ev) (app : Ap)
    (x : Value) (xs as : List Value) (body : Value) (parentFrame frame : Nat) (h : Heap)
    (hlen : as.length ≠ xs.length + 1) :
    applyStep fs ev app (.closure (listToValue (x :: xs)) body parentFrame)
      (listToValue as) frame h = .error .evaluationError := by
  have h1 : length (listToValue (x :: xs)) = .ok (xs.length + 1) := by
    rw [length_listToValue]; rfl
  have h2 : isConsType (listToValue (x :: xs)) = true := rfl
  simp only [applyStep, h2, if_true, h1, length_listToValue]
  simp [Ne.symm hlen]

theorem isCode_closuresFromCode (v : Value) (h : isCode v = true) :
    closuresFromCode v = true := by
  induction v with
  | cons a d iha ihd =>
    simp only [isCode_cons, Bool.and_eq_true] at h
    simp [closuresFromCode, iha h.1.2, ihd h.2]
  | closure f b _ _ _ => simp [isCode] at h
  | _ => rfl

theorem isPlain_isCode (v : Value) (h : isPlain v = true) : isCode v = true := by
  cases v <;> simp [isPlain] at h <;> rfl

theorem storeNumber_plain (d : Bool) (q : Rat) (v : Value)
    (h : storeNumber d q = .ok v) : isPlain v = true := by
  unfold storeNumber at h
  split at h
  · cases h; rfl
  · split at h
    · cases h
    · cases h; rfl

theorem storeQuotient_plain (d : Bool) (q : Rat) (v : Value)
    (h : storeQuotient d q = .ok v) : isPlain v = true := by
  unfold storeQuotient at h
  split at h
  · cases h; rfl
  · split at h
    · cases h
    · split at h <;> (cases h; rfl)

theorem intResult_plain (i : Int) (v : Value)
    (h : intResult i = .ok v) : isPlain v = true := by
  unfold intResult at h
  split at h
  · cases h; rfl
  · cases h

theorem primitiveAdd_plain (args v : Value) (h : primitiveAdd args = .ok v) :
    isPlain v = true := by
  unfold primitiveAdd at h
  split at h
  · cases h
  · exact storeNumber_plain _ _ _ h

theorem primitiveMult_plain (args v : Value) (h : primitiveMult args = .ok v) :
    isPlain v = true := by
  unfold primitiveMult at h
  split at h
  · cases h
  · exact storeNumber_plain _ _ _ h

theorem primitiveSub_plain (args v : Value) (h : primitiveSub args = .ok v) :
    isPlain v = true := by
  unfold primitiveSub at h
  split at h
  · cases h
  · split at h
    · cases h
    · split at h
      · split at h
        · exact intResult_plain _ _ h
        · split at h
          · cases h
          · exact storeNumber_plain _ _ _ h
      · split at h
        · cases h; rfl
        · split at h
          · cases h
          · exact storeNumber_plain _ _ _ h
      · cases h
      · cases h

theorem primitiveDiv_plain (args v : Value) (h : primitiveDiv args = .ok v) :
    isPlain v = true := by
  unfold primitiveDiv at h
  split at h
  · cases h
  · split at h
    · cases h
    · split at h
      · split at h
        · split at h
          · cases h
          · cases h; rfl
        · split at h
          · cases h
          · exact storeQuotient_plain _ _ _ h
      · split at h
        · split at h
          · cases h
          · cases h; rfl
        · split at h
          · cases h
          · exact storeQuotient_plain _ _ _ h
      all_goals cases h

theorem leqLoop_plain (args : Value) : ∀ (a : Rat) (v : Value),
    leqLoop args a = .ok v → isPlain v = true := by
  induction args with
  | null => intro a v h; simp [leqLoop] at h; subst h; rfl
  | cons x rest _ ih =>
    intro a v h
    unfold leqLoop at h
    split at h
    · split at h
      · exact ih _ _ h
      · cases h; rfl
    · split at h
      · exact ih _ _ h
      · cases h; rfl
    · cases h
  | _ => intro a v h; simp [leqLoop] at h

theorem primitiveLeq_plain (args v : Value) (h : primitiveLeq args = .ok v) :
    isPlain v = true := by
  unfold primitiveLeq at h
  split at h
  · cases h
  · split at h
    · cases h
    · split at h
      · exact leqLoop_plain _ _ _ h
      · exact leqLoop_plain _ _ _ h
      · cases h
      · cases h

theorem boolValue_plain (b : Bool) : isPlain (boolValue b) = true := by
  cases b <;> rfl

theorem primitiveIsNull_plain (args v : Value) (h : primitiveIsNull args = .ok v) :
    isPlain v = true := by
  unfold primitiveIsNull at h
  split at h
  · cases h
  · split at h
    · cases h
    · split at h
      · cases h
      · cases h; exact boolValue_plain _

theorem primitiveIsPair_plain (args v : Value) (h : primitiveIsPair args = .ok v) :
    isPlain v = true := by
  unfold primitiveIsPair at h
  split at h
  · cases h
  · split at h
    · cases h
    · split at h
      · cases h
      · cases h; exact boolValue_plain _

theorem primitiveIsEq_plain (args v : Value) (h : primitiveIsEq args = .ok v) :
    isPlain v = true := by
  unfold primitiveIsEq at h
  split at h
  · cases h
  · split at h
    · cases h
    · split at h
      · split at h
        · cases h
        · cases h; exact boolValue_plain _
      · cases h

theorem primitiveNumberCheck_plain (args v : Value)
    (h : primitiveNumberCheck args = .ok v) : isPlain v = true := by
  unfold primitiveNumberCheck at h
  split at h
  · cases h
  · split at h
    · cases h
    · split at h <;> first | (cases h; rfl) | cases h

theorem primitiveIntegerCheck_plain (args v : Value)
    (h : primitiveIntegerCheck args = .ok v) : isPlain v = true := by
  unfold primitiveIntegerCheck at h
  split at h
  · cases h
  · split at h
    · cases h
    · split at h <;> first | (cases h; rfl) | cases h

theorem primitiveEvalError_never (args v : Value) :
    primitiveEvalError args ≠ .ok v := by
  intro h
  unfold primitiveEvalError at h
  split at h
  · cases h
  · split at h <;> cases h

theorem car_fromCode (v a : Value) (h : car v = .ok a) (hv : closuresFromCode v = true) :
    closuresFromCode a = true := by
  cases v <;> simp [car] at h
  subst h
  simp only [closuresFromCode, Bool.and_eq_true] at hv
  exact hv.1

theorem cdr_fromCode (v d : Value) (h : cdr v = .ok d) (hv : closuresFromCode v = true) :
    closuresFromCode d = true := by
  cases v <;> simp [cdr] at h
  subst h
  simp only [closuresFromCode, Bool.and_eq_true] at hv
  exact hv.2

theorem car_isCode (v a : Value) (h : car v = .ok a) (hv : isCode v = true) :
    isCode a = true ∧ isNull a = false := by
  cases v <;> simp [car] at h
  subst h
  simp only [isCode_cons, Bool.and_eq_true] at hv
  exact ⟨hv.1.2, by simpa using hv.1.1⟩

theorem cdr_isCode (v d : Value) (h : cdr v = .ok d) (hv : isCode v = true) :
    isCode d = true := by
  cases v <;> simp [cdr] at h
  subst h
  simp only [isCode_cons, Bool.and_eq_true] at hv
  exact hv.2

theorem primitiveCar_fromCode (args v : Value) (h : primitiveCar args = .ok v)
    (ha : closuresFromCode args = true) : closuresFromCode v = true := by
  unfold primitiveCar at h
  split at h
  · cases h
  · split at h
    · cases h
    · split at h
      · cases h
      · rename_i hc
        split at h
        · cases h
        · exact car_fromCode _ _ h (car_fromCode _ _ hc ha)

theorem primitiveCdr_fromCode (args v : Value) (h : primitiveCdr args = .ok v)
    (ha : closuresFromCode args = true) : closuresFromCode v = true := by
  unfold primitiveCdr at h
  split at h
  · cases h
  · split at h
    · cases h
    · split at h
      · cases h
      · rename_i hc
        split at h
        · cases h
        · exact cdr_fromCode _ _ h (car_fromCode _ _ hc ha)

theorem primitiveCons_fromCode (args v : Value) (h : primitiveCons args = .ok v)
    (ha : closuresFromCode args = true) : closuresFromCode v = true := by
  unfold primitiveCons at h
  split at h
  · cases h
  · split at h
    · cases h
    · split at h
      · cases h
        simp only [closuresFromCode, Bool.and_eq_true] at ha ⊢
        exact ⟨ha.1, ha.2.1⟩
      · cases h

theorem primitiveCar_isCode (args v : Value) (h : primitiveCar args = .ok v)
    (ha : isCode args = true) : isCode v = true := by
  unfold primitiveCar at h
  split at h
  · cases h
  · split at h
    · cases h
    · split at h
      · cases h
      · rename_i hc
        split at h
        · cases h
        · exact (car_isCode _ _ h (car_isCode _ _ hc ha).1).1

theorem primitiveCdr_isCode (args v : Value) (h : primitiveCdr args = .ok v)
    (ha : isCode args = true) : isCode v = true := by
  unfold primitiveCdr at h
  split at h
  · cases h
  · split at h
    · cases h
    · split at h
      · cases h
      · rename_i hc
        split at h
        · cases h
        · exact cdr_isCode _ _ h (car_isCode _ _ hc ha).1

theorem primitiveCons_isCode (args v : Value) (h : primitiveCons args = .ok v)
    (ha : isCode args = true) : isCode v = true := by
  unfold primitiveCons at h
  split at h
  · cases h
  · split at h
    · cases h
    · split at h
      · cases h
        simp only [isCode_cons, Bool.and_eq_true] at ha ⊢
        exact ⟨⟨ha.1.1, ha.1.2⟩, ha.2.1.2⟩
      · cases h

theorem primitiveLoad_isCode (fs : String → Option (List Value)) (hfs : TokenFiles fs)
    (args v : Value) (h : primitiveLoad fs args = .ok v) : isCode v = true := by
  unfold primitiveLoad at h
  split at h
  · cases h
  · split at h
    · cases h
    · split at h
      · cases h
      · rename_i list hl
        split at h
        · rename_i tree hp
          cases h
          exact parse_isCode list _ (hfs _ _ hl) hp
        · cases h
        · cases h

theorem applyLeading_fromCode (rest : Value) : ∀ (arguments cur acc : Value),
    applyLeading rest arguments = .ok (cur, acc) →
    closuresFromCode rest = true → closuresFromCode arguments = true →
    closuresFromCode cur = true ∧ closuresFromCode acc = true := by
  induction rest with
  | cons a d _ ihd =>
    intro arguments cur acc h hr ha
    simp only [closuresFromCode, Bool.and_eq_true] at hr
    unfold applyLeading at h
    split at h
    · cases h
      exact ⟨by simp [closuresFromCode, hr.1], ha⟩
    · exact ihd _ _ _ h hr.2 (by simp [closuresFromCode, hr.1, ha])
  | _ => intro arguments cur acc h; simp [applyLeading] at h

theorem applySpread_fromCode (last : Value) : ∀ (arguments r : Value),
    applySpread last arguments = .ok r →
    closuresFromCode last = true → closuresFromCode arguments = true →
    closuresFromCode r = true := by
  induction last with
  | null => intro arguments r h _ ha; simp [applySpread] at h; subst h; exact ha
  | cons a d _ ihd =>
    intro arguments r h hl ha
    simp only [closuresFromCode, Bool.and_eq_true] at hl
    unfold applySpread at h
    exact ihd _ _ h hl.2 (by simp [closuresFromCode, hl.1, ha])
  | _ => intro arguments r h; simp [applySpread] at h

theorem heapFromCode_allocFrame (h : Heap) (parent : Option Nat)
    (hd : HeapFromCode h) : HeapFromCode (allocFrame h parent).2 := by
  intro i fr hfr
  simp only [allocFrame] at hfr
  by_cases hi : i < h.length
  · rw [List.getElem?_append_left hi] at hfr
    exact hd i fr hfr
  · rw [List.getElem?_append_right (by omega)] at hfr
    cases hj : i - h.length with
    | zero => simp [hj] at hfr; subst hfr; simp
    | succ j => simp [hj] at hfr

theorem primitiveApply_fromCode (app : Ap) (happ : ApFromCode app) (args : Value)
    (h : Heap) (v : Value) (h1 : Heap)
    (hi : primitiveApply app args h = .ok (v, h1))
    (ha : closuresFromCode args = true) (hd : HeapFromCode h) :
    closuresFromCode v = true ∧ HeapFromCode h1 := by
  unfold primitiveApply at hi
  split at hi
  · simp only [closuresFromCode, Bool.and_eq_true] at ha
    split at hi
    · cases hi
    · rename_i hl
      obtain ⟨hc, hacc⟩ := applyLeading_fromCode _ _ _ _ hl ha.2 rfl
      split at hi
      · cases hi
      · split at hi
        · cases hi
        · rename_i hcar
          split at hi
          · cases hi
          · rename_i hs
            exact happ.1 _ _ _ _ _ _ ha.1
              (applySpread_fromCode _ _ _ hs (car_fromCode _ _ hcar hc) hacc)
              (heapFromCode_allocFrame _ _ hd) hi
  · cases hi

theorem primitiveApply_code_never (app : Ap) (happ : ApFromCode app) (args : Value)
    (h : Heap) (r : Value × Heap) (ha : isCode args = true) :
    primitiveApply app args h ≠ .ok r := by
  intro hi
  unfold primitiveApply at hi
  split at hi
  · simp only [isCode_cons, Bool.and_eq_true] at ha
    split at hi
    · cases hi
    · split at hi
      · cases hi
      · split at hi
        · cases hi
        · split at hi
          · cases hi
          · exact happ.2 _ _ _ _ _ ha.1.2 hi
  · cases hi

theorem map_ok (r : Res Value) (h : Heap) (v : Value) (h1 : Heap)
    (hi : r.map (fun v => (v, h)) = .ok (v, h1)) : r = .ok v ∧ h1 = h := by
  cases r with
  | error e => cases hi
  | ok a =>
    simp only [Except.map, Except.ok.injEq, Prod.mk.injEq] at hi
    exact ⟨by rw [hi.1], hi.2.symm⟩

theorem isPlain_fromCode (v : Value) (h : isPlain v = true) :
    closuresFromCode v = true :=
  isCode_closuresFromCode v (isPlain_isCode v h)

theorem callPrimitive_fromCode (fs : String → Option (List Value)) (hfs : TokenFiles fs)
    (app : Ap) (happ : ApFromCode app) (pf : Prim) (args : Value) (h : Heap) (v : Value)
    (h1 : Heap) (hi : callPrimitive fs app pf args h = .ok (v, h1))
    (ha : closuresFromCode args = true) (hd : HeapFromCode h) :
    closuresFromCode v = true ∧ HeapFromCode h1 := by
  cases pf <;> simp only [callPrimitive] at hi
  case primitiveApply => exact primitiveApply_fromCode app happ _ _ _ _ hi ha hd
  all_goals
    obtain ⟨hr, hh⟩ := map_ok _ _ _ _ hi
    subst hh
    refine ⟨?_, hd⟩
  all_goals first
    | exact isPlain_fromCode _ (primitiveAdd_plain _ _ hr)
    | exact isPlain_fromCode _ (primitiveMult_plain _ _ hr)
    | exact isPlain_fromCode _ (primitiveSub_plain _ _ hr)
    | exact isPlain_fromCode _ (primitiveDiv_plain _ _ hr)
    | exact isPlain_fromCode _ (primitiveLeq_plain _ _ hr)
    | exact isPlain_fromCode _ (primitiveIsEq_plain _ _ hr)
    | exact isPlain_fromCode _ (primitiveIsPair_plain _ _ hr)
    | exact isPlain_fromCode _ (primitiveIsNull_plain _ _ hr)
    | exact primitiveCar_fromCode _ _ hr ha
    | exact primitiveCdr_fromCode _ _ hr ha
    | exact primitiveCons_fromCode _ _ hr ha
    | exact isCode_closuresFromCode _ (primitiveLoad_isCode fs hfs _ _ hr)
    | exact isPlain_fromCode _ (primitiveNumberCheck_plain _ _ hr)
    | exact absurd hr (primitiveEvalError_never _ _)
    | exact isPlain_fromCode _ (primitiveIntegerCheck_plain _ _ hr)

theorem callPrimitive_isCode (fs : String → Option (List Value)) (hfs : TokenFiles fs)
    (app : Ap) (happ : ApFromCode app) (pf : Prim) (args : Value) (h : Heap) (v : Value)
    (h1 : Heap) (hi : callPrimitive fs app pf args h = .ok (v, h1))
    (ha : isCode args = true) :
    isCode v = true ∧ h1 = h := by
  cases pf <;> simp only [callPrimitive] at hi
  case primitiveApply => exact absurd hi (primitiveApply_code_never app happ _ _ _ ha)
  all_goals
    obtain ⟨hr, hh⟩ := map_ok _ _ _ _ hi
    refine ⟨?_, hh⟩
  all_goals first
    | exact isPlain_isCode _ (primitiveAdd_plain _ _ hr)
    | exact isPlain_isCode _ (primitiveMult_plain _ _ hr)
    | exact isPlain_isCode _ (primitiveSub_plain _ _ hr)
    | exact isPlain_isCode _ (primitiveDiv_plain _ _ hr)
    | exact isPlain_isCode _ (primitiveLeq_plain _ _ hr)
    | exact isPlain_isCode _ (primitiveIsEq_plain _ _ hr)
    | exact isPlain_isCode _ (primitiveIsPair_plain _ _ hr)
    | exact isPlain_isCode _ (primitiveIsNull_plain _ _ hr)
    | exact primitiveCar_isCode _ _ hr ha
    | exact primitiveCdr_isCode _ _ hr ha
    | exact primitiveCons_isCode _ _ hr ha
    | exact primitiveLoad_isCode fs hfs _ _ hr
    | exact isPlain_isCode _ (primitiveNumberCheck_plain _ _ hr)
    | exact absurd hr (primitiveEvalError_never _ _)
    | exact isPlain_isCode _ (primitiveIntegerCheck_plain _ _ hr)

theorem isCode_parts (a d : Value) (h : isCode (.cons a d) = true) :
    isCode a = true ∧ isNull a = false ∧ isCode d = true := by
  simp only [isCode_cons, Bool.and_eq_true] at h
  exact ⟨h.1.2, by simpa using h.1.1, h.2⟩

theorem heapFromCode_setBindings (h : Heap) (frame : Nat) (bs : List (Value × Value))
    (hd : HeapFromCode h) (hbs : ∀ b ∈ bs, closuresFromCode b.2 = true) :
    HeapFromCode (setBindings h frame bs) := by
  intro i fr hfr
  by_cases hi : i = frame
  · subst hi
    cases hf : h[i]? with
    | none => simp [setBindings, hf] at hfr
    | some fr0 =>
      rw [getElem?_setBindings_self h i fr0 bs hf] at hfr
      cases hfr
      exact hbs
  · rw [getElem?_setBindings_other h frame i bs hi] at hfr
    exact hd i fr hfr

theorem lookUpBindings_mem (s : String) (bs : List (Value × Value)) (v : Value)
    (h : lookUpBindings s bs = .ok (some v)) : ∃ b ∈ bs, b.2 = v := by
  induction bs with
  | nil => simp [lookUpBindings] at h
  | cons b bs ih =>
    obtain ⟨name, value⟩ := b
    by_cases hn : name = .null
    · subst hn; simp [lookUpBindings] at h
    · have hstep : lookUpBindings s ((name, value) :: bs) =
          (match strField name with
            | .error e => .error e
            | .ok t => if t = s then .ok (some value) else lookUpBindings s bs) := by
        cases name <;> first | rfl | exact absurd rfl hn
      rw [hstep] at h
      split at h
      · cases h
      · split at h
        · simp only [Except.ok.injEq, Option.some.injEq] at h
          exact ⟨(name, value), by simp, h⟩
        · obtain ⟨b, hb, hv⟩ := ih h
          exact ⟨b, by simp [hb], hv⟩

theorem lookUpFrames_fromCode (s : String) (h : Heap) (hd : HeapFromCode h) :
    ∀ (fuel : Nat) (cur : Option Nat) (v : Value),
    lookUpFrames s h fuel cur = .ok v → closuresFromCode v = true := by
  intro fuel
  induction fuel with
  | zero => intro cur v hl; cases cur <;> simp [lookUpFrames] at hl
  | succ n ih =>
    intro cur v hl
    cases cur with
    | none => simp [lookUpFrames] at hl
    | some f =>
      simp only [lookUpFrames] at hl
      split at hl
      · cases hl
      · rename_i fr hf
        split at hl
        · cases hl
        · rename_i value hb
          cases hl
          obtain ⟨b, hbm, hbv⟩ := lookUpBindings_mem _ _ _ hb
          rw [← hbv]
          exact hd _ _ (getFrame_ok _ _ _ hf) b hbm
        · exact ih _ _ hl

theorem lookUpSymbol_fromCode (expr : Value) (frame : Nat) (h : Heap) (v : Value)
    (hd : HeapFromCode h) (hl : lookUpSymbol expr frame h = .ok v) :
    closuresFromCode v = true := by
  unfold lookUpSymbol at hl
  split at hl
  · cases hl
  · exact lookUpFrames_fromCode _ _ hd _ _ _ hl

theorem addBindingLocal_fromCode (var expr : Value) (frame : Nat) (h h1 : Heap)
    (ha : addBindingLocal var expr frame h = .ok h1) (hd : HeapFromCode h)
    (he : closuresFromCode expr = true) : HeapFromCode h1 := by
  unfold addBindingLocal at ha
  split at ha
  · cases ha
  · cases ha
  · split at ha
    · cases ha
    · rename_i fr hf
      cases ha
      apply heapFromCode_setBindings _ _ _ hd
      intro b hb
      rcases List.mem_cons.1 hb with hb | hb
      · subst hb; exact he
      · exact hd _ _ (getFrame_ok _ _ _ hf) b hb

theorem mem_updateBindingAt (bs : List (Value × Value)) (i : Nat) (expr : Value)
    (b : Value × Value) (hb : b ∈ updateBindingAt bs i expr) : b ∈ bs ∨ b.2 = expr := by
  unfold updateBindingAt at hb
  split at hb
  · rcases List.mem_or_eq_of_mem_set hb with h | h
    · exact Or.inl h
    · right; rw [h]
  · exact Or.inl hb

theorem addBindingGlobal_fromCode (var expr : Value) (frame : Nat) (h h1 : Heap)
    (ha : addBindingGlobal var expr frame h = .ok h1) (hd : HeapFromCode h)
    (he : closuresFromCode expr = true) : HeapFromCode h1 := by
  unfold addBindingGlobal at ha
  split at ha
  · cases ha
  · split at ha
    · cases ha
    · rename_i fr hf
      cases ha
      apply heapFromCode_setBindings _ _ _ hd
      intro b hb
      rcases mem_updateBindingAt _ _ _ _ hb with hb | hb
      · exact hd _ _ (getFrame_ok _ _ _ hf) b hb
      · rw [hb]; exact he
  · split at ha
    · cases ha
    · rename_i fr hf
      cases ha
      apply heapFromCode_setBindings _ _ _ hd
      intro b hb
      rcases List.mem_cons.1 hb with hb | hb
      · subst hb; exact he
      · exact hd _ _ (getFrame_ok _ _ _ hf) b hb

theorem rebuildBindings_fromCode (s : String) (newValue : Value)
    (hv : closuresFromCode newValue = true) :
    ∀ (bs acc r : List (Value × Value)),
    rebuildBindings s newValue bs acc = .ok r →
    (∀ b ∈ bs, closuresFromCode b.2 = true) → (∀ b ∈ acc, closuresFromCode b.2 = true) →
    ∀ b ∈ r, closuresFromCode b.2 = true := by
  intro bs
  induction bs with
  | nil => intro acc r h _ hacc; simp [rebuildBindings] at h; subst h; exact hacc
  | cons b bs ih =>
    intro acc r h hbs hacc
    obtain ⟨name, value⟩ := b
    have hrest : ∀ b ∈ bs, closuresFromCode b.2 = true := fun b hb => hbs b (by simp [hb])
    cases name <;> simp only [rebuildBindings] at h <;> try cases h
    split at h
    · refine ih _ _ h hrest ?_
      intro b hb
      rcases List.mem_cons.1 hb with hb | hb
      · subst hb; exact hv
      · exact hacc b hb
    · refine ih _ _ h hrest ?_
      intro b hb
      rcases List.mem_cons.1 hb with hb | hb
      · subst hb; exact hbs _ (by simp)
      · exact hacc b hb

theorem evalTestIsFalse_fromCode (ev : Ev) (hev : EvFromCode ev) (test : Value)
    (frame : Nat) (h h1 : Heap) (b : Bool) (hc : isCode test = true)
    (hd : HeapFromCode h) (ht : evalTestIsFalse ev test frame h = .ok (b, h1)) :
    HeapFromCode h1 := by
  unfold evalTestIsFalse at ht
  split at ht
  · cases ht
  · rename_i he
    have hd2 := (hev _ _ _ _ _ hc hd he).2
    split at ht
    · split at ht
      · cases ht
      · rename_i he2
        have hd3 := (hev _ _ _ _ _ hc hd2 he2).2
        split at ht
        · cases ht
        · cases ht; exact hd3
    · cases ht; exact hd2

theorem evalBody_fromCode (ev : Ev) (hev : EvFromCode ev) (body : Value) :
    ∀ (frame : Nat) (h : Heap) (v : Value) (h1 : Heap),
    isCode body = true → HeapFromCode h → evalBody ev body frame h = .ok (v, h1) →
    closuresFromCode v = true ∧ HeapFromCode h1 := by
  induction body with
  | cons e rest _ ih =>
    intro frame h v h1 hc hd hb
    obtain ⟨hce, -, hcr⟩ := isCode_parts _ _ hc
    unfold evalBody at hb
    split at hb
    · exact hev _ _ _ _ _ hce hd hb
    · split at hb
      · cases hb
      · rename_i he
        exact ih _ _ _ _ hcr (hev _ _ _ _ _ hce hd he).2 hb
  | _ => intro frame h v h1 _ _ hb; simp [evalBody] at hb

theorem evalIf_fromCode (ev : Ev) (hev : EvFromCode ev) (args : Value) (frame : Nat)
    (h : Heap) (v : Value) (h1 : Heap) (hc : isCode args = true) (hd : HeapFromCode h)
    (hi : evalIf ev args frame h = .ok (v, h1)) :
    closuresFromCode v = true ∧ HeapFromCode h1 := by
  unfold evalIf at hi
  split at hi
  · cases hi
  · split at hi
    · cases hi
    · split at hi
      · obtain ⟨hct, -, hc2⟩ := isCode_parts _ _ hc
        obtain ⟨hcc, -, hcr⟩ := isCode_parts _ _ hc2
        split at hi
        · cases hi
        · rename_i ht
          have hd2 := evalTestIsFalse_fromCode ev hev _ _ _ _ _ hct hd ht
          split at hi
          · split at hi
            · cases hi
            · rename_i hcar
              exact hev _ _ _ _ _ (car_isCode _ _ hcar hcr).1 hd2 hi
          · cases hi; exact ⟨rfl, hd2⟩
        · rename_i ht
          exact hev _ _ _ _ _ hcc
            (evalTestIsFalse_fromCode ev hev _ _ _ _ _ hct hd ht) hi
      · cases hi

theorem evalAndLoop_fromCode (ev : Ev) (hev : EvFromCode ev) (args : Value) :
    ∀ (frame : Nat) (h : Heap) (v : Value) (h1 : Heap),
    isCode args = true → HeapFromCode h → evalAndLoop ev args frame h = .ok (v, h1) →
    closuresFromCode v = true ∧ HeapFromCode h1 := by
  induction args with
  | cons e rest _ ih =>
    intro frame h v h1 hc hd hb
    obtain ⟨hce, -, hcr⟩ := isCode_parts _ _ hc
    unfold evalAndLoop at hb
    split at hb
    · exact hev _ _ _ _ _ hce hd hb
    · split at hb
      · cases hb
      · rename_i he
        have hd2 := (hev _ _ _ _ _ hce hd he).2
        split at hb
        · cases hb; exact ⟨rfl, hd2⟩
        · exact ih _ _ _ _ hcr hd2 hb
  | _ => intro frame h v h1 _ _ hb; simp [evalAndLoop] at hb

theorem evalOrLoop_fromCode (ev : Ev) (hev : EvFromCode ev) (args : Value) :
    ∀ (frame : Nat) (h : Heap) (v : Value) (h1 : Heap),
    isCode args = true → HeapFromCode h → evalOrLoop ev args frame h = .ok (v, h1) →
    closuresFromCode v = true ∧ HeapFromCode h1 := by
  induction args with
  | cons e rest _ ih =>
    intro frame h v h1 hc hd hb
    obtain ⟨hce, -, hcr⟩ := isCode_parts _ _ hc
    unfold evalOrLoop at hb
    split at hb
    · exact hev _ _ _ _ _ hce hd hb
    · split at hb
      · cases hb
      · rename_i he
        have hr := hev _ _ _ _ _ hce hd he
        split at hb
        · cases hb; exact hr
        · exact ih _ _ _ _ hcr hr.2 hb
  | _ => intro frame h v h1 _ _ hb; simp [evalOrLoop] at hb

theorem evalAnd_fromCode (ev : Ev) (hev : EvFromCode ev) (args : Value) (frame : Nat)
    (h : Heap) (v : Value) (h1 : Heap) (hc : isCode args = true) (hd : HeapFromCode h)
    (hi : evalAnd ev args frame h = .ok (v, h1)) :
    closuresFromCode v = true ∧ HeapFromCode h1 := by
  unfold evalAnd at hi
  split at hi
  · cases hi
  · split at hi
    · cases hi; exact ⟨rfl, hd⟩
    · exact evalAndLoop_fromCode ev hev _ _ _ _ _ hc hd hi

theorem evalOr_fromCode (ev : Ev) (hev : EvFromCode ev) (args : Value) (frame : Nat)
    (h : Heap) (v : Value) (h1 : Heap) (hc : isCode args = true) (hd : HeapFromCode h)
    (hi : evalOr ev args frame h = .ok (v, h1)) :
    closuresFromCode v = true ∧ HeapFromCode h1 := by
  unfold evalOr at hi
  split at hi
  · cases hi
  · split at hi
    · cases hi; exact ⟨rfl, hd⟩
    · exact evalOrLoop_fromCode ev hev _ _ _ _ _ hc hd hi

theorem evalBegin_fromCode (ev : Ev) (hev : EvFromCode ev) (args : Value) (frame : Nat)
    (h : Heap) (v : Value) (h1 : Heap) (hc : isCode args = true) (hd : HeapFromCode h)
    (hi : evalBegin ev args frame h = .ok (v, h1)) :
    closuresFromCode v = true ∧ HeapFromCode h1 := by
  unfold evalBegin at hi
  split at hi
  · cases hi; exact ⟨rfl, hd⟩
  · exact evalBody_fromCode ev hev _ _ _ _ _ hc hd hi
  · cases hi

theorem evalLetBindings_fromCode (ev : Ev) (hev : EvFromCode ev) (cur : Value) :
    ∀ (evalFrame frameG : Nat) (h h1 : Heap),
    isCode cur = true → HeapFromCode h →
    evalLetBindings ev cur evalFrame frameG h = .ok h1 → HeapFromCode h1 := by
  induction cur with
  | null => intro _ _ h h1 _ hd hb; simp [evalLetBindings] at hb; subst hb; exact hd
  | cons b rest _ ih =>
    intro evalFrame frameG h h1 hc hd hb
    obtain ⟨hcb, -, hcr⟩ := isCode_parts _ _ hc
    cases b with
    | cons name tl =>
      cases tl with
      | cons e tl2 =>
        obtain ⟨-, -, hctl⟩ := isCode_parts _ _ hcb
        obtain ⟨hce, -, -⟩ := isCode_parts _ _ hctl
        simp only [evalLetBindings] at hb
        split at hb
        · cases hb
        · split at hb
          · cases hb
          · split at hb
            · cases hb
            · split at hb
              · cases hb
              · rename_i he
                have hr := hev _ _ _ _ _ hce hd he
                split at hb
                · cases hb
                · split at hb
                  · cases hb
                  · rename_i ha
                    exact ih _ _ _ _ hcr
                      (addBindingLocal_fromCode _ _ _ _ _ ha hr.2 hr.1) hb
      | _ => simp [evalLetBindings, isConsType, length] at hb
    | _ => simp [evalLetBindings, isConsType] at hb
  | _ => intro _ _ h h1 _ _ hb; simp [evalLetBindings] at hb

theorem evalLet_fromCode (ev : Ev) (hev : EvFromCode ev) (args : Value) (frame : Nat)
    (h : Heap) (v : Value) (h1 : Heap) (hc : isCode args = true) (hd : HeapFromCode h)
    (hi : evalLet ev args frame h = .ok (v, h1)) :
    closuresFromCode v = true ∧ HeapFromCode h1 := by
  unfold evalLet at hi
  split at hi
  · obtain ⟨hcc, -, hcb⟩ := isCode_parts _ _ hc
    split at hi
    · cases hi
    · split at hi
      · cases hi
      · split at hi
        · cases hi
        · rename_i hb
          exact evalBody_fromCode ev hev _ _ _ _ _ hcb
            (evalLetBindings_fromCode ev hev _ _ _ _ _ hcc
              (heapFromCode_allocFrame _ _ hd) hb) hi
  · cases hi

theorem evalLetrec_fromCode (ev : Ev) (hev : EvFromCode ev) (args : Value) (frame : Nat)
    (h : Heap) (v : Value) (h1 : Heap) (hc : isCode args = true) (hd : HeapFromCode h)
    (hi : evalLetrec ev args frame h = .ok (v, h1)) :
    closuresFromCode v = true ∧ HeapFromCode h1 := by
  unfold evalLetrec at hi
  split at hi
  · obtain ⟨hcc, -, hcb⟩ := isCode_parts _ _ hc
    split at hi
    · cases hi
    · split at hi
      · cases hi
      · split at hi
        · cases hi
        · rename_i hb
          exact evalBody_fromCode ev hev _ _ _ _ _ hcb
            (evalLetBindings_fromCode ev hev _ _ _ _ _ hcc
              (heapFromCode_allocFrame _ _ hd) hb) hi
  · cases hi

theorem evalLetstarBindings_fromCode (ev : Ev) (hev : EvFromCode ev) (cur : Value) :
    ∀ (lastFrame : Nat) (h : Heap) (last1 : Nat) (h1 : Heap),
    isCode cur = true → HeapFromCode h →
    evalLetstarBindings ev cur lastFrame h = .ok (last1, h1) → HeapFromCode h1 := by
  induction cur with
  | null =>
    intro _ h _ h1 _ hd hb
    simp [evalLetstarBindings] at hb
    rw [← hb.2]; exact hd
  | cons b rest _ ih =>
    intro lastFrame h last1 h1 hc hd hb
    obtain ⟨hcb, -, hcr⟩ := isCode_parts _ _ hc
    cases b with
    | cons name tl =>
      cases tl with
      | cons e tl2 =>
        obtain ⟨-, -, hctl⟩ := isCode_parts _ _ hcb
        obtain ⟨hce, -, -⟩ := isCode_parts _ _ hctl
        simp only [evalLetstarBindings] at hb
        split at hb
        · cases hb
        · split at hb
          · cases hb
          · split at hb
            · cases hb
            · split at hb
              · cases hb
              · rename_i he
                have hr := hev _ _ _ _ _ hce (heapFromCode_allocFrame _ _ hd) he
                split at hb
                · cases hb
                · split at hb
                  · cases hb
                  · rename_i ha
                    exact ih _ _ _ _ hcr
                      (addBindingLocal_fromCode _ _ _ _ _ ha hr.2 hr.1) hb
      | _ => simp [evalLetstarBindings, isConsType, length] at hb
    | _ => simp [evalLetstarBindings, isConsType] at hb
  | _ => intro _ h _ h1 _ _ hb; simp [evalLetstarBindings] at hb

theorem evalLetstar_fromCode (ev : Ev) (hev : EvFromCode ev) (args : Value) (frame : Nat)
    (h : Heap) (v : Value) (h1 : Heap) (hc : isCode args = true) (hd : HeapFromCode h)
    (hi : evalLetstar ev args frame h = .ok (v, h1)) :
    closuresFromCode v = true ∧ HeapFromCode h1 := by
  unfold evalLetstar at hi
  split at hi
  · obtain ⟨hcc, -, hcb⟩ := isCode_parts _ _ hc
    split at hi
    · cases hi
    · split at hi
      · cases hi
      · split at hi
        · cases hi
        · rename_i hb
          exact evalBody_fromCode ev hev _ _ _ _ _ hcb
            (evalLetstarBindings_fromCode ev hev _ _ _ _ _ hcc hd hb) hi
  · cases hi

theorem evalCond_fromCode (ev : Ev) (hev : EvFromCode ev) (clauses : Value) :
    ∀ (frame : Nat) (h : Heap) (v : Value) (h1 : Heap),
    isCode clauses = true → HeapFromCode h → evalCond ev clauses frame h = .ok (v, h1) →
    closuresFromCode v = true ∧ HeapFromCode h1 := by
  induction clauses with
  | null => intro _ h v h1 _ hd hb; simp [evalCond] at hb; rw [← hb.1, ← hb.2]; exact ⟨rfl, hd⟩
  | cons c rest _ ih =>
    intro frame h v h1 hc hd hb
    obtain ⟨hcc, -, hcr⟩ := isCode_parts _ _ hc
    unfold evalCond at hb
    split at hb
    · obtain ⟨hct, -, hcb⟩ := isCode_parts _ _ hcc
      split at hb
      · split at hb
        · exact evalBody_fromCode ev hev _ _ _ _ _ hcb hd hb
        · cases hb
      · split at hb
        · cases hb
        · rename_i ht
          exact evalBody_fromCode ev hev _ _ _ _ _ hcb
            (evalTestIsFalse_fromCode ev hev _ _ _ _ _ hct hd ht) hb
        · rename_i ht
          exact ih _ _ _ _ hcr (evalTestIsFalse_fromCode ev hev _ _ _ _ _ hct hd ht) hb
    · cases hb
  | _ => intro _ h v h1 _ _ hb; simp [evalCond] at hb

theorem evalDefine_fromCode (ev : Ev) (hev : EvFromCode ev) (args : Value) (frame : Nat)
    (h : Heap) (v : Value) (h1 : Heap) (hc : isCode args = true) (hd : HeapFromCode h)
    (hi : evalDefine ev args frame h = .ok (v, h1)) :
    closuresFromCode v = true ∧ HeapFromCode h1 := by
  unfold evalDefine at hi
  split at hi
  · cases hi
  · split at hi
    · cases hi
    · split at hi
      · cases hi
      · split at hi
        · cases hi
        · split at hi
          · cases hi
          · split at hi
            · cases hi
            · split at hi
              · obtain ⟨-, -, hc2⟩ := isCode_parts _ _ hc
                obtain ⟨hce, -, -⟩ := isCode_parts _ _ hc2
                split at hi
                · cases hi
                · rename_i he
                  have hr := hev _ _ _ _ _ hce hd he
                  split at hi
                  · cases hi
                  · rename_i ha
                    cases hi
                    exact ⟨rfl, addBindingGlobal_fromCode _ _ _ _ _ ha hr.2 hr.1⟩
              · cases hi

theorem evalSet_fromCode (ev : Ev) (hev : EvFromCode ev) (args : Value) (frame : Nat)
    (h : Heap) (v : Value) (h1 : Heap) (hc : isCode args = true) (hd : HeapFromCode h)
    (hi : evalSet ev args frame h = .ok (v, h1)) :
    closuresFromCode v = true ∧ HeapFromCode h1 := by
  unfold evalSet at hi
  split at hi
  · cases hi
  · split at hi
    · cases hi
    · split at hi
      · cases hi
      · split at hi
        · cases hi
        · split at hi
          · cases hi
          · split at hi
            · obtain ⟨-, -, hc2⟩ := isCode_parts _ _ hc
              obtain ⟨hce, -, -⟩ := isCode_parts _ _ hc2
              split at hi
              · cases hi
              · rename_i he
                have hr := hev _ _ _ _ _ hce hd he
                split at hi
                · cases hi
                · rename_i fr hf
                  split at hi
                  · cases hi
                  · rename_i newBindings hrb
                    cases hi
                    refine ⟨rfl, heapFromCode_setBindings _ _ _ hr.2 ?_⟩
                    exact rebuildBindings_fromCode _ _ hr.1 _ _ _ hrb
                      (hr.2 _ _ (getFrame_ok _ _ _ hf)) (by simp)
            · cases hi

theorem evalLoadLoop_fromCode (ev : Ev) (hev : EvFromCode ev) (tree : Value) :
    ∀ (frame : Nat) (h h1 : Heap),
    isCode tree = true → HeapFromCode h →
    evalLoadLoop ev tree frame h = .ok h1 → HeapFromCode h1 := by
  induction tree with
  | cons e rest _ ih =>
    intro frame h h1 hc hd hb
    obtain ⟨hce, -, hcr⟩ := isCode_parts _ _ hc
    unfold evalLoadLoop at hb
    split at hb
    · cases hb
    · rename_i he
      exact ih _ _ _ hcr (hev _ _ _ _ _ hce hd he).2 hb
  | _ => intro frame h h1 _ hd hb; simp [evalLoadLoop] at hb; subst hb; exact hd

theorem evalOperands_fromCode (ev : Ev) (hev : EvFromCode ev) (expr : Value) :
    ∀ (values : Value) (frame : Nat) (h : Heap) (vs : Value) (h1 : Heap),
    isCode expr = true → closuresFromCode values = true → HeapFromCode h →
    evalOperands ev expr values frame h = .ok (vs, h1) →
    closuresFromCode vs = true ∧ HeapFromCode h1 := by
  induction expr with
  | null =>
    intro values _ h vs h1 _ hv hd hb
    simp [evalOperands] at hb
    rw [← hb.1, ← hb.2]; exact ⟨hv, hd⟩
  | cons e rest _ ih =>
    intro values frame h vs h1 hc hv hd hb
    obtain ⟨hce, -, hcr⟩ := isCode_parts _ _ hc
    unfold evalOperands at hb
    split at hb
    · cases hb
    · rename_i he
      have hr := hev _ _ _ _ _ hce hd he
      exact ih _ _ _ _ _ hcr (by simp [closuresFromCode, hr.1, hv]) hr.2 hb
  | _ => intro _ _ h vs h1 _ _ _ hb; simp [evalOperands] at hb

theorem reverseOnto_fromCode (list : Value) : ∀ (acc r : Value),
    reverseOnto list acc = .ok r →
    closuresFromCode list = true → closuresFromCode acc = true →
    closuresFromCode r = true := by
  induction list with
  | null => intro acc r h _ ha; simp [reverseOnto] at h; subst h; exact ha
  | cons a d _ ihd =>
    intro acc r h hl ha
    simp only [closuresFromCode, Bool.and_eq_true] at hl
    unfold reverseOnto at h
    exact ihd _ _ h hl.2 (by simp [closuresFromCode, hl.1, ha])
  | _ => intro acc r h; simp [reverseOnto] at h

theorem bindFormals_fromCode (formal : Value) :
    ∀ (actual : Value) (newFrame : Nat) (h h1 : Heap),
    closuresFromCode actual = true → HeapFromCode h →
    bindFormals formal actual newFrame h = .ok h1 → HeapFromCode h1 := by
  induction formal with
  | null => intro _ _ h h1 _ hd hb; simp [bindFormals] at hb; subst hb; exact hd
  | cons f rest _ ih =>
    intro actual newFrame h h1 ha hd hb
    unfold bindFormals at hb
    split at hb
    · simp only [closuresFromCode, Bool.and_eq_true] at ha
      split at hb
      · cases hb
      · rename_i hadd
        exact ih _ _ _ _ ha.2 (addBindingLocal_fromCode _ _ _ _ _ hadd hd ha.1) hb
    · cases hb
  | _ => intro _ _ h h1 _ _ hb; simp [bindFormals] at hb

theorem evalLambda_fromCode (args : Value) (frame : Nat) (v : Value)
    (hc : isCode args = true) (hl : evalLambda args frame = .ok v) :
    closuresFromCode v = true := by
  unfold evalLambda at hl
  split at hl
  · cases hl
  · split at hl
    · cases hl
    · split at hl
      · obtain ⟨-, hn, hcb⟩ := isCode_parts _ _ hc
        split at hl
        · cases hl
        · cases hl
        · split at hl
          · cases hl
          · cases hl
          · cases hl
            simp [closuresFromCode, hn, hcb]
      · cases hl

theorem applyStep_fromCode (fs : String → Option (List Value)) (hfs : TokenFiles fs)
    (ev : Ev) (app : Ap) (hev : EvFromCode ev) (happ : ApFromCode app) :
    ApFromCode (applyStep fs ev app) := by
  constructor
  · intro function args frame h v h1 hf ha hd hi
    unfold applyStep at hi
    split at hi
    · exact callPrimitive_fromCode fs hfs app happ _ _ _ _ _ hi ha hd
    · simp only [closuresFromCode, Bool.and_eq_true] at hf
      split at hi
      · split at hi
        · split at hi
          · cases hi
          · split at hi
            · cases hi
            · rename_i hb
              exact evalBody_fromCode ev hev _ _ _ _ _ hf.2
                (bindFormals_fromCode _ _ _ _ _ ha (heapFromCode_allocFrame _ _ hd) hb) hi
        · cases hi
      · split at hi
        · cases hi
        · rename_i hadd
          exact evalBody_fromCode ev hev _ _ _ _ _ hf.2
            (addBindingLocal_fromCode _ _ _ _ _ hadd (heapFromCode_allocFrame _ _ hd) ha) hi
    · cases hi
  · intro function args frame h r hc hi
    cases function <;> simp [isCode] at hc <;> simp [applyStep] at hi

theorem evalStep_fromCode (fs : String → Option (List Value)) (hfs : TokenFiles fs)
    (ev : Ev) (app : Ap) (hev : EvFromCode ev) (happ : ApFromCode app) :
    EvFromCode (evalStep fs ev app) := by
  intro expr frame h v h1 hc hd hi
  cases expr with
  | cons first args =>
    obtain ⟨hcf, -, hca⟩ := isCode_parts _ _ hc
    simp only [evalStep] at hi
    cases hn : headName first with
    | error e => simp [hn] at hi
    | ok name =>
      simp only [hn] at hi
      by_cases c1 : name = some "if"
      · rw [if_pos c1] at hi; exact evalIf_fromCode ev hev _ _ _ _ _ hca hd hi
      rw [if_neg c1] at hi
      by_cases c2 : name = some "quote"
      · rw [if_pos c2] at hi
        split at hi
        · cases hi
        · split at hi
          · cases hi
          · split at hi
            · cases hi
            · rename_i hcar
              cases hi
              exact ⟨isCode_closuresFromCode _ (car_isCode _ _ hcar hca).1, hd⟩
      rw [if_neg c2] at hi
      by_cases c3 : name = some "and"
      · rw [if_pos c3] at hi; exact evalAnd_fromCode ev hev _ _ _ _ _ hca hd hi
      rw [if_neg c3] at hi
      by_cases c4 : name = some "or"
      · rw [if_pos c4] at hi; exact evalOr_fromCode ev hev _ _ _ _ _ hca hd hi
      rw [if_neg c4] at hi
      by_cases c5 : name = some "begin"
      · rw [if_pos c5] at hi; exact evalBegin_fromCode ev hev _ _ _ _ _ hca hd hi
      rw [if_neg c5] at hi
      by_cases c6 : name = some "cond"
      · rw [if_pos c6] at hi; exact evalCond_fromCode ev hev _ _ _ _ _ hca hd hi
      rw [if_neg c6] at hi
      by_cases c7 : name = some "let"
      · rw [if_pos c7] at hi; exact evalLet_fromCode ev hev _ _ _ _ _ hca hd hi
      rw [if_neg c7] at hi
      by_cases c8 : name = some "letrec"
      · rw [if_pos c8] at hi; exact evalLetrec_fromCode ev hev _ _ _ _ _ hca hd hi
      rw [if_neg c8] at hi
      by_cases c9 : name = some "let*"
      · rw [if_pos c9] at hi; exact evalLetstar_fromCode ev hev _ _ _ _ _ hca hd hi
      rw [if_neg c9] at hi
      by_cases c10 : name = some "define"
      · rw [if_pos c10] at hi; exact evalDefine_fromCode ev hev _ _ _ _ _ hca hd hi
      rw [if_neg c10] at hi
      by_cases c11 : name = some "set!"
      · rw [if_pos c11] at hi; exact evalSet_fromCode ev hev _ _ _ _ _ hca hd hi
      rw [if_neg c11] at hi
      by_cases c12 : name = some "lambda"
      · rw [if_pos c12] at hi
        split at hi
        · cases hi
        · rename_i hl
          cases hi
          exact ⟨evalLambda_fromCode _ _ _ hca hl, hd⟩
      rw [if_neg c12] at hi
      by_cases c13 : (isSymbolType first && decide (name = some "load")) = true
      · rw [if_pos c13] at hi
        split at hi
        · cases hi
        · rename_i he
          have hd1 := (hev _ _ _ _ _ hcf hd he).2
          split at hi
          · split at hi
            · cases hi
            · rename_i hcall
              obtain ⟨hct, hh⟩ := callPrimitive_isCode fs hfs app happ _ _ _ _ _ hcall hca
              subst hh
              split at hi
              · cases hi
              · rename_i hl
                cases hi
                exact ⟨rfl, evalLoadLoop_fromCode ev hev _ _ _ _ hct hd1 hl⟩
          · cases hi
      rw [if_neg c13] at hi
      split at hi
      · cases hi
      · rename_i ho
        have hr := evalOperands_fromCode ev hev _ makeNull _ _ _ _ hc rfl hd ho
        split at hi
        · rename_i hrev
          have hfa := reverseOnto_fromCode _ makeNull _ hrev hr.1 rfl
          simp only [closuresFromCode, Bool.and_eq_true] at hfa
          exact happ.1 _ _ _ _ _ _ hfa.1 hfa.2 hr.2 hi
        · cases hi
  | symbol s =>
    simp only [evalStep] at hi
    split at hi
    · cases hi
    · rename_i hl
      cases hi
      exact ⟨lookUpSymbol_fromCode _ _ _ _ hd hl, hd⟩
  | int _ => simp only [evalStep] at hi; cases hi; exact ⟨rfl, hd⟩
  | double _ => simp only [evalStep] at hi; cases hi; exact ⟨rfl, hd⟩
  | str _ => simp only [evalStep] at hi; cases hi; exact ⟨rfl, hd⟩
  | bool _ => simp only [evalStep] at hi; cases hi; exact ⟨rfl, hd⟩
  | _ => simp [evalStep] at hi

theorem eval_apply_fromCode (fs : String → Option (List Value)) (hfs : TokenFiles fs)
    (n : Nat) : EvFromCode (eval fs n) ∧ ApFromCode (apply fs n) := by
  induction n with
  | zero =>
    refine ⟨?_, ?_, ?_⟩
    · intro e f h v h1 _ _ hi; simp [eval] at hi
    · intro fn a f h v h1 _ _ _ hi; simp [apply] at hi
    · intro fn a f h r _ hi; simp [apply] at hi
  | succ n ih =>
    have hstep := applyStep_fromCode fs hfs _ _ ih.1 ih.2
    refine ⟨?_, ?_, ?_⟩
    · intro e f h v h1 hc hd hi
      rw [eval_succ] at hi
      exact evalStep_fromCode fs hfs _ _ ih.1 ih.2 _ _ _ _ _ hc hd hi
    · intro fn a f h v h1 hf ha hd hi
      rw [apply_succ] at hi
      exact hstep.1 _ _ _ _ _ _ hf ha hd hi
    · intro fn a f h r hc hi
      rw [apply_succ] at hi
      exact hstep.2 _ _ _ _ _ hc hi

theorem bindPrimitives_fromCode (table : List (String × Prim)) :
    ∀ (topFrame : Nat) (h h1 : Heap),
    bindPrimitives table topFrame h = .ok h1 → HeapFromCode h → HeapFromCode h1 := by
  induction table with
  | nil => intro _ h h1 hb hd; simp [bindPrimitives] at hb; subst hb; exact hd
  | cons p rest ih =>
    intro topFrame h h1 hb hd
    obtain ⟨name, function⟩ := p
    simp only [bindPrimitives] at hb
    split at hb
    · cases hb
    · rename_i ha
      exact ih _ _ _ hb (addBindingGlobal_fromCode _ _ _ _ _ ha hd rfl)

theorem heapFromCode_emptyTop : HeapFromCode emptyTop := by
  intro i fr hfr
  cases i with
  | zero => simp [emptyTop] at hfr; subst hfr; simp
  | succ i => simp [emptyTop] at hfr

theorem heapFromCode_primitivesTop : HeapFromCode primitivesTop := by
  unfold primitivesTop
  split
  · rename_i hb
    exact bindPrimitives_fromCode _ _ _ _ hb heapFromCode_emptyTop
  · exact heapFromCode_emptyTop

theorem interpretLoop_fromCode (fs : String → Option (List Value)) (hfs : TokenFiles fs)
    (fuel : Nat) (tree : Value) :
    ∀ (topFrame : Nat) (h : Heap) (results : List Value) (h1 : Heap),
    isCode tree = true → HeapFromCode h →
    interpretLoop fs fuel tree topFrame h = .ok (results, h1) →
    (∀ r ∈ results, closuresFromCode r = true) ∧ HeapFromCode h1 := by
  induction tree with
  | cons e rest _ ih =>
    intro topFrame h results h1 hc hd hi
    obtain ⟨hce, -, hcr⟩ := isCode_parts _ _ hc
    unfold interpretLoop at hi
    split at hi
    · cases hi
    · rename_i he
      have hr := (eval_apply_fromCode fs hfs fuel).1 _ _ _ _ _ hce hd he
      split at hi
      · cases hi
      · rename_i hrest
        have hrr := ih _ _ _ _ hcr hr.2 hrest
        cases hi
        refine ⟨?_, hrr.2⟩
        intro r hrm
        rcases List.mem_cons.1 hrm with h0 | h0
        · subst h0; exact hr.1
        · exact hrr.1 r h0
  | _ =>
    intro topFrame h results h1 _ hd hi
    simp only [interpretLoop, Except.ok.injEq, Prod.mk.injEq] at hi
    rw [← hi.1, ← hi.2]
    exact ⟨by simp, hd⟩

/-! ## The claims -/

/-- C1, the code at a failing input.  In the program
`(define x 0) (define f (lambda (y) (set! x y))) (f 5) x`
the call `(f 5)` runs `(set! x y)` in the frame of the call, whose parent is the
top-level frame that binds `x`.  `evalSet` rebuilds the bindings of the frame of the
call only, so the top-level `x` keeps the value 0: the four forms yield Void, Void,
Void and 0 (the claim says 5 for the last), and a lookup of `x` from the frame of the
call (frame 1) still gives 0. -/
theorem evalSet_misses_ancestor_binding :
    (interpretLoop noFiles 10
      (listToValue
        [listToValue [.symbol "define", .symbol "x", .int 0],
         listToValue [.symbol "define", .symbol "f",
           listToValue [.symbol "lambda", listToValue [.symbol "y"],
             listToValue [.symbol "set!", .symbol "x", .symbol "y"]]],
         listToValue [.symbol "f", .int 5],
         .symbol "x"]) 0 emptyTop).map Prod.fst
      = .ok [.void, .void, .void, .int 0] ∧
    (evalSet (eval noFiles 5) (listToValue [.symbol "x", .symbol "y"]) 1
        [{ bindings := [(.symbol "x", .int 0)], parent := none },
         { bindings := [(.symbol "y", .int 5)], parent := some 0 }]).map
        (fun r => (r.1, lookUpSymbol (.symbol "x") 1 r.2))
      = .ok (.void, .ok (.int 0)) := by
  constructor <;> rfl

/-- C2: applying a closure whose formals are pairwise-distinct symbols to as many
arguments evaluates the body forms in order, and returns what the last one returns, in a
new frame (appended to the heap) whose parent is the frame captured by the closure, not
the frame of the caller; in the new frame every formal is bound to the argument at the
same position and no other symbol is bound. -/
theorem apply_closure_lexical (fs : String → Option (List Value)) (n : Nat)
    (formals : List String) (actuals forms : List Value) (last : Value)
    (captured frame : Nat) (h : Heap)
    (hlen : formals.length = actuals.length) (hnd : formals.Nodup) :
    ∃ bs, apply fs (n + 1)
        (.closure (listToValue (formals.map .symbol)) (listToValue (forms ++ [last])) captured)
        (listToValue actuals) frame h
        = evalSequence (eval fs n) forms last h.length
            (h ++ [{ bindings := bs, parent := some captured }]) ∧
      (∀ (i : Nat) (s : String) (a : Value), formals[i]? = some s → actuals[i]? = some a →
        lookUpBindings s bs = .ok (some a)) ∧
      (∀ t, t ∉ formals → lookUpBindings t bs = .ok none) := by
  cases formals with
  | nil =>
    have hact : actuals = [] := by
      cases actuals with
      | nil => rfl
      | cons a as => simp at hlen
    subst hact
    refine ⟨[(.null, .null)], ?_, ?_, ?_⟩
    · rw [apply_succ]
      simp [applyStep, listToValue, isConsType, allocFrame, addBindingLocal, isBounded,
        getFrame, isBoundedIn, setBindings_append_self, ← evalBody_eq_evalSequence]
    · intro i s a hs; simp at hs
    · intro t _; simp [lookUpBindings]
  | cons s ss =>
    have hsym := symbols_bindAll (s :: ss) actuals [] (by simp)
    refine ⟨bindAll (s :: ss) actuals [], ?_, ?_, ?_⟩
    · rw [apply_succ]
      have hb := bindFormals_eq (s :: ss) actuals h (some captured) [] hlen hnd (by simp)
        (by intro t _; rfl)
      have hl1 : length (listToValue ((s :: ss).map Value.symbol)) = .ok (ss.length + 1) := by
        rw [length_listToValue]; simp
      have hl2 : length (listToValue actuals) = .ok (ss.length + 1) := by
        rw [length_listToValue, ← hlen]; simp
      have hc : isConsType (listToValue ((s :: ss).map Value.symbol)) = true := rfl
      simp only [applyStep, hc, hl1, hl2, allocFrame, hb, ← evalBody_eq_evalSequence]
      simp
    · intro i t a ht ha
      rw [lookUpBindings_eq t _ hsym, firstBinding_bindAll (s :: ss) actuals [] hnd i t a ht ha]
    · intro t ht
      rw [lookUpBindings_eq t _ hsym, firstBinding_bindAll_other t (s :: ss) actuals [] ht]
      rfl


/-- C2 at a concrete input: the closure of `(lambda (y) x)` made at top level (frame 0,
where `x` is 1) is applied to `0` from the frame of `(let ((x 2)) ...)` (frame 1); the
body is evaluated in a new frame under frame 0.  The whole program
`(define x 1) (define f (lambda (y) x)) (let ((x 2)) (f 0))` yields 1. -/
theorem apply_closure_lexical_witness :
    (["y"].length = [Value.int 0].length ∧ ["y"].Nodup) ∧
    (∃ bs, apply noFiles 3
        (.closure (listToValue (["y"].map .symbol)) (listToValue ([] ++ [.symbol "x"])) 0)
        (listToValue [.int 0]) 1
        [{ bindings := [(.symbol "x", .int 1)], parent := none },
         { bindings := [(.symbol "x", .int 2)], parent := some 0 }]
        = evalSequence (eval noFiles 2) [] (.symbol "x") 2
            ([{ bindings := [(.symbol "x", .int 1)], parent := none },
              { bindings := [(.symbol "x", .int 2)], parent := some 0 }]
              ++ [{ bindings := bs, parent := some 0 }]) ∧
      (∀ (i : Nat) (s : String) (a : Value), ["y"][i]? = some s →
        [Value.int 0][i]? = some a → lookUpBindings s bs = .ok (some a)) ∧
      (∀ t, t ∉ ["y"] → lookUpBindings t bs = .ok none)) ∧
    (interpretLoop noFiles 10
      (listToValue
        [listToValue [.symbol "define", .symbol "x", .int 1],
         listToValue [.symbol "define", .symbol "f",
           listToValue [.symbol "lambda", listToValue [.symbol "y"], .symbol "x"]],
         listToValue [.symbol "let", listToValue [listToValue [.symbol "x", .int 2]],
           listToValue [.symbol "f", .int 0]]]) 0 emptyTop).map Prod.fst
      = .ok [.void, .void, .int 1] :=
  ⟨⟨rfl, by decide⟩,
   apply_closure_lexical noFiles 2 ["y"] [.int 0] [] (.symbol "x") 0 1 _ rfl (by decide),
   rfl⟩

/-- C7: in a heap where every frame was allocated after its parent and every binding is
named by a symbol, `lookUpSymbol` returns the value of the first binding named `s` among
the bindings of the frame, then of its parent, and so on up the chain; a binding of the
frame itself is returned whatever the ancestors bind (shadowing); and the unbound-symbol
evaluation error is raised exactly when no binding of the chain is named `s`. -/
theorem lookUpSymbol_first_binding (h : Heap) (frame : Nat) (s : String)
    (hwf : ParentsBelow h) (hsym : SymbolNames h) (hframe : frame < h.length) :
    lookUpSymbol (.symbol s) frame h =
      (match firstBinding s (visibleBindings h frame) with
        | some v => .ok v
        | none => .error .evaluationError) ∧
    (∀ (fr : Frame) (v : Value), h[frame]? = some fr →
      firstBinding s fr.bindings = some v → lookUpSymbol (.symbol s) frame h = .ok v) ∧
    (lookUpSymbol (.symbol s) frame h = .error .evaluationError ↔
      ∀ b ∈ visibleBindings h frame, b.1 ≠ .symbol s) := by
  have hl : lookUpSymbol (.symbol s) frame h =
      (match firstBinding s (visibleBindings h frame) with
        | some v => .ok v
        | none => .error .evaluationError) := by
    simp only [lookUpSymbol, strField, visibleBindings]
    exact lookUpFrames_eq s h hwf hsym h.length (some frame)
      (by intro f hf; cases hf; exact ⟨hframe, hframe⟩)
  refine ⟨hl, ?_, ?_⟩
  · intro fr v hfr hv
    exact lookUpSymbol_local s frame h fr v hfr (hsym frame fr hfr) hv
  · rw [hl, ← firstBinding_none_iff]
    cases firstBinding s (visibleBindings h frame) <;> simp


/-- C7 at a concrete input: `x` is bound to 1 at top level and to 2 in a child frame; the
lookup from the child frame gives 2. -/
theorem lookUpSymbol_first_binding_witness :
    lookUpSymbol (.symbol "x") 1
      [{ bindings := [(.symbol "x", .int 1)], parent := none },
       { bindings := [(.symbol "y", .int 3), (.symbol "x", .int 2)], parent := some 0 }]
      = .ok (.int 2) := by
  have hw := (lookUpSymbol_first_binding
      [{ bindings := [(.symbol "x", .int 1)], parent := none },
       { bindings := [(.symbol "y", .int 3), (.symbol "x", .int 2)], parent := some 0 }]
      1 "x"
      (by
        intro i fr hi p hp
        rcases i with _ | _ | i
        · simp at hi; subst hi; simp at hp
        · simp at hi; subst hi; simp at hp; omega
        · simp at hi)
      (by
        intro i fr hi b hb
        rcases i with _ | _ | i
        · simp at hi; subst hi; simp at hb; subst hb; rfl
        · simp at hi; subst hi; simp at hb; rcases hb with hb | hb <;> subst hb <;> rfl
        · simp at hi)
      (by decide)).1
  rw [hw]
  rfl

/-- C8, the code at a failing input.  With `a` bound to `#t` and `t` to 0 at top level,
the test `X = (begin (set! t a) (set! a #f) t)` evaluates to `#t`, a value other than
`#f`; yet `(if X 1 2)` yields 2, the value of the else-branch: `evalIf` evaluates the
test a second time when its first value is a Boolean, and the second value is `#f`. -/
theorem evalIf_evaluates_test_twice :
    (eval noFiles 10
        (listToValue [.symbol "begin", listToValue [.symbol "set!", .symbol "t", .symbol "a"],
          listToValue [.symbol "set!", .symbol "a", .bool "#f"], .symbol "t"]) 0
        [{ bindings := [(.symbol "t", .int 0), (.symbol "a", .bool "#t")],
           parent := none }]).map Prod.fst
      = .ok (.bool "#t") ∧
    (eval noFiles 10
        (listToValue [.symbol "if",
          listToValue [.symbol "begin", listToValue [.symbol "set!", .symbol "t", .symbol "a"],
            listToValue [.symbol "set!", .symbol "a", .bool "#f"], .symbol "t"],
          .int 1, .int 2]) 0
        [{ bindings := [(.symbol "t", .int 0), (.symbol "a", .bool "#t")],
           parent := none }]).map Prod.fst
      = .ok (.int 2) := by
  constructor <;> rfl

/-- C9: with one more unit of fuel, `(if #f A B)` does exactly what `B` does in the same
frame and heap (same result, same heap, same fault), `A` being never evaluated;
`(if #f A)` returns Void and leaves the heap as it is; and `if` applied to a list of
fewer than 2 or more than 3 arguments is an evaluation error. -/
theorem if_false_selects_alternative (fs : String → Option (List Value)) (n : Nat)
    (A B : Value) (frame : Nat) (h : Heap) (args : Value) (k : Nat)
    (hlen : length args = .ok k) (hk : k < 2 ∨ 3 < k) :
    eval fs (n + 2) (listToValue [.symbol "if", .bool "#f", A, B]) frame h
      = eval fs (n + 1) B frame h ∧
    eval fs (n + 2) (listToValue [.symbol "if", .bool "#f", A]) frame h = .ok (.void, h) ∧
    eval fs (n + 1) (.cons (.symbol "if") args) frame h = .error .evaluationError := by
  refine ⟨?_, ?_, ?_⟩
  · simp [listToValue, eval_if, evalIf, length, evalTestIsFalse, eval_bool, isBoolType,
      strField, isNull, car]
  · simp [listToValue, eval_if, evalIf, length, evalTestIsFalse, eval_bool, isBoolType,
      strField, isNull, car]
  · have : k ≠ 3 ∧ k ≠ 2 := by omega
    rw [eval_if]
    unfold evalIf
    simp [hlen, this]


/-- C9 at a concrete input: `(if #f 1 2)`, `(if #f 1)` and `(if)`. -/
theorem if_false_selects_alternative_witness :
    (length .null = .ok 0 ∧ (0 < 2 ∨ 3 < 0)) ∧
    (eval noFiles 2 (listToValue [.symbol "if", .bool "#f", .int 1, .int 2]) 0 emptyTop
      = eval noFiles 1 (.int 2) 0 emptyTop ∧
    eval noFiles 2 (listToValue [.symbol "if", .bool "#f", .int 1]) 0 emptyTop
      = .ok (.void, emptyTop) ∧
    eval noFiles 1 (.cons (.symbol "if") .null) 0 emptyTop = .error .evaluationError) :=
  ⟨⟨rfl, Or.inl (by decide)⟩,
   if_false_selects_alternative noFiles 0 (.int 1) (.int 2) 0 emptyTop .null 0 rfl
     (Or.inl (by decide))⟩

/-- C10: in a frame `top` without parent, when `expr` evaluates to `v` (leaving a heap
whose frame `top` has symbol-named bindings), `(define s expr)` returns Void; afterwards
the lookup of `s` in `top` yields `v`; a frame that held at most one binding for `s` holds
exactly one; the bindings with other names are the same, in the same order; and no other
frame is changed. -/
theorem define_installs_binding (fs : String → Option (List Value)) (n : Nat) (s : String)
    (e v : Value) (top : Nat) (h h1 : Heap) (fr0 fr1 : Frame)
    (hfr0 : h[top]? = some fr0) (hpar : fr0.parent = none)
    (hev : eval fs n e top h = .ok (v, h1))
    (hfr1 : h1[top]? = some fr1)
    (hsym : ∀ b ∈ fr1.bindings, isSymbolType b.1 = true) :
    ∃ bs, eval fs (n + 1) (listToValue [.symbol "define", .symbol s, e]) top h
        = .ok (.void, setBindings h1 top bs) ∧
      lookUpSymbol (.symbol s) top (setBindings h1 top bs) = .ok v ∧
      (bindingCount s fr1.bindings ≤ 1 → bindingCount s bs = 1) ∧
      otherBindings s bs = otherBindings s fr1.bindings ∧
      (∀ i, i ≠ top → (setBindings h1 top bs)[i]? = h1[i]?) := by
  have hstep : ∀ h2, addBindingGlobal (.symbol s) v top h1 = .ok h2 →
      eval fs (n + 1) (listToValue [.symbol "define", .symbol s, e]) top h
        = .ok (.void, h2) := by
    intro h2 hadd
    rw [eval_succ]
    simp [evalStep, headName, listToValue, evalDefine, getFrame, hfr0, hpar, car,
      isSymbolType, length, hev, hadd]
  rcases isBoundedIn_spec s v fr1.bindings hsym with
    ⟨h1', h2'⟩ | ⟨i, h1', h2', h3', h3b, h4', h5'⟩
  · refine ⟨(.symbol s, v) :: fr1.bindings, ?_, ?_, ?_, ?_, ?_⟩
    · apply hstep
      simp [addBindingGlobal, isBounded, strField, getFrame, hfr1, h1']
    · apply lookUpSymbol_local s top _ _ v (getElem?_setBindings_self h1 top fr1 _ hfr1)
      · intro b hb
        rcases List.mem_cons.1 hb with hb | hb
        · subst hb; rfl
        · exact hsym b hb
      · simp [firstBinding]
    · intro _; simp [bindingCount, h2']
    · simp [otherBindings]
    · intro i hi; exact getElem?_setBindings_other h1 top i _ hi
  · refine ⟨updateBindingAt fr1.bindings i v, ?_, ?_, ?_, ?_, ?_⟩
    · apply hstep
      simp [addBindingGlobal, isBounded, strField, getFrame, hfr1, h1']
    · exact lookUpSymbol_local s top _ _ v (getElem?_setBindings_self h1 top fr1 _ hfr1)
        h5' h2'
    · intro hle
      rw [h3']
      omega
    · exact h4'
    · intro i hi; exact getElem?_setBindings_other h1 top i _ hi


/-- C10 at a concrete input: `(define x 7)` in a top-level frame that binds `x` and `y`. -/
theorem define_installs_binding_witness :
    ∃ bs, eval noFiles 2 (listToValue [.symbol "define", .symbol "x", .int 7]) 0
        [{ bindings := [(.symbol "y", .int 2), (.symbol "x", .int 1)], parent := none }]
        = .ok (.void, setBindings
            [{ bindings := [(.symbol "y", .int 2), (.symbol "x", .int 1)], parent := none }]
            0 bs) ∧
      lookUpSymbol (.symbol "x") 0 (setBindings
        [{ bindings := [(.symbol "y", .int 2), (.symbol "x", .int 1)], parent := none }]
        0 bs) = .ok (.int 7) ∧
      (bindingCount "x" [(.symbol "y", .int 2), (.symbol "x", .int 1)] ≤ 1 →
        bindingCount "x" bs = 1) ∧
      otherBindings "x" bs
        = otherBindings "x" [(.symbol "y", .int 2), (.symbol "x", .int 1)] ∧
      (∀ i, i ≠ 0 → (setBindings
        [{ bindings := [(.symbol "y", .int 2), (.symbol "x", .int 1)], parent := none }]
        0 bs)[i]? =
        [({ bindings := [(.symbol "y", .int 2), (.symbol "x", .int 1)], parent := none } :
          Frame)][i]?) :=
  define_installs_binding noFiles 1 "x" (.int 7) (.int 7) 0
    [{ bindings := [(.symbol "y", .int 2), (.symbol "x", .int 1)], parent := none }]
    [{ bindings := [(.symbol "y", .int 2), (.symbol "x", .int 1)], parent := none }]
    { bindings := [(.symbol "y", .int 2), (.symbol "x", .int 1)], parent := none }
    { bindings := [(.symbol "y", .int 2), (.symbol "x", .int 1)], parent := none }
    rfl rfl rfl rfl
    (by intro b hb; simp at hb; rcases hb with hb | hb <;> subst hb <;> rfl)

/-- C6 as stated fails for the empty list: the tokens of `(quote ())` parse to the single
form `(quote)`, whose evaluation is an evaluation error at every fuel, so no run returns
the empty list. -/
theorem quote_empty_list_is_error :
    parse (tokensOf (listToValue [.symbol "quote", .null]))
      = .tree (listToValue [listToValue [.symbol "quote"]]) ∧
    eval noFiles 1 (listToValue [.symbol "quote"]) 0 emptyTop = .error .evaluationError ∧
    ¬ ∃ n v h, eval noFiles n (listToValue [.symbol "quote"]) 0 emptyTop = .ok (v, h) := by
  refine ⟨by decide, rfl, ?_⟩
  rintro ⟨n, v, h, hn⟩
  cases n with
  | zero => simp [eval] at hn
  | succ n => simp [listToValue, eval_quote, length] at hn

/-- C6, amended: for every S-expression `v` built from atoms and nested non-empty lists,
the tokens of `(quote v)` parse to the one-element list holding the form `(quote v)`, and
the evaluation of that form, in any frame and heap, returns `v` itself and leaves the
heap unchanged (`v` is not evaluated); `quote` applied to a list of arguments whose
length is not one is an evaluation error. -/
theorem quote_roundtrip (v : Value) (hv : isDatum v = true)
    (fs : String → Option (List Value)) (n : Nat) (frame : Nat) (h : Heap)
    (args : Value) (k : Nat) (hlen : length args = .ok k) (hk : k ≠ 1) :
    parse (tokensOf (listToValue [.symbol "quote", v]))
      = .tree (listToValue [listToValue [.symbol "quote", v]]) ∧
    eval fs (n + 1) (listToValue [.symbol "quote", v]) frame h = .ok (v, h) ∧
    eval fs (n + 1) (.cons (.symbol "quote") args) frame h = .error .evaluationError := by
  refine ⟨?_, ?_, ?_⟩
  · have hq : isDatum (listToValue [.symbol "quote", v]) = true := by
      simp only [listToValue]
      rw [isDatum_cons_eq, isDatum_cons_eq]
      simp [hv]
      rfl
    have := (parseLoop_tokens (listToValue [.symbol "quote", v])).1 hq [] [] 0
    simpa [parse, parseLoop, listToValue] using this
  · simp [listToValue, eval_quote, length, car]
  · rw [eval_quote, hlen]
    simp [hk]

/-- C6 at a concrete input: `(quote (1 (a "s")))`, and `(quote)` for the arity error. -/
theorem quote_roundtrip_witness :
    (isDatum (listToValue [.int 1, listToValue [.symbol "a", .str "s"]]) = true ∧
      length .null = .ok 0 ∧ 0 ≠ 1) ∧
    (parse (tokensOf (listToValue [.symbol "quote",
        listToValue [.int 1, listToValue [.symbol "a", .str "s"]]]))
      = .tree (listToValue [listToValue [.symbol "quote",
        listToValue [.int 1, listToValue [.symbol "a", .str "s"]]]]) ∧
    eval noFiles 1 (listToValue [.symbol "quote",
        listToValue [.int 1, listToValue [.symbol "a", .str "s"]]]) 0 emptyTop
      = .ok (listToValue [.int 1, listToValue [.symbol "a", .str "s"]], emptyTop) ∧
    eval noFiles 1 (.cons (.symbol "quote") .null) 0 emptyTop = .error .evaluationError) :=
  ⟨⟨by decide, rfl, by decide⟩,
   quote_roundtrip (listToValue [.int 1, listToValue [.symbol "a", .str "s"]]) (by decide)
     noFiles 0 0 emptyTop .null 0 rfl (by decide)⟩

/-- C11: in a frame that has a parent, `(define ...)` raises the evaluation error,
whatever its arguments, at every fuel (also when no fuel is left to evaluate `expr`) and
whatever evaluator would be called for `expr`: the test of `frame->parent` comes first,
`expr` is not evaluated, and no heap is produced, so no binding of any frame changes. -/
theorem define_below_top_is_error (fs : String → Option (List Value)) (n : Nat)
    (args : Value) (frame parent : Nat) (h : Heap) (fr : Frame)
    (hfr : h[frame]? = some fr) (hpar : fr.parent = some parent) :
    eval fs (n + 1) (.cons (.symbol "define") args) frame h = .error .evaluationError ∧
    ∀ ev : Ev, evalDefine ev args frame h = .error .evaluationError := by
  have hd : ∀ ev : Ev, evalDefine ev args frame h = .error .evaluationError := by
    intro ev
    simp [evalDefine, getFrame, hfr, hpar]
  exact ⟨by rw [eval_define]; exact hd _, hd⟩

/-- C11 at a concrete input: `(define x 1)` in a frame whose parent is frame 0. -/
theorem define_below_top_is_error_witness :
    eval noFiles 1 (listToValue [.symbol "define", .symbol "x", .int 1]) 1
      [{ bindings := [], parent := none }, { bindings := [], parent := some 0 }]
      = .error .evaluationError ∧
    ∀ ev : Ev, evalDefine ev (listToValue [.symbol "x", .int 1]) 1
      [{ bindings := [], parent := none }, { bindings := [], parent := some 0 }]
      = .error .evaluationError :=
  define_below_top_is_error noFiles 0 (listToValue [.symbol "x", .int 1]) 1 0
    [{ bindings := [], parent := none }, { bindings := [], parent := some 0 }]
    { bindings := [], parent := some 0 } rfl rfl

/-- C12: in a heap where every frame was allocated after its parent and every binding is
named by a symbol, when no binding seen from the frame is named `s`, `(set! s expr)` raises
the evaluation error, at every fuel and whatever evaluator would be called for `expr`:
`lookUpSymbol` ends the run before `expr` is evaluated; Void is not returned and no heap
(hence no new binding) is produced. -/
theorem set_unbound_is_error (fs : String → Option (List Value)) (n : Nat) (s : String)
    (e : Value) (frame : Nat) (h : Heap)
    (hwf : ParentsBelow h) (hsym : SymbolNames h) (hframe : frame < h.length)
    (hun : ∀ b ∈ visibleBindings h frame, b.1 ≠ .symbol s) :
    eval fs (n + 1) (listToValue [.symbol "set!", .symbol s, e]) frame h
      = .error .evaluationError ∧
    ∀ ev : Ev, evalSet ev (listToValue [.symbol s, e]) frame h = .error .evaluationError := by
  have hd : ∀ ev : Ev, evalSet ev (listToValue [.symbol s, e]) frame h
      = .error .evaluationError := by
    intro ev
    simp [evalSet, listToValue, car, isSymbolType, length,
      lookUpSymbol_unbound h frame s hwf hsym hframe hun]
  refine ⟨?_, hd⟩
  have := hd (eval fs n)
  simpa [listToValue, eval_set] using this

/-- C12 at a concrete input: `(set! z 5)` in a frame that binds `y` under a top-level
frame that binds `x`. -/
theorem set_unbound_is_error_witness :
    eval noFiles 1 (listToValue [.symbol "set!", .symbol "z", .int 5]) 1
      [{ bindings := [(.symbol "x", .int 1)], parent := none },
       { bindings := [(.symbol "y", .int 2)], parent := some 0 }]
      = .error .evaluationError ∧
    ∀ ev : Ev, evalSet ev (listToValue [.symbol "z", .int 5]) 1
      [{ bindings := [(.symbol "x", .int 1)], parent := none },
       { bindings := [(.symbol "y", .int 2)], parent := some 0 }]
      = .error .evaluationError :=
  set_unbound_is_error noFiles 0 "z" (.int 5) 1
    [{ bindings := [(.symbol "x", .int 1)], parent := none },
     { bindings := [(.symbol "y", .int 2)], parent := some 0 }]
    (by
      intro i fr hi p hp
      rcases i with _ | _ | i
      · simp at hi; subst hi; simp at hp
      · simp at hi; subst hi; simp at hp; omega
      · simp at hi)
    (by
      intro i fr hi b hb
      rcases i with _ | _ | i
      · simp at hi; subst hi; simp at hb; subst hb; rfl
      · simp at hi; subst hi; simp at hb; subst hb; rfl
      · simp at hi)
    (by decide)
    (by
      intro b hb
      simp [visibleBindings, chainBindings] at hb
      rcases hb with hb | hb <;> subst hb <;> simp)

/-- C13: for pairwise-distinct symbols `x1 ... xn`, when the expressions `e1 ... en`
evaluate one after the other in the enclosing frame to `v1 ... vn` (each leaving the new
frame as it was), `(let ((x1 e1) ... (xn en)) b1 ... bm)` evaluates `b1 ... bm` in order,
returning what `bm` returns, in the new frame (the one appended to the heap), whose parent
is the enclosing frame; in that frame every `xi` looks up to `vi` and no other symbol is
bound; and a binding step into the new frame changes no other frame. -/
theorem let_binds_in_fresh_frame (fs : String → Option (List Value)) (n : Nat)
    (bindings : List (String × Value)) (vs forms : List Value) (last : Value)
    (frame : Nat) (h hEnd : Heap)
    (hnd : (bindings.map Prod.fst).Nodup)
    (hsteps : BindsInOrder (eval fs n) frame h.length (some frame) bindings vs []
      (h ++ [{ bindings := [], parent := some frame }]) hEnd) :
    eval fs (n + 1)
        (listToValue (.symbol "let" :: letBindings bindings :: (forms ++ [last]))) frame h
      = evalSequence (eval fs n) forms last h.length hEnd ∧
    hEnd[h.length]? = some { bindings := bindAll (bindings.map Prod.fst) vs [],
                             parent := some frame } ∧
    (∀ (i : Nat) (x : String) (v : Value), (bindings.map Prod.fst)[i]? = some x →
      vs[i]? = some v →
      lookUpBindings x (bindAll (bindings.map Prod.fst) vs []) = .ok (some v)) ∧
    (∀ t, t ∉ bindings.map Prod.fst →
      lookUpBindings t (bindAll (bindings.map Prod.fst) vs []) = .ok none) ∧
    (∀ (var v : Value) (h1 h2 : Heap), addBindingLocal var v h.length h1 = .ok h2 →
      ∀ i, i ≠ h.length → h2[i]? = h1[i]?) := by
  have hb := evalLetBindings_ok (eval fs n) frame h.length (some frame) bindings vs []
    (h ++ [{ bindings := [], parent := some frame }]) hEnd hnd (by intro x _; rfl)
    (by simp) (by simp) hsteps
  have hsym := symbols_bindAll (bindings.map Prod.fst) vs [] (by simp)
  refine ⟨?_, hb.2, ?_, ?_, ?_⟩
  · rw [listToValue, eval_let, listToValue, evalLet]
    have hc : (!isNull (letBindings bindings) && !isConsType (letBindings bindings)) = false :=
      isNull_or_isCons_listToValue _
    simp only [hc, isNull_listToValue_append, allocFrame, hb.1, evalBody_eq_evalSequence]
    simp
  · intro i x v hx hv
    rw [lookUpBindings_eq x _ hsym, firstBinding_bindAll _ vs [] hnd i x v hx hv]
  · intro t ht
    rw [lookUpBindings_eq t _ hsym, firstBinding_bindAll_other t _ vs [] ht]
    rfl
  · intro var v h1 h2 hadd i hi
    exact getElem?_addBindingLocal_other var v h.length h1 h2 hadd i hi

/-- C13 at a concrete input: scenario 3, `(let ((x 1) (y 2)) (+ x y))`, yields 3. -/
theorem let_binds_in_fresh_frame_witness :
    ["x", "y"].Nodup ∧
    (eval noFiles 6
      (listToValue [.symbol "let",
        listToValue [listToValue [.symbol "x", .int 1], listToValue [.symbol "y", .int 2]],
        listToValue [.symbol "+", .symbol "x", .symbol "y"]]) 0 primitivesTop).map Prod.fst
      = .ok (.int 3) :=
  ⟨by decide,
   (congrArg (Except.map Prod.fst)
      (let_binds_in_fresh_frame noFiles 5 [("x", .int 1), ("y", .int 2)] [.int 1, .int 2] []
        (listToValue [.symbol "+", .symbol "x", .symbol "y"]) 0 primitivesTop _ (by decide)
        ⟨_, rfl, rfl, _, rfl, rfl, rfl⟩).1).trans (by with_unfolding_all rfl)⟩

/-- C14, the code at a failing input.  `evalLetstar` evaluates each binding expression
in the new frame in which the variable is then bound, while `evalLet` evaluates it in the
enclosing frame.  So `(let* ((f (lambda (n) f))) (f 0))` returns the closure bound to `f`
(the closure captured frame 1, where `f` is bound afterwards), while the nested form
`(let ((f (lambda (n) f))) (f 0))` raises the unbound-symbol evaluation error at top
level, and yields 1 when the top-level frame binds `f` to 1. -/
theorem letstar_differs_from_nested_let :
    (eval noFiles 10
      (listToValue [.symbol "let*",
        listToValue [listToValue [.symbol "f",
          listToValue [.symbol "lambda", listToValue [.symbol "n"], .symbol "f"]]],
        listToValue [.symbol "f", .int 0]]) 0 emptyTop).map Prod.fst
      = .ok (.closure (listToValue [.symbol "n"]) (listToValue [.symbol "f"]) 1) ∧
    eval noFiles 10
      (listToValue [.symbol "let",
        listToValue [listToValue [.symbol "f",
          listToValue [.symbol "lambda", listToValue [.symbol "n"], .symbol "f"]]],
        listToValue [.symbol "f", .int 0]]) 0 emptyTop
      = .error .evaluationError ∧
    (eval noFiles 10
      (listToValue [.symbol "let*",
        listToValue [listToValue [.symbol "f",
          listToValue [.symbol "lambda", listToValue [.symbol "n"], .symbol "f"]]],
        listToValue [.symbol "f", .int 0]]) 0
      [{ bindings := [(.symbol "f", .int 1)], parent := none }]).map Prod.fst
      = .ok (.closure (listToValue [.symbol "n"]) (listToValue [.symbol "f"]) 1) ∧
    (eval noFiles 10
      (listToValue [.symbol "let",
        listToValue [listToValue [.symbol "f",
          listToValue [.symbol "lambda", listToValue [.symbol "n"], .symbol "f"]]],
        listToValue [.symbol "f", .int 0]]) 0
      [{ bindings := [(.symbol "f", .int 1)], parent := none }]).map Prod.fst
      = .ok (.int 1) := by
  refine ⟨rfl, rfl, rfl, rfl⟩

/-- C15: for pairwise-distinct symbols `x1 ... xn`, when the expressions `e1 ... en`
evaluate one after the other in the new frame to `v1 ... vn`, `(letrec ((x1 e1) ...) body)`
evaluates the body forms in order in that new frame, which binds every `xi` to `vi`; a
`lambda` evaluated in the new frame yields a closure that captures it; from any frame
whose parent is the new frame and which does not bind `xj` itself (the frame of a call of
such a closure), `xj` looks up to `vj`; and the factorial program of scenario 4 applied
to `k` evaluates to `k!` for every `k` whose factorial fits the type `int`. -/
theorem letrec_binds_in_new_frame (fs : String → Option (List Value)) (n : Nat)
    (bindings : List (String × Value)) (vs forms : List Value) (last : Value)
    (frame : Nat) (h hEnd : Heap) (k : Nat)
    (hnd : (bindings.map Prod.fst).Nodup)
    (hsteps : BindsInOrder (eval fs n) h.length h.length (some frame) bindings vs []
      (h ++ [{ bindings := [], parent := some frame }]) hEnd)
    (hfit : (k.factorial : Int) ≤ intMax) :
    eval fs (n + 1)
        (listToValue (.symbol "letrec" :: letBindings bindings :: (forms ++ [last]))) frame h
      = evalSequence (eval fs n) forms last h.length hEnd ∧
    hEnd[h.length]? = some { bindings := bindAll (bindings.map Prod.fst) vs [],
                             parent := some frame } ∧
    (∀ (args closure : Value) (m : Nat) (h1 h2 : Heap),
      eval fs (m + 1) (.cons (.symbol "lambda") args) h.length h1 = .ok (closure, h2) →
      ∃ formal body, closure = .closure formal body h.length) ∧
    (∀ (h1 : Heap) (f : Nat) (fr : Frame) (i : Nat) (x : String) (v : Value),
      h1[h.length]? = some { bindings := bindAll (bindings.map Prod.fst) vs [],
                             parent := some frame } →
      f ≠ h.length → h1[f]? = some fr → fr.parent = some h.length →
      (∀ b ∈ fr.bindings, isSymbolType b.1 = true) → firstBinding x fr.bindings = none →
      (bindings.map Prod.fst)[i]? = some x → vs[i]? = some v →
      lookUpSymbol (.symbol x) f h1 = .ok v) ∧
    (eval noFiles 80 (factorialForm k) 0 primitivesTop).map Prod.fst
      = .ok (.int k.factorial) := by
  have hb := evalLetBindings_ok (eval fs n) h.length h.length (some frame) bindings vs []
    (h ++ [{ bindings := [], parent := some frame }]) hEnd hnd (by intro x _; rfl)
    (by simp) (by simp) hsteps
  have hsym := symbols_bindAll (bindings.map Prod.fst) vs [] (by simp)
  refine ⟨?_, hb.2, ?_, ?_, ?_⟩
  · rw [listToValue, eval_letrec, listToValue, evalLetrec]
    have hc : (!isNull (letBindings bindings) && !isConsType (letBindings bindings)) = false :=
      isNull_or_isCons_listToValue _
    simp only [hc, isNull_listToValue_append, allocFrame, hb.1, evalBody_eq_evalSequence]
    simp
  · intro args closure m h1 h2 hev
    rw [eval_succ] at hev
    simp only [evalStep, headName] at hev
    cases hl : evalLambda args h.length with
    | error err => simp [hl] at hev
    | ok c =>
      simp [hl] at hev
      obtain ⟨rfl, _⟩ := hev
      unfold evalLambda at hl
      cases hlen : length args with
      | error err => simp [hlen] at hl
      | ok len =>
        simp only [hlen] at hl
        split at hl
        · cases hl
        · split at hl
          · rename_i formals body
            cases hv : verifyFormal formals with
            | error err => simp [hv] at hl
            | ok b =>
              cases b with
              | false => simp [hv] at hl
              | true =>
                cases hd : containsDuplicate formals with
                | error err => simp [hv, hd] at hl
                | ok d =>
                  cases d with
                  | some dd => simp [hv, hd] at hl
                  | none =>
                    simp [hv, hd] at hl
                    exact ⟨formals, body, hl.symm⟩
          · cases hl
  · intro h1 f fr i x v hg hfg hf hpar hfs hfx hx hv
    exact lookUpSymbol_parent x f h.length h1 fr _ v hfg hf hpar hfs hfx hg hsym
      (firstBinding_bindAll _ vs [] hnd i x v hx hv)
  · exact factorial_small k (factorial_fits k hfit)

/-- C15 at a concrete input: a `letrec` of one `lambda`, and `(fact 5) = 120`. -/
theorem letrec_binds_in_new_frame_witness :
    (["fact"].Nodup ∧ ((Nat.factorial 5 : Nat) : Int) ≤ intMax) ∧
    (eval noFiles 80 (factorialForm 5) 0 primitivesTop).map Prod.fst = .ok (.int 120) :=
  ⟨⟨by decide, by decide⟩,
   (letrec_binds_in_new_frame noFiles 1
      [("fact", listToValue [.symbol "lambda", listToValue [.symbol "n"], .symbol "n"])]
      [.closure (listToValue [.symbol "n"]) (listToValue [.symbol "n"]) 1] []
      (listToValue [.symbol "fact", .int 5]) 0 emptyTop _ 5 (by decide)
      ⟨_, rfl, rfl, rfl⟩ (by decide)).2.2.2.2⟩

/-- C16, the code at failing inputs: `verifyFormal` checks the elements of a formal list
only and returns true for every formal that is not a pair, so `(lambda 5 x)`,
`(lambda "a" x)` and `(lambda #t x)` each return a closure where the claim says
evaluation error; `((lambda "a" a) 1 2)` even evaluates to the list `(1 2)`. -/
theorem evalLambda_accepts_non_symbol_formal :
    eval noFiles 1 (listToValue [.symbol "lambda", .int 5, .symbol "x"]) 0 emptyTop
      = .ok (.closure (.int 5) (listToValue [.symbol "x"]) 0, emptyTop) ∧
    eval noFiles 1 (listToValue [.symbol "lambda", .str "a", .symbol "x"]) 0 emptyTop
      = .ok (.closure (.str "a") (listToValue [.symbol "x"]) 0, emptyTop) ∧
    eval noFiles 1 (listToValue [.symbol "lambda", .bool "#t", .symbol "x"]) 0 emptyTop
      = .ok (.closure (.bool "#t") (listToValue [.symbol "x"]) 0, emptyTop) ∧
    (eval noFiles 5 (listToValue [listToValue [.symbol "lambda", .str "a", .symbol "a"],
        .int 1, .int 2]) 0 emptyTop).map Prod.fst
      = .ok (listToValue [.int 1, .int 2]) := by
  refine ⟨rfl, rfl, rfl, rfl⟩

/-- C17: a closure whose formal is a list of `n >= 1` elements, applied to an argument
list of another length, is an evaluation error, whatever evaluator would be called for
the body: the body is not evaluated.  For `n = 0` no such closure exists: `parse` builds
no list with an empty list as element (the tree it returns is code), and every
evaluation of code, in a heap whose closures are from code and started by `interpret`
in the heap of the primitives, returns values and leaves heaps whose closures all have
a formal that is not the empty list.  The text `((lambda () 1) 2)` is read as
`((lambda 1) 2)`, and `(lambda b)` is an evaluation error for every `b`. -/
theorem apply_checks_arity (fs : String → Option (List Value)) (k : Nat)
    (x : Value) (xs as : List Value) (body : Value) (parentFrame frame : Nat) (h : Heap)
    (hfs : TokenFiles fs) (hlen : as.length ≠ xs.length + 1) :
    apply fs (k + 1) (.closure (listToValue (x :: xs)) body parentFrame) (listToValue as)
        frame h
      = .error .evaluationError ∧
    (∀ (ev : Ev) (app : Ap),
      applyStep fs ev app (.closure (listToValue (x :: xs)) body parentFrame)
          (listToValue as) frame h
        = .error .evaluationError) ∧
    (∀ (tokens : List Value) (tree : Value), (∀ t ∈ tokens, isToken t = true) →
      parse tokens = .tree tree → isCode tree = true) ∧
    (∀ (fuel : Nat) (tree : Value) (results : List Value) (h1 : Heap),
      isCode tree = true → interpretLoop fs fuel tree 0 primitivesTop = .ok (results, h1) →
      (∀ r ∈ results, closuresFromCode r = true) ∧ HeapFromCode h1) ∧
    (∀ (n : Nat) (e : Value) (f : Nat) (h0 : Heap) (v : Value) (h1 : Heap),
      isCode e = true → HeapFromCode h0 → eval fs n e f h0 = .ok (v, h1) →
      closuresFromCode v = true ∧ HeapFromCode h1) ∧
    (∀ (formal body0 : Value) (g : Nat),
      closuresFromCode (.closure formal body0 g) = true → isNull formal = false) ∧
    parse [.openType, .openType, .symbol "lambda", .openType, .closeType, .int 1,
        .closeType, .int 2, .closeType]
      = .tree (listToValue [listToValue [listToValue [.symbol "lambda", .int 1], .int 2]]) ∧
    (∀ b : Value, eval fs (k + 1) (listToValue [.symbol "lambda", b]) frame h
      = .error .evaluationError) ∧
    eval noFiles 5 (listToValue [listToValue [.symbol "lambda", .int 1], .int 2]) 0
        primitivesTop
      = .error .evaluationError := by
  have hstep := applyStep_arity fs
  refine ⟨?_, ?_, ?_, ?_, ?_, ?_, by decide, ?_, rfl⟩
  · rw [apply_succ]; exact hstep _ _ x xs as body parentFrame frame h hlen
  · intro ev app; exact hstep ev app x xs as body parentFrame frame h hlen
  · intro tokens tree htok hp; exact parse_isCode tokens tree htok hp
  · intro fuel tree results h1 hc hi
    exact interpretLoop_fromCode fs hfs fuel tree 0 primitivesTop results h1 hc
      heapFromCode_primitivesTop hi
  · intro n e f h0 v h1 hc hd hi
    exact (eval_apply_fromCode fs hfs n).1 e f h0 v h1 hc hd hi
  · intro formal body0 g hcl
    simp only [closuresFromCode, Bool.and_eq_true] at hcl
    simpa using hcl.1
  · intro b
    rw [eval_succ]
    simp [evalStep, listToValue, headName, evalLambda, length]

/-- C17 at a concrete input: the closure of `(lambda (x) 1)` applied to the two
arguments 2 and 3. -/
theorem apply_checks_arity_witness :
    apply noFiles 1 (.closure (listToValue (.symbol "x" :: [])) (listToValue [.int 1]) 0)
        (listToValue [.int 2, .int 3]) 0 emptyTop
      = .error .evaluationError :=
  (apply_checks_arity noFiles 0 (.symbol "x") [] [.int 2, .int 3] (listToValue [.int 1])
    0 0 emptyTop (by intro name ts h; simp [noFiles] at h) (by decide)).1

/-- C18: applying a closure whose formal is the single symbol `s` to any argument list,
of any length, makes no arity check: the body forms are evaluated in order in a new frame
whose only binding is `s`, bound to the whole argument list.  When the operands
`a1 ... an` evaluate from left to right to `v1 ... vn`, `((lambda s s) a1 ... an)` returns
the list `(v1 ... vn)`, in that order. -/
theorem apply_rest_formal (fs : String → Option (List Value)) (n : Nat) (s : String)
    (args : Value) (forms : List Value) (last : Value) (captured frame : Nat) (h : Heap)
    (es vs : List Value) (h1 : Heap)
    (hev : evalList (eval fs (n + 2)) es frame h = .ok (vs, h1)) :
    apply fs (n + 1) (.closure (.symbol s) (listToValue (forms ++ [last])) captured) args
        frame h
      = evalSequence (eval fs n) forms last h.length
          (h ++ [{ bindings := [(.symbol s, args)], parent := some captured }]) ∧
    eval fs (n + 3)
        (listToValue (listToValue [.symbol "lambda", .symbol s, .symbol s] :: es)) frame h
      = .ok (listToValue vs,
          h1 ++ [{ bindings := [(.symbol s, listToValue vs)], parent := some frame }]) := by
  have hap : ∀ (m : Nat) (body : Value) (cf : Nat) (a : Value) (hp : Heap),
      apply fs (m + 1) (.closure (.symbol s) body cf) a frame hp
        = evalBody (eval fs m) body hp.length
            (hp ++ [{ bindings := [(.symbol s, a)], parent := some cf }]) := by
    intro m body cf a hp
    rw [apply_succ]
    simp [applyStep, isConsType, allocFrame, addBindingLocal, isBounded, getFrame,
      isBoundedIn, setBindings_append_self]
  refine ⟨?_, ?_⟩
  · rw [hap, evalBody_eq_evalSequence]
  · have hlam : eval fs (n + 2) (listToValue [.symbol "lambda", .symbol s, .symbol s]) frame h
        = .ok (.closure (.symbol s) (listToValue [.symbol s]) frame, h) := by
      rw [eval_succ]
      simp [evalStep, headName, listToValue, evalLambda, length, verifyFormal,
        containsDuplicate, isConsType]
    rw [eval_application fs (n + 2) (listToValue [.symbol "lambda", .symbol s, .symbol s]) es vs
      _ frame h h h1 (Or.inl rfl) hlam hev, hap]
    have hlook : lookUpSymbol (.symbol s) h1.length
        (h1 ++ [{ bindings := [(.symbol s, listToValue vs)], parent := some frame }])
        = .ok (listToValue vs) := by
      apply lookUpSymbol_local s _ _
        (Frame.mk [(.symbol s, listToValue vs)] (some frame))
      · simp
      · intro b hb; simp at hb; subst hb; rfl
      · simp [firstBinding]
    rw [show listToValue [Value.symbol s] = .cons (.symbol s) .null from rfl,
      evalBody_single, eval_succ]
    simp [evalStep, hlook]

/-- C18 at a concrete input: `((lambda args args) 1 2 3)` returns `(1 2 3)`. -/
theorem apply_rest_formal_witness :
    evalList (eval noFiles 2) [.int 1, .int 2, .int 3] 0 emptyTop
      = .ok ([.int 1, .int 2, .int 3], emptyTop) ∧
    eval noFiles 3
      (listToValue (listToValue [.symbol "lambda", .symbol "args", .symbol "args"] ::
        [.int 1, .int 2, .int 3])) 0 emptyTop
      = .ok (listToValue [.int 1, .int 2, .int 3],
          emptyTop ++ [{ bindings := [(.symbol "args", listToValue [.int 1, .int 2, .int 3])],
                         parent := some 0 }]) :=
  ⟨rfl, (apply_rest_formal noFiles 0 "args" .null [] (.symbol "args") 0 0 emptyTop
    [.int 1, .int 2, .int 3] [.int 1, .int 2, .int 3] emptyTop rfl).2⟩

/-- C19: `(and)` returns `#t`.  When the arguments `pre` evaluate in order, each once,
to values other than `#f`, and the next argument `e` evaluates to `#f`, `and` returns
`#f` with the heap left by `e`, whatever arguments follow: they are not evaluated.  When
all arguments before the last evaluate to values other than `#f`, `and` returns what the
last argument returns. -/
theorem and_short_circuit (fs : String → Option (List Value)) (n : Nat)
    (pre : List Value) (e : Value) (rest : List Value) (frame : Nat) (h h1 h2 : Heap)
    (v : Value)
    (hpre : EvalsAll (eval fs n) (fun v => !isFalseValue v) frame pre h h1)
    (he : eval fs n e frame h1 = .ok (v, h2)) (hv : isFalseValue v = true) :
    eval fs (n + 1) (listToValue [.symbol "and"]) frame h = .ok (.bool "#t", h) ∧
    eval fs (n + 1) (listToValue (.symbol "and" :: (pre ++ e :: rest))) frame h
      = .ok (.bool "#f", h2) ∧
    (∀ last : Value,
      eval fs (n + 1) (listToValue (.symbol "and" :: (pre ++ [last]))) frame h
        = eval fs n last frame h1) := by
  have hs := evalAndLoop_spec (eval fs n) pre frame h h1 hpre
  refine ⟨?_, ?_, ?_⟩
  · simp [listToValue, eval_and, evalAnd, length]
  · rw [listToValue, eval_and, evalAnd, length_listToValue]
    simp [hs.1 e rest v h2 he hv]
  · intro last
    rw [listToValue, eval_and, evalAnd, length_listToValue]
    simp [hs.2 last]

/-- C19 at a concrete input: `(and)`, `(and 1 #f (set! x 5))` and `(and 1 last)`. -/
theorem and_short_circuit_witness :
    (EvalsAll (eval noFiles 1) (fun v => !isFalseValue v) 0 [.int 1] emptyTop emptyTop ∧
      eval noFiles 1 (.bool "#f") 0 emptyTop = .ok (.bool "#f", emptyTop) ∧
      isFalseValue (.bool "#f") = true) ∧
    eval noFiles 2 (listToValue [.symbol "and"]) 0 emptyTop = .ok (.bool "#t", emptyTop) ∧
    eval noFiles 2 (listToValue (.symbol "and" ::
        ([.int 1] ++ .bool "#f" :: [listToValue [.symbol "set!", .symbol "x", .int 5]])))
        0 emptyTop
      = .ok (.bool "#f", emptyTop) ∧
    (∀ last : Value,
      eval noFiles 2 (listToValue (.symbol "and" :: ([.int 1] ++ [last]))) 0 emptyTop
        = eval noFiles 1 last 0 emptyTop) :=
  ⟨⟨⟨.int 1, emptyTop, rfl, rfl, rfl⟩, rfl, rfl⟩,
   and_short_circuit noFiles 1 [.int 1] (.bool "#f")
     [listToValue [.symbol "set!", .symbol "x", .int 5]] 0 emptyTop emptyTop emptyTop
     (.bool "#f") ⟨.int 1, emptyTop, rfl, rfl, rfl⟩ rfl rfl⟩

/-- C20: `(or)` returns `#f`.  When the arguments `pre` evaluate in order, each once, to
`#f`, and the next argument `e` evaluates to a value other than `#f`, `or` returns that
value with the heap left by `e`, whatever arguments follow: they are not evaluated.  When
all arguments before the last evaluate to `#f`, `or` returns what the last argument
returns. -/
theorem or_short_circuit (fs : String → Option (List Value)) (n : Nat)
    (pre : List Value) (e : Value) (rest : List Value) (frame : Nat) (h h1 h2 : Heap)
    (v : Value)
    (hpre : EvalsAll (eval fs n) isFalseValue frame pre h h1)
    (he : eval fs n e frame h1 = .ok (v, h2)) (hv : isFalseValue v = false) :
    eval fs (n + 1) (listToValue [.symbol "or"]) frame h = .ok (.bool "#f", h) ∧
    eval fs (n + 1) (listToValue (.symbol "or" :: (pre ++ e :: rest))) frame h
      = .ok (v, h2) ∧
    (∀ last : Value,
      eval fs (n + 1) (listToValue (.symbol "or" :: (pre ++ [last]))) frame h
        = eval fs n last frame h1) := by
  have hs := evalOrLoop_spec (eval fs n) pre frame h h1 hpre
  refine ⟨?_, ?_, ?_⟩
  · simp [listToValue, eval_or, evalOr, length]
  · rw [listToValue, eval_or, evalOr, length_listToValue]
    simp [hs.1 e rest v h2 he hv]
  · intro last
    rw [listToValue, eval_or, evalOr, length_listToValue]
    simp [hs.2 last]

/-- C20 at a concrete input: `(or)`, `(or #f 7 (set! x 5))` and `(or #f last)`. -/
theorem or_short_circuit_witness :
    (EvalsAll (eval noFiles 1) isFalseValue 0 [.bool "#f"] emptyTop emptyTop ∧
      eval noFiles 1 (.int 7) 0 emptyTop = .ok (.int 7, emptyTop) ∧
      isFalseValue (.int 7) = false) ∧
    eval noFiles 2 (listToValue [.symbol "or"]) 0 emptyTop = .ok (.bool "#f", emptyTop) ∧
    eval noFiles 2 (listToValue (.symbol "or" ::
        ([.bool "#f"] ++ .int 7 :: [listToValue [.symbol "set!", .symbol "x", .int 5]])))
        0 emptyTop
      = .ok (.int 7, emptyTop) ∧
    (∀ last : Value,
      eval noFiles 2 (listToValue (.symbol "or" :: ([.bool "#f"] ++ [last]))) 0 emptyTop
        = eval noFiles 1 last 0 emptyTop) :=
  ⟨⟨⟨.bool "#f", emptyTop, rfl, rfl, rfl⟩, rfl, rfl⟩,
   or_short_circuit noFiles 1 [.bool "#f"] (.int 7)
     [listToValue [.symbol "set!", .symbol "x", .int 5]] 0 emptyTop emptyTop emptyTop
     (.int 7) ⟨.bool "#f", emptyTop, rfl, rfl, rfl⟩ rfl rfl⟩

/-- C21, the code at a failing input.  With `a` bound to `#t` and `t` to 0 at top level,
the test `X = (begin (set! t a) (set! a #f) t)` evaluates to `#t`, a value other than
`#f`; yet `(cond (X 1))` yields Void instead of 1: `evalCond` evaluates the test of a
clause a second time when its first value is a Boolean, and the second value is `#f`. -/
theorem evalCond_evaluates_test_twice :
    (eval noFiles 10
        (listToValue [.symbol "begin", listToValue [.symbol "set!", .symbol "t", .symbol "a"],
          listToValue [.symbol "set!", .symbol "a", .bool "#f"], .symbol "t"]) 0
        [{ bindings := [(.symbol "t", .int 0), (.symbol "a", .bool "#t")],
           parent := none }]).map Prod.fst
      = .ok (.bool "#t") ∧
    (eval noFiles 10
        (listToValue [.symbol "cond",
          listToValue [
            listToValue [.symbol "begin",
              listToValue [.symbol "set!", .symbol "t", .symbol "a"],
              listToValue [.symbol "set!", .symbol "a", .bool "#f"], .symbol "t"],
            .int 1]]) 0
        [{ bindings := [(.symbol "t", .int 0), (.symbol "a", .bool "#t")],
           parent := none }]).map Prod.fst
      = .ok .void := by
  constructor <;> rfl

/-- C22, the claim as stated fails: in `(cond (#t 1) (else 2) (#t 3))` the `else` clause
is not the last one, and the result is 1, not an evaluation error, because the first
clause matches before the `else` clause is looked at. -/
theorem cond_else_not_last_unreached :
    (eval noFiles 10
        (listToValue [.symbol "cond", listToValue [.bool "#t", .int 1],
          listToValue [.symbol "else", .int 2], listToValue [.bool "#t", .int 3]])
        0 emptyTop).map Prod.fst
      = .ok (.int 1) := by
  rfl

/-- C22, amended: the position of `else` is checked when the `else` clause is reached.
Let the clauses `pre` have tests other than `else` whose evaluation has no side effect
(it leaves the heap as it is) and returns `#f`.  Then a following `else` clause with
further clauses `rest` after it is an evaluation error; a following `else` clause that
is the last one matches: its body forms are evaluated in order and the value of the
last is the result; and a following clause whose test `t`, evaluated without side
effect, returns a value other than `#f` is selected, whatever clauses `rest` come
after it (a misplaced `else` among them is not detected).  Nothing is said of tests
with side effects. -/
theorem cond_else_when_reached (fs : String → Option (List Value)) (n : Nat)
    (pre rest : List Value) (body t v : Value) (forms : List Value) (last : Value)
    (frame : Nat) (h : Heap)
    (hpre : ∀ c ∈ pre, ∃ t b, c = .cons t b ∧ isElse t = false ∧
      eval fs n t frame h = .ok (.bool "#f", h))
    (hrest : rest ≠ [])
    (hne : isElse t = false) (hev : eval fs n t frame h = .ok (v, h))
    (hv : isFalseValue v = false) :
    eval fs (n + 1)
        (listToValue (.symbol "cond" :: (pre ++ .cons (.symbol "else") body :: rest)))
        frame h
      = .error .evaluationError ∧
    eval fs (n + 1)
        (listToValue (.symbol "cond" ::
          (pre ++ [listToValue (.symbol "else" :: (forms ++ [last]))])))
        frame h
      = evalSequence (eval fs n) forms last frame h ∧
    eval fs (n + 1)
        (listToValue (.symbol "cond" ::
          (pre ++ listToValue (t :: (forms ++ [last])) :: rest)))
        frame h
      = evalSequence (eval fs n) forms last frame h := by
  obtain ⟨r, rs, rfl⟩ : ∃ r rs, rest = r :: rs := by
    cases rest with
    | nil => exact absurd rfl hrest
    | cons r rs => exact ⟨r, rs, rfl⟩
  refine ⟨?_, ?_, ?_⟩
  · rw [listToValue, eval_cond, evalCond_skip _ _ _ _ _ hpre]
    simp [listToValue, evalCond, isElse, isNull]
  · rw [listToValue, eval_cond, evalCond_skip _ _ _ _ _ hpre, ← evalBody_eq_evalSequence]
    simp [listToValue, evalCond, isElse, isNull]
  · rw [listToValue, eval_cond, evalCond_skip _ _ _ _ _ hpre, ← evalBody_eq_evalSequence]
    rw [listToValue, listToValue, evalCond_match _ _ _ _ _ _ _ hne hev hv]

/-- C22 amended, at a concrete input: `(cond (#f 1) (else 2) (#t 3))`,
`(cond (#f 1) (else 4 5))` and `(cond (#f 1) (#t 4 5) (#t 3))`. -/
theorem cond_else_when_reached_witness :
    eval noFiles 2
        (listToValue (.symbol "cond" ::
          ([listToValue [.bool "#f", .int 1]] ++
            .cons (.symbol "else") (listToValue [.int 2]) ::
              [listToValue [.bool "#t", .int 3]])))
        0 emptyTop
      = .error .evaluationError ∧
    eval noFiles 2
        (listToValue (.symbol "cond" ::
          ([listToValue [.bool "#f", .int 1]] ++
            [listToValue (.symbol "else" :: ([.int 4] ++ [.int 5]))])))
        0 emptyTop
      = evalSequence (eval noFiles 1) [.int 4] (.int 5) 0 emptyTop ∧
    eval noFiles 2
        (listToValue (.symbol "cond" ::
          ([listToValue [.bool "#f", .int 1]] ++
            listToValue (.bool "#t" :: ([.int 4] ++ [.int 5])) ::
              [listToValue [.bool "#t", .int 3]])))
        0 emptyTop
      = evalSequence (eval noFiles 1) [.int 4] (.int 5) 0 emptyTop :=
  cond_else_when_reached noFiles 1 [listToValue [.bool "#f", .int 1]]
    [listToValue [.bool "#t", .int 3]] (listToValue [.int 2]) (.bool "#t") (.bool "#t")
    [.int 4] (.int 5) 0 emptyTop
    (by
      intro c hc
      simp only [List.mem_singleton] at hc
      subst hc
      exact ⟨.bool "#f", listToValue [.int 1], rfl, rfl, rfl⟩)
    (by simp) rfl rfl rfl

/-- C23, the code at a failing input.  `(apply - 10 (quote (3)))` yields -7 while
`(- 10 3)` yields 7, and `(apply cons 1 (quote (2)))` yields the pair `(2 . 1)`:
`primitiveApply` conses every argument onto the front of `arguments`, so the procedure
is called with the arguments in reverse order. -/
theorem primitiveApply_reverses_arguments :
    (eval noFiles 10
        (listToValue [.symbol "apply", .symbol "-", .int 10,
          listToValue [.symbol "quote", listToValue [.int 3]]])
        0 primitivesTop).map Prod.fst
      = .ok (.int (-7)) ∧
    (eval noFiles 10 (listToValue [.symbol "-", .int 10, .int 3]) 0 primitivesTop).map
        Prod.fst
      = .ok (.int 7) ∧
    (eval noFiles 10
        (listToValue [.symbol "apply", .symbol "cons", .int 1,
          listToValue [.symbol "quote", listToValue [.int 2]]])
        0 primitivesTop).map Prod.fst
      = .ok (.cons (.int 2) (.int 1)) := by
  refine ⟨?_, ?_, ?_⟩
  · with_unfolding_all rfl
  · with_unfolding_all rfl
  · rfl

/-- C24: for Integer arguments `is` whose sum fits the type `int`, `+` returns the
Integer holding exactly their sum; for numeric arguments `xs` of which one is a Double it
returns a Double, holding the sum; whenever `+` returns a value for numeric arguments,
that value is an Integer if and only if every argument is an Integer; `(+)` is the
Integer 0 and `(+ 1 2 3)` is the Integer 6. -/
theorem add_integer_iff_all_integers (is : List Int) (xs : List Value)
    (hfit : intMin ≤ is.sum ∧ is.sum ≤ intMax)
    (hnum : ∀ x ∈ xs, isNumber x = true) :
    primitiveAdd (listToValue (is.map .int)) = .ok (.int is.sum) ∧
    (xs.any isDoubleType = true →
      primitiveAdd (listToValue xs) = .ok (.double (xs.map numValue).sum)) ∧
    (∀ v, primitiveAdd (listToValue xs) = .ok v →
      (isIntType v = true ↔ ∀ x ∈ xs, isIntType x = true)) ∧
    primitiveAdd .null = .ok (.int 0) ∧
    primitiveAdd (listToValue [.int 1, .int 2, .int 3]) = .ok (.int 6) := by
  have hall : ∀ ys : List Value, (∀ y ∈ ys, isNumber y = true) →
      primitiveAdd (listToValue ys)
        = storeNumber (ys.any isDoubleType) (ys.map numValue).sum := by
    intro ys hys
    simp [primitiveAdd, addLoop_numbers ys hys]
  have hints : ∀ js : List Int, intMin ≤ js.sum ∧ js.sum ≤ intMax →
      primitiveAdd (listToValue (js.map .int)) = .ok (.int js.sum) := by
    intro js hj
    rw [hall _ (by intro y hy; simp at hy; obtain ⟨j, _, rfl⟩ := hy; rfl),
      any_double_ints, sum_numValue_ints]
    simp only [storeNumber, Bool.false_eq_true, if_false]
    rw [castInt_intCast js.sum hj.1 hj.2]
  refine ⟨hints is hfit, ?_, ?_, ?_, ?_⟩
  · intro hd
    rw [hall xs hnum, hd]
    rfl
  · intro v hv
    rw [hall xs hnum] at hv
    cases hd : xs.any isDoubleType with
    | true =>
      rw [hd] at hv
      simp [storeNumber] at hv
      subst hv
      simp only [isIntType, Bool.false_eq_true, false_iff]
      intro hint
      rw [List.any_eq_true] at hd
      obtain ⟨x, hx, hxd⟩ := hd
      have := hint x hx
      cases x <;> simp [isIntType, isDoubleType] at this hxd
    | false =>
      rw [hd] at hv
      have hint : ∀ x ∈ xs, isIntType x = true := by
        intro x hx
        have h1 := hnum x hx
        have h2 : isDoubleType x = false := by
          rw [List.any_eq_false] at hd
          simpa using hd x hx
        simpa [isNumber, h2] using h1
      simp only [storeNumber] at hv
      cases hc : castInt (xs.map numValue).sum with
      | error e => simp [hc] at hv
      | ok i =>
        simp [hc] at hv
        subst hv
        exact iff_of_true rfl hint
  · rfl
  · exact hints [1, 2, 3] (by decide)

/-- C24 at a concrete input: the Integers 1 and 2, and the numbers 1 and 1/2. -/
theorem add_integer_iff_all_integers_witness :
    primitiveAdd (listToValue ([1, 2].map .int)) = .ok (.int ([1, 2] : List Int).sum) ∧
    (([Value.int 1, .double (1 / 2)]).any isDoubleType = true →
      primitiveAdd (listToValue [.int 1, .double (1 / 2)])
        = .ok (.double (([Value.int 1, .double (1 / 2)]).map numValue).sum)) :=
  ⟨(add_integer_iff_all_integers [1, 2] [.int 1, .double (1 / 2)] (by decide)
      (by decide)).1,
   (add_integer_iff_all_integers [1, 2] [.int 1, .double (1 / 2)] (by decide)
      (by decide)).2.1⟩

/-- C25, the code at a failing input.  `(<= 2 1 (quote a))` returns `#f` although its
third argument is a symbol: `primitiveLeq` returns at the first argument that is smaller
than the one before it, without looking at the arguments that follow.  `(+ 1 (quote a))`
is an evaluation error, as claimed. -/
theorem primitiveLeq_returns_before_type_check :
    primitiveLeq (listToValue [.int 2, .int 1, .symbol "a"]) = .ok (.bool "#f") ∧
    (eval noFiles 10
        (listToValue [.symbol "<=", .int 2, .int 1,
          listToValue [.symbol "quote", .symbol "a"]])
        0 primitivesTop).map Prod.fst
      = .ok (.bool "#f") ∧
    (eval noFiles 10
        (listToValue [.symbol "+", .int 1, listToValue [.symbol "quote", .symbol "a"]])
        0 primitivesTop).map Prod.fst
      = .error .evaluationError := by
  refine ⟨?_, ?_, ?_⟩
  · with_unfolding_all rfl
  · with_unfolding_all rfl
  · with_unfolding_all rfl

/-- C26: `(/ 0)` and `(/ 0.0)` are evaluation errors; `/` applied to `first` and to
further arguments `rest` of which one is the Integer 0 or the Double 0.0 is an
evaluation error, as for `(/ 1 0)`.  When the divisors are numbers other than zero (in
the one-argument form the sole argument is the divisor), `/` returns a value for a first
argument that is a Double or an Integer `i` with `-intMax ≤ i`, and for no Integer first
argument is it an evaluation error. -/
theorem div_by_zero_is_error (first : Value) (rest divisors : List Value) (i : Int)
    (d : Rat)
    (hz : ∃ x ∈ rest, isZeroNumber x = true)
    (hnum : ∀ x ∈ divisors, isNumber x = true)
    (hnz : ∀ x ∈ divisors, isZeroNumber x = false)
    (hi : -intMax ≤ i ∧ i ≤ intMax) (hi0 : divisors = [] → i ≠ 0)
    (hd0 : divisors = [] → d ≠ 0) :
    primitiveDiv (listToValue [.int 0]) = .error .evaluationError ∧
    primitiveDiv (listToValue [.double 0]) = .error .evaluationError ∧
    primitiveDiv (listToValue (first :: rest)) = .error .evaluationError ∧
    primitiveDiv (listToValue [.int 1, .int 0]) = .error .evaluationError ∧
    (∃ v, primitiveDiv (listToValue (.int i :: divisors)) = .ok v) ∧
    (∃ v, primitiveDiv (listToValue (.double d :: divisors)) = .ok v) ∧
    (∀ j : Int, (divisors = [] → j ≠ 0) →
      primitiveDiv (listToValue (.int j :: divisors)) ≠ .error .evaluationError) := by
  refine ⟨rfl, ?_, ?_, rfl, ?_, ?_, ?_⟩
  · simp [primitiveDiv, listToValue, length]
  · obtain ⟨r, rs, rfl⟩ : ∃ r rs, rest = r :: rs := by
      obtain ⟨z, hzm, -⟩ := hz
      cases rest with
      | nil => simp at hzm
      | cons r rs => exact ⟨r, rs, rfl⟩
    by_cases hf : isNumber first = true
    · cases first <;> simp [isNumber, isIntType, isDoubleType] at hf
      · exact primitiveDiv_int_error _ _ _ _ (divLoop_zero _ hz _ _)
      · exact primitiveDiv_double_error _ _ _ _ (divLoop_zero _ hz _ _)
    · exact primitiveDiv_not_number _ _ (by simpa using hf)
  · cases divisors with
    | nil => exact ⟨_, by simp [primitiveDiv, listToValue, length, hi0 rfl]; rfl⟩
    | cons r rs =>
      obtain ⟨b, q, hq, hb⟩ := divLoop_ok (r :: rs) hnum hnz false i
      rw [primitiveDiv_int_ok _ _ _ _ _ hq]
      cases b with
      | true => exact ⟨_, rfl⟩
      | false =>
        have hle : |q| ≤ 2147483647 := by
          refine le_trans (hb rfl).2 ?_
          have : |i| ≤ 2147483647 := by
            simp only [intMax] at hi
            exact abs_le.2 ⟨by omega, by omega⟩
          exact_mod_cast this
        obtain ⟨t, ht⟩ := castInt_of_abs_le q hle
        by_cases hc : (t : Rat) = q
        · exact ⟨.int t, by simp [storeQuotient, ht, hc]⟩
        · exact ⟨.double q, by simp [storeQuotient, ht, hc]⟩
  · cases divisors with
    | nil => exact ⟨_, by simp [primitiveDiv, listToValue, length, hd0 rfl]; rfl⟩
    | cons r rs =>
      obtain ⟨b, q, hq, hb⟩ := divLoop_ok (r :: rs) hnum hnz true d
      rw [primitiveDiv_double_ok _ _ _ _ _ hq]
      cases b with
      | true => exact ⟨_, rfl⟩
      | false => exact absurd (hb rfl).1 (by simp)
  · intro j hj
    cases divisors with
    | nil => simp [primitiveDiv, listToValue, length, hj rfl]
    | cons r rs =>
      obtain ⟨b, q, hq, hb⟩ := divLoop_ok (r :: rs) hnum hnz false j
      rw [primitiveDiv_int_ok _ _ _ _ _ hq]
      cases b with
      | true => simp [storeQuotient]
      | false =>
        simp only [storeQuotient]
        cases hc : castInt q with
        | error e =>
          have : e = .crash := by
            unfold castInt at hc
            split at hc <;> simp at hc
            exact hc.symm
          simp [this]
        | ok t => by_cases h : (t : Rat) = q <;> simp [h]

/-- C26 at a concrete input: `(/ 1 0)`, `(/ 7 2)` and `(/ 0.5 2)`. -/
theorem div_by_zero_is_error_witness :
    primitiveDiv (listToValue (.int 1 :: [.int 0])) = .error .evaluationError ∧
    (∃ v, primitiveDiv (listToValue (.int 7 :: [.int 2])) = .ok v) ∧
    (∃ v, primitiveDiv (listToValue (.double (1 / 2) :: [.int 2])) = .ok v) :=
  ⟨(div_by_zero_is_error (.int 1) [.int 0] [.int 2] 7 (1 / 2)
      ⟨.int 0, by simp, rfl⟩ (by decide) (by decide) (by decide)
      (fun h => absurd h (by simp)) (fun h => absurd h (by simp))).2.2.1,
   (div_by_zero_is_error (.int 1) [.int 0] [.int 2] 7 (1 / 2)
      ⟨.int 0, by simp, rfl⟩ (by decide) (by decide) (by decide)
      (fun h => absurd h (by simp)) (fun h => absurd h (by simp))).2.2.2.2.1,
   (div_by_zero_is_error (.int 1) [.int 0] [.int 2] 7 (1 / 2)
      ⟨.int 0, by simp, rfl⟩ (by decide) (by decide) (by decide)
      (fun h => absurd h (by simp)) (fun h => absurd h (by simp))).2.2.2.2.2.1⟩

/-- C27: applied to two or more numbers, `<=` returns `#t` when the sequence of the
numbers is non-decreasing and `#f` when it is not; applied to fewer than two arguments
it is an evaluation error. -/
theorem leq_iff_non_decreasing (x y : Value) (rest short : List Value)
    (hnum : ∀ v ∈ x :: y :: rest, isNumber v = true) (hshort : short.length < 2) :
    primitiveLeq (listToValue (x :: y :: rest))
      = .ok (boolValue (nonDecreasing ((x :: y :: rest).map numValue))) ∧
    primitiveLeq (listToValue short) = .error .evaluationError := by
  constructor
  · have hx : isNumber x = true := hnum x (by simp)
    have hr := leqLoop_numbers (y :: rest) (fun v hv => hnum v (by simp [hv]))
    have hlen : length (listToValue (x :: y :: rest)) = .ok (rest.length + 2) := by
      rw [length_listToValue]; rfl
    cases x <;> simp [isNumber, isIntType, isDoubleType] at hx
    · simp only [primitiveLeq, hlen]
      simp [listToValue, numValue] at hr ⊢
      exact hr _
    · simp only [primitiveLeq, hlen]
      simp [listToValue, numValue] at hr ⊢
      exact hr _
  · simp only [primitiveLeq, length_listToValue]
    simp [hshort]

/-- C27 at a concrete input: `(<= 1 2 2.0)` and `(<= 1)`. -/
theorem leq_iff_non_decreasing_witness :
    ((∀ v ∈ [Value.int 1, .int 2, .double 2], isNumber v = true) ∧
      ([Value.int 1] : List Value).length < 2) ∧
    primitiveLeq (listToValue [.int 1, .int 2, .double 2])
      = .ok (boolValue (nonDecreasing ([Value.int 1, .int 2, .double 2].map numValue))) ∧
    primitiveLeq (listToValue [.int 1]) = .error .evaluationError :=
  ⟨⟨by decide, by decide⟩,
   leq_iff_non_decreasing (.int 1) (.int 2) [.double 2] [.int 1] (by decide) (by decide)⟩

/-- C28: `car` of the pair `(a . b)` is `a`, `cdr` is `b`, and `cons` of the two is
the pair again; `car` and `cdr` of a value that is not a Cons, such as the empty list,
are evaluation errors, and so are `car` and `cdr` of an argument list whose length is
not 1. -/
theorem car_cdr_cons (a b v : Value) (args : List Value)
    (hv : isConsType v = false) (hargs : args.length ≠ 1) :
    primitiveCar (listToValue [.cons a b]) = .ok a ∧
    primitiveCdr (listToValue [.cons a b]) = .ok b ∧
    primitiveCons (listToValue [a, b]) = .ok (.cons a b) ∧
    (∀ x y, primitiveCar (listToValue [.cons a b]) = .ok x →
      primitiveCdr (listToValue [.cons a b]) = .ok y →
      primitiveCons (listToValue [x, y]) = .ok (.cons a b)) ∧
    primitiveCar (listToValue [v]) = .error .evaluationError ∧
    primitiveCdr (listToValue [v]) = .error .evaluationError ∧
    primitiveCar (listToValue [.null]) = .error .evaluationError ∧
    primitiveCar (listToValue args) = .error .evaluationError ∧
    primitiveCdr (listToValue args) = .error .evaluationError := by
  have h1 : primitiveCar (listToValue [.cons a b]) = .ok a := by
    simp [primitiveCar, listToValue, length, car, isConsType]
  have h2 : primitiveCdr (listToValue [.cons a b]) = .ok b := by
    simp [primitiveCdr, listToValue, length, car, cdr, isConsType]
  refine ⟨h1, h2, ?_, ?_, ?_, ?_, ?_, ?_, ?_⟩
  · simp [primitiveCons, listToValue, length]
  · intro x y hx hy
    rw [h1] at hx; rw [h2] at hy
    cases hx; cases hy
    simp [primitiveCons, listToValue, length]
  · simp [primitiveCar, listToValue, length, car, hv]
  · simp [primitiveCdr, listToValue, length, car, hv]
  · simp [primitiveCar, listToValue, length, car, isConsType]
  · simp only [primitiveCar, length_listToValue]
    simp [hargs]
  · simp only [primitiveCdr, length_listToValue]
    simp [hargs]

/-- C28 at a concrete input: the pair `(1)`, the non-pair `()` and no argument. -/
theorem car_cdr_cons_witness :
    primitiveCar (listToValue [.cons (.int 1) .null]) = .ok (.int 1) ∧
    primitiveCdr (listToValue [.cons (.int 1) .null]) = .ok .null ∧
    primitiveCons (listToValue [.int 1, .null]) = .ok (.cons (.int 1) .null) ∧
    primitiveCar (listToValue [.null]) = .error .evaluationError ∧
    primitiveCar (listToValue []) = .error .evaluationError :=
  ⟨(car_cdr_cons (.int 1) .null .null [] rfl (by decide)).1,
   (car_cdr_cons (.int 1) .null .null [] rfl (by decide)).2.1,
   (car_cdr_cons (.int 1) .null .null [] rfl (by decide)).2.2.1,
   (car_cdr_cons (.int 1) .null .null [] rfl (by decide)).2.2.2.2.1,
   (car_cdr_cons (.int 1) .null .null [] rfl (by decide)).2.2.2.2.2.2.2.1⟩

/-- C30, the code at a failing input.  For the program `(quote (1 2 3))` the interpreter
prints the line `(1 2 3 )`, for `(quote ((1 2) 3))` the line `((1 2 )3 )` and for
`(+ 1 2 3)` the line `6 ` with a space before the newline: `displayEval` prints a space
after every atom, also after the last one, and none after the `)` of a nested list. -/
theorem displayEval_trailing_space (fmt : Rat → String) :
    interpretPrint noFiles 10 fmt
        (listToValue [listToValue [.symbol "quote", listToValue [.int 1, .int 2, .int 3]]])
        0 primitivesTop
      = "(1 2 3 )\n" ∧
    interpretPrint noFiles 10 fmt
        (listToValue [listToValue [.symbol "quote",
          listToValue [listToValue [.int 1, .int 2], .int 3]]])
        0 primitivesTop
      = "((1 2 )3 )\n" ∧
    interpretPrint noFiles 10 fmt
        (listToValue [listToValue [.symbol "+", .int 1, .int 2, .int 3]])
        0 primitivesTop
      = "6 \n" := by
  refine ⟨?_, ?_, ?_⟩
  · rfl
  · rfl
  · with_unfolding_all rfl

/-- C31: for every S-expression `e` built from atoms and nested non-empty proper lists,
`parse` applied to the tokens that spell `e` returns the one-element list holding `e`
itself, so the elements of every nested list are in their original order at every
depth.  The tokens that spell a non-empty list are `(`, the tokens of its elements from
left to right, and `)`. -/
theorem parse_expression_roundtrip (e x : Value) (xs : List Value)
    (he : isDatum e = true) (hxs : ∀ y ∈ x :: xs, isDatum y = true) :
    parse (tokensOf e) = .tree (listToValue [e]) ∧
    tokensOf (listToValue (x :: xs))
      = .openType :: (((x :: xs).map tokensOf).flatten ++ [.closeType]) ∧
    parse (.openType :: (((x :: xs).map tokensOf).flatten ++ [.closeType]))
      = .tree (listToValue [listToValue (x :: xs)]) := by
  have hp : ∀ v, isDatum v = true → parse (tokensOf v) = .tree (listToValue [v]) := by
    intro v hv
    have := (parseLoop_tokens v).1 hv [] [] 0
    simpa [parse, parseLoop, listToValue] using this
  have ht : tokensOf (listToValue (x :: xs))
      = .openType :: (((x :: xs).map tokensOf).flatten ++ [.closeType]) := by
    rw [listToValue, tokensOf, tokensOfTail_listToValue]
    simp
  refine ⟨hp e he, ht, ?_⟩
  rw [← ht]
  exact hp _ (isDatum_listToValue x xs hxs)

/-- C31 at a concrete input: the expression `((a b) (c (1 "s")))`, and the list
`(f (1 2))` spelled element by element. -/
theorem parse_expression_roundtrip_witness :
    parse (tokensOf (listToValue [listToValue [.symbol "a", .symbol "b"],
        listToValue [.symbol "c", listToValue [.int 1, .str "s"]]]))
      = .tree (listToValue [listToValue [listToValue [.symbol "a", .symbol "b"],
        listToValue [.symbol "c", listToValue [.int 1, .str "s"]]]]) ∧
    parse (.openType :: ((([Value.symbol "f", listToValue [.int 1, .int 2]]).map
        tokensOf).flatten ++ [.closeType]))
      = .tree (listToValue [listToValue [.symbol "f", listToValue [.int 1, .int 2]]]) :=
  ⟨(parse_expression_roundtrip
      (listToValue [listToValue [.symbol "a", .symbol "b"],
        listToValue [.symbol "c", listToValue [.int 1, .str "s"]]])
      (.symbol "f") [listToValue [.int 1, .int 2]] (by decide) (by decide)).1,
   (parse_expression_roundtrip
      (listToValue [listToValue [.symbol "a", .symbol "b"],
        listToValue [.symbol "c", listToValue [.int 1, .str "s"]]])
      (.symbol "f") [listToValue [.int 1, .int 2]] (by decide) (by decide)).2.2⟩

/-- C32: the frames of the heap that `interpret` starts from have pairwise-distinct
names, and every evaluation that returns leaves a heap whose frames all have
pairwise-distinct names when it started from such a heap.  In a frame whose names are
symbols: `addBindingLocal` raises the evaluation error for a name that the frame already
binds and puts a new binding in front otherwise, so `(let ((x 1) (x 2)) x)` and the
same `letrec` are evaluation errors; `addBindingGlobal` gives the name its new value,
keeps the list of names when the name was bound (adding it in front when it was not)
and keeps the bindings of the other names; `(set! s e)`, for a bound `s` and `e`
evaluating to `newValue`, leaves in the frame the same bindings in reverse order, those
named `s` with the value `newValue`: the names are the same and the bindings of the
other names are unchanged. -/
theorem frames_keep_distinct_names (fs : String → Option (List Value)) (n : Nat)
    (s : String) (e expr newValue old : Value) (frame : Nat) (h h1 : Heap) (fr fr1 : Frame)
    (hdist : DistinctNames h)
    (hfr : h[frame]? = some fr) (hsym : ∀ b ∈ fr.bindings, isSymbolType b.1 = true)
    (hold : lookUpSymbol (.symbol s) frame h = .ok old)
    (hev : eval fs n e frame h = .ok (newValue, h1))
    (hfr1 : h1[frame]? = some fr1) (hsym1 : ∀ b ∈ fr1.bindings, isSymbolType b.1 = true) :
    DistinctNames primitivesTop ∧
    (∀ (m : Nat) (e2 : Value) (f2 : Nat) (h2 : Heap) (v : Value) (h3 : Heap),
      DistinctNames h2 → eval fs m e2 f2 h2 = .ok (v, h3) → DistinctNames h3) ∧
    (.symbol s ∈ bindingNames fr.bindings →
      addBindingLocal (.symbol s) expr frame h = .error .evaluationError) ∧
    (.symbol s ∉ bindingNames fr.bindings →
      addBindingLocal (.symbol s) expr frame h
        = .ok (setBindings h frame ((.symbol s, expr) :: fr.bindings))) ∧
    eval noFiles 5
        (listToValue [.symbol "let",
          listToValue [listToValue [.symbol "x", .int 1], listToValue [.symbol "x", .int 2]],
          .symbol "x"]) 0 emptyTop
      = .error .evaluationError ∧
    eval noFiles 5
        (listToValue [.symbol "letrec",
          listToValue [listToValue [.symbol "x", .int 1], listToValue [.symbol "x", .int 2]],
          .symbol "x"]) 0 emptyTop
      = .error .evaluationError ∧
    (∃ bs, addBindingGlobal (.symbol s) expr frame h = .ok (setBindings h frame bs) ∧
      DistinctNames (setBindings h frame bs) ∧
      firstBinding s bs = some expr ∧
      otherBindings s bs = otherBindings s fr.bindings ∧
      (.symbol s ∈ bindingNames fr.bindings → bindingNames bs = bindingNames fr.bindings) ∧
      (.symbol s ∉ bindingNames fr.bindings → bs = (.symbol s, expr) :: fr.bindings)) ∧
    (eval fs (n + 1) (listToValue [.symbol "set!", .symbol s, e]) frame h
        = .ok (.void,
            setBindings h1 frame (fr1.bindings.map (assignBinding s newValue)).reverse) ∧
      DistinctNames
        (setBindings h1 frame (fr1.bindings.map (assignBinding s newValue)).reverse) ∧
      bindingNames (fr1.bindings.map (assignBinding s newValue)).reverse
        = (bindingNames fr1.bindings).reverse ∧
      otherBindings s (fr1.bindings.map (assignBinding s newValue)).reverse
        = (otherBindings s fr1.bindings).reverse ∧
      (.symbol s ∈ bindingNames fr1.bindings →
        firstBinding s (fr1.bindings.map (assignBinding s newValue)).reverse
          = some newValue)) := by
  have hkeep := fun m => (eval_apply_keeps fs m).1
  have hdist1 : DistinctNames h1 := hkeep n _ _ _ _ _ hev hdist
  refine ⟨distinctNames_primitivesTop, ?_, ?_, ?_, rfl, rfl, ?_, ?_⟩
  · intro m e2 f2 h2 v h3 hd2 he2
    exact hkeep m _ _ _ _ _ he2 hd2
  · intro hmem
    obtain ⟨i, hi⟩ := isBoundedIn_some_of_mem s _ hsym hmem
    simp [addBindingLocal, isBounded, getFrame, hfr, hi]
  · intro hmem
    have hi := isBoundedIn_none_of_not_mem s _ hsym hmem
    simp [addBindingLocal, isBounded, getFrame, hfr, hi]
  · by_cases hmem : .symbol s ∈ bindingNames fr.bindings
    · obtain ⟨i, hi⟩ := isBoundedIn_some_of_mem s _ hsym hmem
      rcases isBoundedIn_spec s expr fr.bindings hsym with ⟨h0, -⟩ | ⟨j, hj, hf, -, -, ho, -⟩
      · rw [hi] at h0; cases h0
      · have hij : i = j := by
          rw [hi] at hj
          simpa using hj
        subst hij
        have hres : addBindingGlobal (.symbol s) expr frame h
            = .ok (setBindings h frame (updateBindingAt fr.bindings i expr)) := by
          simp [addBindingGlobal, isBounded, getFrame, hfr, hi]
        refine ⟨_, hres, addBindingGlobal_keeps _ _ _ _ _ hres hdist, hf, ho, ?_, ?_⟩
        · intro _; exact bindingNames_updateBindingAt _ _ _
        · intro hn; exact absurd hmem hn
    · have hi := isBoundedIn_none_of_not_mem s _ hsym hmem
      have hres : addBindingGlobal (.symbol s) expr frame h
          = .ok (setBindings h frame ((.symbol s, expr) :: fr.bindings)) := by
        simp [addBindingGlobal, isBounded, getFrame, hfr, hi]
      refine ⟨_, hres, addBindingGlobal_keeps _ _ _ _ _ hres hdist, ?_, ?_, ?_, ?_⟩
      · simp [firstBinding]
      · simp [otherBindings]
      · intro hm; exact absurd hm hmem
      · intro _; rfl
  · have hnames := bindingNames_assign s newValue fr1.bindings
    have hrev : bindingNames (fr1.bindings.map (assignBinding s newValue)).reverse
        = (bindingNames fr1.bindings).reverse := by
      rw [← hnames]
      simp [bindingNames]
    refine ⟨?_, ?_, hrev, ?_, ?_⟩
    · rw [listToValue, eval_set]
      simp [evalSet, listToValue, car, isSymbolType, length, hold, hev, getFrame, hfr1,
        rebuildBindings_eq s newValue fr1.bindings [] hsym1]
    · apply distinctNames_setBindings _ _ _ hdist1
      rw [hrev]
      exact List.nodup_reverse.2 (hdist1 frame fr1 hfr1)
    · rw [otherBindings_reverse, otherBindings_replace]
    · exact firstBinding_assign s newValue fr1.bindings

/-- C32 at a concrete input: in a top-level frame binding `y` to 1 and `x` to 2,
`addBindingLocal` of `x` is an evaluation error and `(set! x 5)` leaves the bindings
`x` = 5, `y` = 1. -/
theorem frames_keep_distinct_names_witness :
    addBindingLocal (.symbol "x") (.int 7) 0
        [{ bindings := [(.symbol "y", .int 1), (.symbol "x", .int 2)], parent := none }]
      = .error .evaluationError ∧
    eval noFiles 2 (listToValue [.symbol "set!", .symbol "x", .int 5]) 0
        [{ bindings := [(.symbol "y", .int 1), (.symbol "x", .int 2)], parent := none }]
      = .ok (.void,
          [{ bindings := [(.symbol "x", .int 5), (.symbol "y", .int 1)], parent := none }]) :=
  ⟨(frames_keep_distinct_names noFiles 1 "x" (.int 5) (.int 7) (.int 5) (.int 2) 0
      [{ bindings := [(.symbol "y", .int 1), (.symbol "x", .int 2)], parent := none }]
      [{ bindings := [(.symbol "y", .int 1), (.symbol "x", .int 2)], parent := none }]
      { bindings := [(.symbol "y", .int 1), (.symbol "x", .int 2)], parent := none }
      { bindings := [(.symbol "y", .int 1), (.symbol "x", .int 2)], parent := none }
      (by
        intro i fr hi
        rcases i with _ | i
        · simp at hi; subst hi; decide
        · simp at hi)
      rfl (by decide) rfl rfl rfl (by decide)).2.2.1 (by decide),
   (frames_keep_distinct_names noFiles 1 "x" (.int 5) (.int 7) (.int 5) (.int 2) 0
      [{ bindings := [(.symbol "y", .int 1), (.symbol "x", .int 2)], parent := none }]
      [{ bindings := [(.symbol "y", .int 1), (.symbol "x", .int 2)], parent := none }]
      { bindings := [(.symbol "y", .int 1), (.symbol "x", .int 2)], parent := none }
      { bindings := [(.symbol "y", .int 1), (.symbol "x", .int 2)], parent := none }
      (by
        intro i fr hi
        rcases i with _ | i
        · simp at hi; subst hi; decide
        · simp at hi)
      rfl (by decide) rfl rfl rfl (by decide)).2.2.2.2.2.2.2.1⟩

/-- C33: at every test of the loop condition of `parse`, the number of open markers on
the stack equals `depth`, `depth` is not negative, and when `depth` is positive the pop
loop, started on that stack, reaches an open marker; the run by single iterations is the
function `parse`, which on every token list either fails or returns a tree (it never
applies `car` to the exhausted stack); and when the tokens are atoms and markers, a
returned tree contains no open or close marker at any depth. -/
theorem parse_stack_invariant (tokens : List Value) :
    (∀ st ∈ parseStates tokens [] 0,
      ((countOpen st.1 : Nat) : Int) = st.2 ∧ 0 ≤ st.2 ∧
      (0 < st.2 → ∃ inner stack1, popToOpen st.1 makeNull = some (inner, stack1))) ∧
    parseRun tokens [] 0 = parse tokens ∧
    (parse tokens = .failed ∨ ∃ tree, parse tokens = .tree tree) ∧
    ((∀ t ∈ tokens, isToken t = true) →
      ∀ tree, parse tokens = .tree tree → containsMarker tree = false) := by
  refine ⟨?_, ?_, ?_, ?_⟩
  · intro st hst
    have h := parseStates_invariant tokens [] 0 rfl st hst
    refine ⟨h, by omega, ?_⟩
    intro hpos
    obtain ⟨inner1, stack1, hp, -, -⟩ := countOpen_popToOpen st.1 makeNull (by omega)
    exact ⟨inner1, stack1, hp⟩
  · exact parseRun_eq_parseLoop tokens [] 0 rfl
  · rcases parseLoop_outcome tokens [] 0 rfl with ⟨h, -⟩ | ⟨v, h, -⟩
    · exact Or.inl h
    · exact Or.inr ⟨v, h⟩
  · intro htok tree hp
    exact parseLoop_no_marker tokens [] 0 tree htok rfl (by simp) hp

/-- C33 at a concrete input: the tokens of `(a (1))`. -/
theorem parse_stack_invariant_witness :
    parse [.openType, .symbol "a", .openType, .int 1, .closeType, .closeType]
      = .tree (listToValue [listToValue [.symbol "a", listToValue [.int 1]]]) ∧
    containsMarker (listToValue [listToValue [.symbol "a", listToValue [.int 1]]])
      = false :=
  ⟨by decide,
   (parse_stack_invariant
      [.openType, .symbol "a", .openType, .int 1, .closeType, .closeType]).2.2.2
      (by decide) _ (by decide)⟩

end Scheme
